import Mathlib

/-!
zrpc: the balancers, the registry and the resolution of a service method.

A shallow embedding of the Go sources of `zrpc` (`balancer/consistentHash.go`,
`balancer/balancer.go`, `registry/registry.go`, `service/server.go`) together with the
properties stated about them.

Conventions of the embedding.

* A Go `string` is a Lean `String` holding one `Char` per byte; Go compares strings byte by
  byte (`runtime.cmpstring`), which is `cmpBytes` below.
* A Go `int` used as an index is an `Int`; indexing a slice out of range is a run-time panic,
  written `none`. A loop is a recursion on a fuel that the loop provably does not exhaust.
* A Go `map` whose keys are only looked up is a function into `Option`; a map that is ranged
  over is the list of its keys, and the unspecified iteration order of `range` is an explicit
  argument.
* A method that mutates its receiver returns the new receiver together with its way of
  leaving (`Exit`), or with `none` as result when it panics, so the state a panicking call
  leaves behind is part of the model.
* The clock, the random source and the hash of the standard library are outside the
  repository: a reading of the clock and a draw are arguments, and MD5 is written out after
  RFC 1321 and checked against its test suite.
-/

namespace Zrpc

/-! ## Strings -/

/-- Three-way byte-wise comparison of two strings (`runtime.cmpstring`). -/
def cmpBytes : List Char → List Char → Ordering
  | [], [] => Ordering.eq
  | [], _ :: _ => Ordering.lt
  | _ :: _, [] => Ordering.gt
  | a :: as, b :: bs =>
    if a.toNat < b.toNat then Ordering.lt
    else if b.toNat < a.toNat then Ordering.gt
    else cmpBytes as bs

/-- Go's `a < b` on strings. -/
def strLt (a b : String) : Bool :=
  match cmpBytes a.data b.data with
  | Ordering.lt => true
  | _ => false

/-- Go's `a <= b` on strings. -/
def strLe (a b : String) : Bool :=
  match cmpBytes a.data b.data with
  | Ordering.gt => false
  | _ => true

/-- The order `≤` on strings as a relation. -/
abbrev SLe (a b : String) : Prop := strLe a b = true

/-- The standard library's `sort.Strings`: the ascending rearrangement of the slice. -/
def sortStrings (l : List String) : List String := l.insertionSort SLe

/-- Slice indexing `nums[i]` with a Go `int` index; `none` is the index-out-of-range panic. -/
def idx (nums : List String) (i : Int) : Option String :=
  if 0 ≤ i then nums[i.toNat]? else none

/-! ## `balancer/consistentHash.go`: searching and editing the sorted slice -/

/-- The loop and tail of `find`, with `fuel` bounding the number of loop tests. Inside the loop
`right - left` is positive, where Go's truncating `/` is `Int`'s `/`. -/
def findLoop (nums : List String) (cur : String) : Nat → Int → Int → Option Int
  | 0, _, _ => none
  | fuel + 1, left, right =>
    if left < right then
      let mid := left + (right - left) / 2
      match idx nums mid with
      | none => none
      | some x =>
        if x = cur then some mid
        else if strLt x cur then findLoop nums cur fuel (mid + 1) right
        else findLoop nums cur fuel left (mid - 1)
    else
      match idx nums left with
      | none => none
      | some x => if x ≠ cur then some (-1) else some right

/-- The function `find(nums, cur)`. The guard `len(nums) == -1` of the source is never true. -/
def find (nums : List String) (cur : String) : Option Int :=
  if (nums.length : Int) = -1 then some (-1)
  else findLoop nums cur (nums.length + 1) 0 ((nums.length : Int) - 1)

/-- The loop of `findUpper`; it returns the final value of `right`. -/
def findUpperLoop (nums : List String) (cur : String) : Nat → Int → Int → Option Int
  | 0, _, _ => none
  | fuel + 1, left, right =>
    if left < right then
      let mid := left + (right - left) / 2
      match idx nums mid with
      | none => none
      | some x =>
        if strLe x cur then findUpperLoop nums cur fuel (mid + 1) right
        else findUpperLoop nums cur fuel left mid
    else some right

/-- The function `findUpper(nums, cur)`. -/
def findUpper (nums : List String) (cur : String) : Option Int :=
  if nums.length = 0 then some (-1)
  else
    match findUpperLoop nums cur (nums.length + 1) 0 ((nums.length : Int) - 1) with
    | none => none
    | some right =>
      if right = (nums.length : Int) - 1 then
        match idx nums right with
        | none => none
        | some x => if strLe x cur then some (-1) else some right
      else some right

/-- The function `addHash(nums, cur)`. -/
def addHash (nums : List String) (cur : String) : Option (List String) :=
  match findUpper nums cur with
  | none => none
  | some i =>
    if i = -1 then some (nums ++ [cur])
    else some (nums.take i.toNat ++ [cur] ++ nums.drop i.toNat)

/-- The function `deleteSlice(nums, cur)`. -/
def deleteSlice (nums : List String) (cur : String) : Option (List String) :=
  match find nums cur with
  | none => none
  | some i =>
    if i = -1 then some nums
    else if i = (nums.length : Int) - 1 then some (nums.take i.toNat)
    else some (nums.take i.toNat ++ nums.drop (i.toNat + 1))

/-! ## The hash of the balancer: `crypto.MD5` of the standard library (RFC 1321)

A 32-bit word is a natural number below `2 ^ 32`. The four chaining words `a`, `b`, `c`, `d`
are packed into one number `a + 2 ^ 32 * b + 2 ^ 64 * c + 2 ^ 96 * d`, and a 64-byte block is
the number whose little-endian bytes it is, so that word `g` of the block is
`(blk >>> (32 * g)) % 2 ^ 32`. -/

/-- The number with the given little-endian bytes. -/
def leNat : List Nat → Nat
  | [] => 0
  | b :: bs => b + 256 * leNat bs

/-- The first `k` little-endian bytes of a number. -/
def natBytes : Nat → Nat → List Nat
  | 0, _ => []
  | k + 1, x => x % 256 :: natBytes k (x / 256)

/-- The table `T` of RFC 1321, `T[i] = floor(2 ^ 32 * |sin (i + 1)|)`, as 64 words. -/
def md5Table : Nat := leNat (List.flatMap
  [3614090360, 3905402710, 606105819, 3250441966, 4118548399, 1200080426,
    2821735955, 4249261313, 1770035416, 2336552879, 4294925233, 2304563134,
    1804603682, 4254626195, 2792965006, 1236535329, 4129170786, 3225465664,
    643717713, 3921069994, 3593408605, 38016083, 3634488961, 3889429448,
    568446438, 3275163606, 4107603335, 1163531501, 2850285829, 4243563512,
    1735328473, 2368359562, 4294588738, 2272392833, 1839030562, 4259657740,
    2763975236, 1272893353, 4139469664, 3200236656, 681279174, 3936430074,
    3572445317, 76029189, 3654602809, 3873151461, 530742520, 3299628645,
    4096336452, 1126891415, 2878612391, 4237533241, 1700485571, 2399980690,
    4293915773, 2240044497, 1873313359, 4264355552, 2734768916, 1309151649,
    4149444226, 3174756917, 718787259, 3951481745] (natBytes 4))

/-- The per-step rotation amounts of RFC 1321, one byte per step. -/
def md5Shift : Nat := leNat
  [7, 12, 17, 22, 7, 12, 17, 22, 7, 12, 17, 22, 7, 12, 17, 22,
    5, 9, 14, 20, 5, 9, 14, 20, 5, 9, 14, 20, 5, 9, 14, 20,
    4, 11, 16, 23, 4, 11, 16, 23, 4, 11, 16, 23, 4, 11, 16, 23,
    6, 10, 15, 21, 6, 10, 15, 21, 6, 10, 15, 21, 6, 10, 15, 21]

/-- Rotation to the left of a 32-bit word. -/
def rotl32 (x c : Nat) : Nat := ((x <<< c) ||| (x >>> (32 - c))) % 4294967296

/-- Bitwise complement of a 32-bit word. -/
def not32 (x : Nat) : Nat := 4294967295 - x

/-- Step `i` (of 64) of the compression of the block `blk`, on the packed state `s`. -/
def md5Step (blk : Nat) (s : Nat) (i : Nat) : Nat :=
  let a := s % 4294967296
  let b := s / 4294967296 % 4294967296
  let c := s / 18446744073709551616 % 4294967296
  let d := s / 79228162514264337593543950336
  let f :=
    if i < 16 then (b &&& c) ||| (not32 b &&& d)
    else if i < 32 then (d &&& b) ||| (not32 d &&& c)
    else if i < 48 then b ^^^ c ^^^ d
    else c ^^^ (b ||| not32 d)
  let g :=
    if i < 16 then i
    else if i < 32 then (5 * i + 1) % 16
    else if i < 48 then (3 * i + 5) % 16
    else (7 * i) % 16
  let t := (f + a + (md5Table >>> (32 * i)) % 4294967296 +
    (blk >>> (32 * g)) % 4294967296) % 4294967296
  d + 4294967296 * ((b + rotl32 t ((md5Shift >>> (8 * i)) % 256)) % 4294967296) +
    18446744073709551616 * b + 79228162514264337593543950336 * c

/-- The compression of one block: 64 steps, then word-wise addition to the old state. -/
def md5Compress (s : Nat) (blk : Nat) : Nat :=
  let t := (List.range 64).foldl (md5Step blk) s
  (s % 4294967296 + t % 4294967296) % 4294967296 +
    4294967296 * ((s / 4294967296 % 4294967296 + t / 4294967296 % 4294967296) % 4294967296) +
    18446744073709551616 * ((s / 18446744073709551616 % 4294967296 +
      t / 18446744073709551616 % 4294967296) % 4294967296) +
    79228162514264337593543950336 * ((s / 79228162514264337593543950336 +
      t / 79228162514264337593543950336) % 4294967296)

/-- The padding of RFC 1321: a byte `0x80`, zero bytes up to 56 modulo 64, and the length of
the message in bits as a little-endian 64-bit number. -/
def md5Pad (msg : List Nat) : List Nat :=
  msg ++ [128] ++ List.replicate ((119 - msg.length % 64) % 64) 0 ++
    natBytes 8 ((8 * msg.length) % 18446744073709551616)

/-- The compression of the first `k` blocks of `bs`. -/
def md5Blocks : Nat → List Nat → Nat → Nat
  | 0, _, s => s
  | k + 1, bs, s => md5Blocks k (bs.drop 64) (md5Compress s (leNat (bs.take 64)))

/-- The initial chaining state `67452301 efcdab89 98badcfe 10325476` (hexadecimal words). -/
def md5Init : Nat :=
  leNat (List.flatMap [1732584193, 4023233417, 2562383102, 271733878] (natBytes 4))

/-- The 16 bytes of the MD5 digest of a sequence of bytes. -/
def md5Bytes (msg : List Nat) : List Nat :=
  natBytes 16 (md5Blocks ((md5Pad msg).length / 64) (md5Pad msg) md5Init)

/-- The digest `string(h.Sum(nil))` of a string under a fresh MD5 hasher. -/
def md5 (s : String) : String := String.mk ((md5Bytes (s.data.map Char.toNat)).map Char.ofNat)

/-! ## `balancer/consistentHash.go`: the ring -/

/-- How a call leaves: by returning, by returning a Go `error`, or by panicking. -/
inductive Exit where
  | ok : Exit
  | err (msg : String) : Exit
  | panic : Exit
  deriving DecidableEq

/-- Assignment `m[k] = v` on a map that is only looked up. -/
def mapSet {β : Type} (m : String → Option β) (k : String) (v : β) : String → Option β :=
  fun k2 => if k2 = k then some v else m k2

/-- The builtin `delete(m, k)` on a map that is only looked up. -/
def mapDelete {β : Type} (m : String → Option β) (k : String) : String → Option β :=
  fun k2 => if k2 = k then none else m k2

/-- The keys of a map in the order in which a `range` loop visits them. Go leaves that order
unspecified; the argument `order` chooses it: the keys listed in `order` come first, in that
order, and the remaining keys follow. Every order of the keys arises this way (take `order` to
be that order). -/
def rangeOrder (order keys : List String) : List String :=
  (order.dedup.filter (fun k => k ∈ keys)) ++ keys.filter (fun k => k ∉ order)

/-- The struct `ring`. The hasher `hash` is used as `Write`, `Sum(nil)`, `Reset` on a hasher
that is in its initial state, which is the digest function of the hasher; `ori` is the key
list of a `map[string]bool` whose stored values are all `true`; `numO2V` is a count of
replicas. -/
structure ring where
  hash : String → String
  virtual : List String
  ori : List String
  numO2V : Nat
  v2o : String → Option String
  o2v : String → Option (List String)

/-- The function `newRing(hash, num)`. -/
def newRing (hash : String → String) (num : Nat) : ring :=
  { hash := hash, virtual := [], numO2V := num, v2o := fun _ => none, o2v := fun _ => none,
    ori := [] }

/-- The method `ring.Find`: `none` is a panic, otherwise the returned string and error. -/
def ring.Find (r : ring) (clientAddr : String) : Option (String × Option String) :=
  if r.virtual.length = 0 then some ("", some "no node in ring")
  else
    let clientHash := r.hash clientAddr
    match findUpper r.virtual clientHash with
    | none => none
    | some i =>
      if i = -1 then
        match idx r.virtual 0 with
        | none => none
        | some h => some ((r.v2o h).getD "", none)
      else
        match idx r.virtual i with
        | none => none
        | some h => some ((r.v2o h).getD "", none)

/-- The key of the `i`-th virtual node of `addr`: `addr + "#" + strconv.Itoa(i)`. -/
def virtualKey (addr : String) (i : Nat) : String := addr ++ "#" ++ toString i

/-- The loop of `ring.AddNode` over the remaining values of `i`. -/
def addNodeLoop (addr : String) : ring → List Nat → ring × Exit
  | r, [] => (r, Exit.ok)
  | r, i :: rest =>
    let curHash := r.hash (virtualKey addr i)
    match addHash r.virtual curHash with
    | none => (r, Exit.panic)
    | some v =>
      addNodeLoop addr
        { r with
          virtual := v
          v2o := mapSet r.v2o curHash addr
          o2v := mapSet r.o2v addr
            (match r.o2v addr with
              | some l => l ++ [curHash]
              | none => [curHash]) }
        rest

/-- The method `ring.AddNode`. -/
def ring.AddNode (r : ring) (addr : String) : ring × Exit :=
  addNodeLoop addr { r with ori := if addr ∈ r.ori then r.ori else r.ori ++ [addr] }
    (List.range r.numO2V)

/-- The loop of `ring.DeleteNode` over the remaining virtual nodes of the deleted node. -/
def deleteNodeLoop : ring → List String → ring × Exit
  | r, [] => (r, Exit.ok)
  | r, item :: rest =>
    match deleteSlice r.virtual item with
    | none => ({ r with v2o := mapDelete r.v2o item }, Exit.panic)
    | some v => deleteNodeLoop { r with v2o := mapDelete r.v2o item, virtual := v } rest

/-- The method `ring.DeleteNode`. -/
def ring.DeleteNode (r : ring) (addr : String) : ring × Exit :=
  if addr ∉ r.ori then (r, Exit.err "addr dose not exist")
  else
    match deleteNodeLoop { r with ori := r.ori.erase addr } ((r.o2v addr).getD []) with
    | (r2, Exit.ok) => ({ r2 with o2v := mapDelete r2.o2v addr }, Exit.ok)
    | (r2, e) => (r2, e)

/-- The first loop of `ring.Update`, over the keys of `ori` that are still to be visited. A
visit deletes no key other than the visited one, so the keys to visit are those present when
the loop starts. -/
def updateDeleteLoop (addrs : List String) : ring → List String → ring × Exit
  | r, [] => (r, Exit.ok)
  | r, k :: rest =>
    match find addrs k with
    | none => (r, Exit.panic)
    | some i =>
      if i = -1 then
        match r.DeleteNode k with
        | (r1, Exit.ok) => updateDeleteLoop addrs r1 rest
        | (r1, e) => (r1, e)
      else updateDeleteLoop addrs r rest

/-- The second loop of `ring.Update`. -/
def updateAddLoop : ring → List String → ring × Exit
  | r, [] => (r, Exit.ok)
  | r, item :: rest =>
    if item ∉ r.ori then
      match r.AddNode item with
      | (r1, Exit.ok) => updateAddLoop r1 rest
      | (r1, e) => (r1, e)
    else updateAddLoop r rest

/-- The method `ring.Update`; `order` fixes the order of `for k := range r.ori`. -/
def ring.Update (r : ring) (addrs : List String) (order : List String) : ring × Exit :=
  match updateDeleteLoop (sortStrings addrs) r (rangeOrder order r.ori) with
  | (r1, Exit.ok) => updateAddLoop r1 (sortStrings addrs)
  | (r1, e) => (r1, e)

/-- The ring after a sequence of `Update` calls, each given by its argument and the order of
its `range` loop. A call that panics leaves the ring as it was when the panic was raised. -/
def runUpdates (r : ring) : List (List String × List String) → ring
  | [] => r
  | (addrs, order) :: rest => runUpdates (r.Update addrs order).1 rest

/-- The hashes of the `n` virtual nodes of the real node `addr`, in the order `AddNode`
computes them. -/
def vhashes (hash : String → String) (n : Nat) (addr : String) : List String :=
  (List.range n).map (fun i => hash (virtualKey addr i))

/-- The invariant of the ring: `virtual` is ascending, `ori` lists every real node once, `o2v`
holds the virtual nodes of exactly the real nodes, and `virtual` is a rearrangement of the
virtual nodes of all real nodes. -/
structure RingInv (r : ring) : Prop where
  sorted : r.virtual.Sorted SLe
  nodup : r.ori.Nodup
  o2v_eq : ∀ a ∈ r.ori, (r.o2v a).getD [] = vhashes r.hash r.numO2V a
  o2v_none : ∀ a, a ∉ r.ori → r.o2v a = none
  perm : r.virtual.Perm (r.ori.flatMap (vhashes r.hash r.numO2V))

/-- A sample ring: two replicas per node under MD5, built by one `Update` from a fresh ring. -/
def sampleRing : ring := ((newRing md5 2).Update ["10.0.0.2:9000", "10.0.0.1:9000"] []).1

/-- The method `AddNode` called for each node of a list in turn, stopping at the first call
that does not return normally. -/
def addNodes : ring → List String → ring × Exit
  | r, [] => (r, Exit.ok)
  | r, a :: rest =>
    match r.AddNode a with
    | (r1, Exit.ok) => addNodes r1 rest
    | (r1, e) => (r1, e)

/-- The map `v2o` sends a hash to a real node exactly when the node is in the ring and the hash
is one of its virtual nodes. -/
def V2OInv (r : ring) : Prop :=
  ∀ k a, r.v2o k = some a ↔ a ∈ r.ori ∧ k ∈ vhashes r.hash r.numO2V a

/-- No virtual node of one real node of `nodes` has the hash of a virtual node of another real
node of `nodes`. -/
def NoCollision (hash : String → String) (n : Nat) (nodes : List String) : Prop :=
  ∀ a ∈ nodes, ∀ b ∈ nodes, a ≠ b → ∀ k ∈ vhashes hash n a, k ∉ vhashes hash n b

/-- The invariant of a ring whose real nodes come from `nodes`, a list of nodes without
collisions between the virtual nodes of different nodes. -/
def GoodRing (nodes : List String) (r : ring) : Prop :=
  V2OInv r ∧ (∀ a ∈ r.ori, a ∈ nodes) ∧ NoCollision r.hash r.numO2V nodes

/-! ## `balancer/consistentHash.go`: the balancer -/

/-- The struct `ConsistentHashBalancer`: a ring per method. -/
structure ConsistentHashBalancer where
  ringMap : String → Option ring

/-- The balancer that `NewBalancerX` registers: `ringMap` is the empty map. -/
def ConsistentHashBalancer.fresh : ConsistentHashBalancer := { ringMap := fun _ => none }

/-- The method `ConsistentHashBalancer.refresh`. The ring of the method is updated in place,
so the map holds the updated ring however `Update` leaves. -/
def ConsistentHashBalancer.refresh (c : ConsistentHashBalancer) (mth : String)
    (addrs order : List String) : ConsistentHashBalancer × Exit :=
  let r :=
    match c.ringMap mth with
    | some r => r
    | none => newRing md5 32
  ({ ringMap := mapSet c.ringMap mth (r.Update addrs order).1 }, (r.Update addrs order).2)

/-- The method `ConsistentHashBalancer.Next`: the balancer after the call, and the returned
string, or `none` when the call panics. -/
def ConsistentHashBalancer.Next (c : ConsistentHashBalancer) (mth clientAddr : String)
    (addrs order : List String) : ConsistentHashBalancer × Option String :=
  match c.refresh mth addrs order with
  | (c1, Exit.panic) => (c1, none)
  | (c1, Exit.err _) => (c1, some "")
  | (c1, Exit.ok) =>
    match c1.ringMap mth with
    | none => (c1, none)
    | some r =>
      match r.Find clientAddr with
      | none => (c1, none)
      | some (_, some _) => (c1, some "")
      | some (target, none) => (c1, some target)

/-- The arguments of one call of `Next`, with the order of the `range` loop of its `Update`. -/
structure NextCall where
  mth : String
  clientAddr : String
  addrs : List String
  order : List String

/-- The balancer after a sequence of calls of `Next`. -/
def runNexts (c : ConsistentHashBalancer) : List NextCall → ConsistentHashBalancer
  | [] => c
  | call :: rest => runNexts (c.Next call.mth call.clientAddr call.addrs call.order).1 rest

/-- A 128-byte string that has the same MD5 digest as `collisionB`, from which it differs in
six bytes (the collision published by Wang and Yu in 2004). -/
def collisionA : String := String.mk (List.map Char.ofNat
  [209, 49, 221, 2, 197, 230, 238, 196, 105, 61, 154, 6, 152, 175, 249, 92,
    47, 202, 181, 135, 18, 70, 126, 171, 64, 4, 88, 62, 184, 251, 127, 137,
    85, 173, 52, 6, 9, 244, 179, 2, 131, 228, 136, 131, 37, 113, 65, 90,
    8, 81, 37, 232, 247, 205, 201, 159, 217, 29, 189, 242, 128, 55, 60, 91,
    216, 130, 62, 49, 86, 52, 143, 91, 174, 109, 172, 212, 54, 201, 25, 198,
    221, 83, 226, 180, 135, 218, 3, 253, 2, 57, 99, 6, 210, 72, 205, 160,
    233, 159, 51, 66, 15, 87, 126, 232, 206, 84, 182, 112, 128, 168, 13, 30,
    198, 152, 33, 188, 182, 168, 131, 147, 150, 249, 101, 43, 111, 247, 42, 112])

/-- The second string of the collision. -/
def collisionB : String := String.mk (List.map Char.ofNat
  [209, 49, 221, 2, 197, 230, 238, 196, 105, 61, 154, 6, 152, 175, 249, 92,
    47, 202, 181, 7, 18, 70, 126, 171, 64, 4, 88, 62, 184, 251, 127, 137,
    85, 173, 52, 6, 9, 244, 179, 2, 131, 228, 136, 131, 37, 241, 65, 90,
    8, 81, 37, 232, 247, 205, 201, 159, 217, 29, 189, 114, 128, 55, 60, 91,
    216, 130, 62, 49, 86, 52, 143, 91, 174, 109, 172, 212, 54, 201, 25, 198,
    221, 83, 226, 52, 135, 218, 3, 253, 2, 57, 99, 6, 210, 72, 205, 160,
    233, 159, 51, 66, 15, 87, 126, 232, 206, 84, 182, 112, 128, 40, 13, 30,
    198, 152, 33, 188, 182, 168, 131, 147, 150, 249, 101, 171, 111, 247, 42, 112])

/-! ## `balancer/balancer.go` -/

/-- The struct `RoundRobinBalancer`. The counters are Go `int`s that start at 0 and are only
incremented; they are kept as natural numbers (they do not wrap around before `2 ^ 63` calls).
A missing key reads as 0. -/
structure RoundRobinBalancer where
  last : String → Option Nat

/-- The balancer that `NewBalancerX` registers: `last` is the empty map. -/
def RoundRobinBalancer.fresh : RoundRobinBalancer := { last := fun _ => none }

/-- The method `RoundRobinBalancer.Next`: the balancer after the call and the returned string,
or `none` when the call panics (`next % 0` is a division by zero). The counter is stored
before the index expression is evaluated. -/
def RoundRobinBalancer.Next (b : RoundRobinBalancer) (mth : String) (_clientAddr : String)
    (addrs : List String) : RoundRobinBalancer × Option String :=
  let next := (b.last mth).getD 0
  let b1 : RoundRobinBalancer := { last := mapSet b.last mth (next + 1) }
  if addrs.length = 0 then (b1, none)
  else (b1, addrs[next % addrs.length]?)

/-- The arguments of one call of `RoundRobinBalancer.Next`. -/
structure RoundRobinCall where
  mth : String
  clientAddr : String
  addrs : List String

/-- The balancer after a sequence of calls of `Next`. -/
def runRoundRobin (b : RoundRobinBalancer) : List RoundRobinCall → RoundRobinBalancer
  | [] => b
  | call :: rest => runRoundRobin (b.Next call.mth call.clientAddr call.addrs).1 rest

/-- The number of calls for the method `mth` in a sequence of calls. -/
def callsFor (mth : String) (calls : List RoundRobinCall) : Nat :=
  (calls.filter (fun call => call.mth = mth)).length

/-- The method `RandomBalancer.Next`. The number that `rand.Rand.Intn` draws is an argument:
`draw` is what the source of random numbers yields, or `none` when reading it panics (as does
the zero `rand.Rand` of the source, which has no source of random numbers); `Intn(n)` panics
when `n <= 0`. -/
def RandomBalancer.Next (_mth _clientAddr : String) (addrs : List String)
    (draw : Option Nat) : Option String :=
  if addrs.length ≤ 0 then none
  else
    match draw with
    | none => none
    | some d => addrs[d % addrs.length]?

/-- The struct `BalancerX` as `NewBalancerX` builds it: `balancers` holds the random, the
round-robin and the consistent-hash balancer at the indices 0, 1 and 2, and `Strategy` maps
their names to these indices. The random balancer has no state. -/
structure BalancerX where
  roundRobin : RoundRobinBalancer
  consistentHash : ConsistentHashBalancer

/-- The function `NewBalancerX`. -/
def NewBalancerX : BalancerX :=
  { roundRobin := RoundRobinBalancer.fresh, consistentHash := ConsistentHashBalancer.fresh }

/-- The lookup `bx.Strategy[strategy]`; a name that is not registered reads as 0. -/
def strategyMode (strategy : String) : Nat :=
  if strategy = "RandomSelect" then 0
  else if strategy = "RoundRobin" then 1
  else if strategy = "ConsistentHash" then 2
  else 0

/-- The method `BalancerX.Next`; `draw` and `order` are the choices left open by the random
source and by the `range` loop of the ring. -/
def BalancerX.Next (bx : BalancerX) (strategy method clientAddr : String)
    (addrs : List String) (draw : Option Nat) (order : List String) :
    BalancerX × Option String :=
  match strategyMode strategy with
  | 0 => (bx, RandomBalancer.Next method clientAddr addrs draw)
  | 1 =>
    ({ bx with roundRobin := (bx.roundRobin.Next method clientAddr addrs).1 },
      (bx.roundRobin.Next method clientAddr addrs).2)
  | _ =>
    ({ bx with consistentHash := (bx.consistentHash.Next method clientAddr addrs order).1 },
      (bx.consistentHash.Next method clientAddr addrs order).2)

/-! ## `registry/registry.go` -/

/-- The struct `ServerItem`; a `time.Time` is a number of nanoseconds. -/
structure ServerItem where
  Addr : String
  start : Int

/-- The struct `ZRegistry` without its pointer to the shared `BalancerX`. The inner maps of
`services` are ranged over and are kept as the lists of their keys (all stored values are
`true`); a `time.Duration` is a number of nanoseconds. -/
structure ZRegistry where
  timeout : Int
  servers : String → Option ServerItem
  services : String → Option (List String)
  server2service : String → Option (List String)

/-- The function `New(timeout)`. -/
def New (timeout : Int) : ZRegistry :=
  { timeout := timeout, servers := fun _ => none, services := fun _ => none,
    server2service := fun _ => none }

/-- The loop of `putServer` over the remaining methods. -/
def putServerLoop (addr : String) :
    (String → Option (List String)) → List String → (String → Option (List String))
  | services, [] => services
  | services, m :: rest =>
    match services m with
    | some v =>
      if addr ∈ v then putServerLoop addr services rest
      else putServerLoop addr (mapSet services m (v ++ [addr])) rest
    | none => putServerLoop addr (mapSet services m [addr]) rest

/-- The method `ZRegistry.putServer`; `now` is the reading of `time.Now()`. -/
def ZRegistry.putServer (r : ZRegistry) (addr : String) (methods : List String) (now : Int) :
    ZRegistry :=
  { r with
    servers :=
      match r.servers addr with
      | none => mapSet r.servers addr { Addr := addr, start := now }
      | some s => mapSet r.servers addr { s with start := now }
    services := putServerLoop addr r.services methods
    server2service := mapSet r.server2service addr methods }

/-- The inner loop of `aliveServers`: `delete(r.services[v], server)` for each `v`; deleting
from a missing inner map does nothing. -/
def evictLoop (server : String) :
    (String → Option (List String)) → List String → (String → Option (List String))
  | services, [] => services
  | services, v :: rest =>
    match services v with
    | some set => evictLoop server (mapSet services v (set.erase server)) rest
    | none => evictLoop server services rest

/-- The loop of `aliveServers` over the servers still to be visited, with the list `alive`
built so far. It returns the registry when the loop ends and the list built, or `none` when
`r.servers[server]` is nil where its field `start` is read. A visit deletes no key of the
ranged map other than the visited one. -/
def aliveLoop (now : Int) : ZRegistry → List String → List String →
    ZRegistry × Option (List String)
  | r, [], alive => (r, some alive)
  | r, server :: rest, alive =>
    if r.timeout = 0 then aliveLoop now r rest (alive ++ [server])
    else
      match r.servers server with
      | none => (r, none)
      | some s =>
        if s.start + r.timeout > now then aliveLoop now r rest (alive ++ [server])
        else
          aliveLoop now
            { r with
              services := evictLoop server r.services ((r.server2service server).getD [])
              server2service := mapDelete r.server2service server
              servers := mapDelete r.servers server }
            rest alive

/-- The method `ZRegistry.aliveServers`; `now` is the reading of `time.Now()` and `order`
fixes the order of its `range` loop. The result is `none` when the call panics. -/
def ZRegistry.aliveServers (r : ZRegistry) (method : String) (now : Int)
    (order : List String) : ZRegistry × Option (List String) :=
  match r.services method with
  | some servers =>
    ((aliveLoop now r (rangeOrder order servers) []).1,
      (aliveLoop now r (rangeOrder order servers) []).2.map sortStrings)
  | none => (r, some [])

/-- The standard library's `strings.Split(s, ",")` on the bytes that remain, `cur` being the
bytes of the current field in reverse. -/
def splitCommaLoop : List Char → List Char → List String
  | cur, [] => [String.mk cur.reverse]
  | cur, c :: cs =>
    if c = ',' then String.mk cur.reverse :: splitCommaLoop [] cs
    else splitCommaLoop (c :: cur) cs

/-- The standard library's `strings.Split(s, ",")`. -/
def splitComma (s : String) : List String := splitCommaLoop [] s.data

/-- What the handler reads of a request: the HTTP method, the three headers and the remote
address. -/
structure Request where
  Method : String
  services : String
  mode : String
  servers : String
  RemoteAddr : String

/-- What the handler writes: the status and the header `X-Zrpc-Servers` when it is set. -/
structure Response where
  status : Nat
  servers : Option String
  deriving DecidableEq

/-- The choices a call of the handler leaves open: the reading of the clock, the draw of the
random balancer and the orders of the two `range` loops. -/
structure Choices where
  now : Int
  draw : Option Nat
  aliveOrder : List String
  ringOrder : List String

/-- The method `ZRegistry.ServeHTTP` with the shared `BalancerX`: the registry and the
balancers after the call and the response, or `none` when the handler panics before it writes
a response. A handler that returns without writing a status answers 200. -/
def ZRegistry.ServeHTTP (r : ZRegistry) (bx : BalancerX) (req : Request) (ch : Choices) :
    ZRegistry × BalancerX × Option Response :=
  if req.Method = "GET" then
    match r.aliveServers req.services ch.now ch.aliveOrder with
    | (r1, none) => (r1, bx, none)
    | (r1, some alive) =>
      match bx.Next req.mode req.services req.RemoteAddr alive ch.draw ch.ringOrder with
      | (bx1, none) => (r1, bx1, none)
      | (bx1, some target) => (r1, bx1, some { status := 200, servers := some target })
  else if req.Method = "POST" then
    if req.servers = "" then (r, bx, some { status := 500, servers := none })
    else
      (r.putServer req.servers (splitComma req.services) ch.now, bx,
        some { status := 200, servers := none })
  else (r, bx, some { status := 405, servers := none })

/-- A sample server address. -/
def sampleServer : String := "tcp@10.0.0.1:9000"

/-- The registry with a timeout of five minutes in which `sampleServer` has registered at time
0 with the method list `[first]` and one second later with the method list `[second]`. -/
def reRegistered (first second : String) : ZRegistry :=
  ((New 300000000000).putServer sampleServer [first] 0).putServer sampleServer [second]
    1000000000

/-- A `GET` request for the method `Foo.Sum` with the given selection mode. -/
def getRequest (mode : String) : Request :=
  { Method := "GET", services := "Foo.Sum", mode := mode, servers := "",
    RemoteAddr := "10.0.0.7:5000" }

/-- The `POST` request by which `sampleServer` registers the method `Foo.Sum`. -/
def postRequest : Request :=
  { Method := "POST", services := "Foo.Sum", mode := "", servers := sampleServer,
    RemoteAddr := "10.0.0.1:40000" }

/-- The choices of a call at the time `now`, with a random source that yields 0 and the
default orders of the `range` loops. -/
def choicesAt (now : Int) : Choices :=
  { now := now, draw := some 0, aliveOrder := [], ringOrder := [] }

/-- The handler called on a registry and its balancers given as a pair. -/
def serve (st : ZRegistry × BalancerX) (req : Request) (ch : Choices) :
    (ZRegistry × BalancerX) × Option Response :=
  (((st.1.ServeHTTP st.2 req ch).1, (st.1.ServeHTTP st.2 req ch).2.1),
    (st.1.ServeHTTP st.2 req ch).2.2)

/-! ## Values and reflected types -/

/-- The kinds of types that the repository tells apart (`reflect.Kind`). -/
inductive Kind where
  | Int : Kind
  | String : Kind
  | Struct : Kind
  | Ptr : Kind
  | Map : Kind
  | Slice : Kind
  | Chan : Kind
  | Interface : Kind
  deriving DecidableEq

/-- A Go value, as far as the arguments and replies of the sample methods need: an integer, a
string, the empty struct, a struct of two fields, a pointer with the value it points to, a
nil pointer or nil composite, and an empty map, slice or channel. -/
inductive Value where
  | int (n : Int) : Value
  | str (s : String) : Value
  | unit : Value
  | pair (a b : Value) : Value
  | pointer (v : Value) : Value
  | nil : Value
  | empty (k : Kind) : Value
  deriving DecidableEq

/-- A `reflect.Type`, as far as the repository inspects it: a type that is not a pointer, with
its name, the path of its package, its kind and its zero value, or the pointer type to a
type. -/
inductive RType where
  | plain (Name PkgPath : String) (kind : Kind) (zero : Value) : RType
  | ptr (elem : RType) : RType
  deriving DecidableEq

/-- The method `reflect.Type.Name`; a pointer type has no name. -/
def RType.Name : RType → String
  | RType.plain n _ _ _ => n
  | RType.ptr _ => ""

/-- The method `reflect.Type.PkgPath`; it is empty for a builtin or unnamed type. -/
def RType.PkgPath : RType → String
  | RType.plain _ p _ _ => p
  | RType.ptr _ => ""

/-- The method `reflect.Type.Kind`. -/
def RType.Kind : RType → Kind
  | RType.plain _ _ k _ => k
  | RType.ptr _ => Kind.Ptr

/-- The method `reflect.Type.Elem` of a pointer type, the only types on which the repository
calls it; `none` is its panic. -/
def RType.Elem : RType → Option RType
  | RType.plain _ _ _ _ => none
  | RType.ptr e => some e

/-- The zero value of a type (`reflect.Zero`). -/
def RType.zero : RType → Value
  | RType.plain _ _ _ z => z
  | RType.ptr _ => Value.nil

/-- A `reflect.Method` of a receiver: its name, the types of its inputs (the receiver first)
and of its outputs, and what `Func.Call` does on a receiver, an argument and a reply: the
reply after the call and the returned error, or `none` when the method panics. -/
structure Method where
  Name : String
  In : List RType
  Out : List RType
  Func : Value → Value → Value → Option (Value × Option String)

/-- The standard library's `ast.IsExported`, for a name that starts with an ASCII byte: the
name starts with an upper-case letter. Go decodes the first rune of the name and asks
`unicode.IsUpper`; for a first rune outside ASCII (an upper-case letter such as `É`) that
answer is not modelled, and this function gives `false`. -/
def IsExported (name : String) : Bool :=
  match name.data with
  | c :: _ => c.isUpper
  | [] => false

/-! ## `service/service.go` -/

/-- The struct `methodType`. The counter `numCalls` is a `uint64` that is only incremented;
it is kept as a natural number (it does not wrap around before `2 ^ 64` calls). -/
structure methodType where
  method : Method
  ArgType : RType
  ReplyType : RType
  numCalls : Nat

/-- The method `methodType.newArgv` on a receiver that may be nil; `none` is a panic (a nil
receiver is dereferenced for its field `ArgType`). -/
def methodType.newArgv : Option methodType → Option Value
  | none => none
  | some m =>
    if m.ArgType.Kind = Kind.Ptr then
      match m.ArgType.Elem with
      | none => none
      | some e => some (Value.pointer e.zero)
    else some m.ArgType.zero

/-- The method `methodType.newRpleyv` on a receiver that may be nil; `none` is a panic. -/
def methodType.newRpleyv : Option methodType → Option Value
  | none => none
  | some m =>
    match m.ReplyType.Elem with
    | none => none
    | some e =>
      if e.Kind = Kind.Map then some (Value.pointer (Value.empty Kind.Map))
      else if e.Kind = Kind.Slice then some (Value.pointer (Value.empty Kind.Slice))
      else if e.Kind = Kind.Chan then some (Value.pointer (Value.empty Kind.Chan))
      else some (Value.pointer e.zero)

/-- The struct `service`: `typ` is kept as the list of the methods declared on the type of
the receiver (of which `reflect` lists the exported ones), `rcvr` as the value of the
receiver; the pointers stored in `methods` are never nil. -/
structure service where
  name : String
  typ : List Method
  rcvr : Value
  methods : String → Option methodType

/-- The type `error`, `reflect.TypeOf((*error)(nil)).Elem()`. -/
def errorType : RType := RType.plain "error" "" Kind.Interface Value.nil

/-- The function `isExportedOrBuiltinType`. -/
def isExportedOrBuiltinType (typ : RType) : Bool :=
  if IsExported typ.Name || typ.PkgPath = "" then true else false

/-- The loop of `registerMethods` over the methods that `typ.Method(i)` yields; `none` is an
index out of range in `In` or `Out`. -/
def registerLoop :
    (String → Option methodType) → List Method → Option (String → Option methodType)
  | methods, [] => some methods
  | methods, method :: rest =>
    if method.In.length ≠ 3 ∨ method.Out.length ≠ 1 then registerLoop methods rest
    else
      match method.Out[0]?, method.In[1]?, method.In[2]? with
      | some out0, some argType, some replyType =>
        if out0 ≠ errorType ∨ replyType.Kind ≠ Kind.Ptr then registerLoop methods rest
        else if !isExportedOrBuiltinType argType && !isExportedOrBuiltinType replyType then
          registerLoop methods rest
        else
          registerLoop
            (mapSet methods method.Name
              { method := method, ArgType := argType, ReplyType := replyType, numCalls := 0 })
            rest
      | _, _, _ => none

/-- The method `service.registerMethods`: the new map `methods`. The methods that
`typ.NumMethod` and `typ.Method` list are the exported methods of the type. -/
def service.registerMethods (s : service) : Option (String → Option methodType) :=
  registerLoop (fun _ => none) (s.typ.filter (fun m => IsExported m.Name))

/-- The function `newService` on a receiver given by the name of its type, the methods
declared on the type and its value; `none` is the exit by `log.Fatalf` or a panic. -/
def newService (typeName : String) (typ : List Method) (rcvr : Value) : Option service :=
  if !IsExported typeName then none
  else
    match service.registerMethods
      { name := typeName, typ := typ, rcvr := rcvr, methods := fun _ => none } with
    | none => none
    | some methods => some { name := typeName, typ := typ, rcvr := rcvr, methods := methods }

/-- The method `service.call`: the descriptor after the call, and what the method did (the
reply after the call and the returned error), or `none` when the method panics. The counter
is incremented before the method is called. -/
def service.call (s : service) (m : methodType) (argv replyv : Value) :
    methodType × Option (Value × Option String) :=
  ({ m with numCalls := m.numCalls + 1 }, m.method.Func s.rcvr argv replyv)

/-! ## `service/service_test.go`: the receiver `Foo` -/

/-- The sum of two Go `int`s of 64 bits, with wrap-around. -/
def addInt64 (a b : Int) : Int :=
  (a + b + 9223372036854775808) % 18446744073709551616 - 9223372036854775808

/-- The type `Args` of the test. -/
def argsType : RType :=
  RType.plain "Args" "zrpc/service" Kind.Struct (Value.pair (Value.int 0) (Value.int 0))

/-- The builtin type `int`. -/
def intType : RType := RType.plain "int" "" Kind.Int (Value.int 0)

/-- The type `Foo` of the test. -/
def fooType : RType := RType.plain "Foo" "zrpc/service" Kind.Int (Value.int 0)

/-- What the methods `Foo.Sum` and `Foo.sum` of the test do: `*reply = args.Num1 +
args.Num2`, and the error returned is nil. A nil `reply` panics. -/
def fooSumFunc (_rcvr args reply : Value) : Option (Value × Option String) :=
  match args, reply with
  | Value.pair (Value.int a) (Value.int b), Value.pointer _ =>
    some (Value.pointer (Value.int (addInt64 a b)), none)
  | _, _ => none

/-- The method `Foo.Sum` of the test. -/
def fooSum : Method :=
  { Name := "Sum", In := [fooType, argsType, RType.ptr intType], Out := [errorType],
    Func := fooSumFunc }

/-- The method `Foo.sum` of the test, which is not exported. -/
def fooLowerSum : Method :=
  { Name := "sum", In := [fooType, argsType, RType.ptr intType], Out := [errorType],
    Func := fooSumFunc }

/-- The service that `newService(&foo)` builds in the tests. -/
def fooService : Option service := newService "Foo" [fooSum, fooLowerSum] (Value.int 0)

/-! ## `service/server.go`: resolving a service method -/

/-- The struct `Server`, of which `findService` reads the map `serviceMap`; the stored values
are non-nil pointers to services. -/
structure Server where
  serviceMap : String → Option service

/-- The standard library's `strings.LastIndex(s, sep)` for a separator `sep` of one byte `c`:
the index of the last byte `c` of `s`, or `-1`. -/
def lastIndexByte (c : Char) : List Char → Int
  | [] => -1
  | x :: xs =>
    if 0 ≤ lastIndexByte c xs then lastIndexByte c xs + 1
    else if x = c then 0
    else -1

/-- The method `Server.findService`: the results `svc`, `mtype` and `err`, where `none` is
nil. -/
def Server.findService (server : Server) (serviceMethod : String) :
    Option service × Option methodType × Option String :=
  let dot := lastIndexByte '.' serviceMethod.data
  if dot < 0 then
    (none, none, some ("rpc server: service/method request ill-formed:" ++ serviceMethod))
  else
    let serviceName := String.mk (serviceMethod.data.take dot.toNat)
    let methodName := String.mk (serviceMethod.data.drop (dot.toNat + 1))
    match server.serviceMap serviceName with
    | none => (none, none, some ("rpc server: can\x27t find service:" ++ serviceName))
    | some svc =>
      match svc.methods methodName with
      | none => (some svc, none, some ("rpc server: can\x27t find method:" ++ methodName))
      | some mtype => (some svc, some mtype, none)

/-- A struct type `secret` that is declared in the package of the receiver and is not
exported. -/
def secretType : RType := RType.plain "secret" "zrpc/service" Kind.Struct Value.unit

/-- A method `func (f Foo) Bad(args secret, reply *int) error`, which leaves the reply as it
is and returns nil. -/
def fooBad : Method :=
  { Name := "Bad", In := [fooType, secretType, RType.ptr intType], Out := [errorType],
    Func := fun _ _ reply => some (reply, none) }

/-- A method `func (f Foo) Fail(args Args, reply *int) error` that returns an error. -/
def fooFail : Method :=
  { Name := "Fail", In := [fooType, argsType, RType.ptr intType], Out := [errorType],
    Func := fun _ _ reply => some (reply, some "failed") }

/-- The descriptor that `registerMethods` stores for a method of `Foo` with the argument type
`Args` and the reply type `*int`. -/
def fooDescriptor (method : Method) : methodType :=
  { method := method, ArgType := argsType, ReplyType := RType.ptr intType, numCalls := 0 }

/-- The descriptor after a sequence of calls of `service.call`, each given by its `argv` and
`replyv`. -/
def runCalls (s : service) (m : methodType) : List (Value × Value) → methodType
  | [] => m
  | (argv, replyv) :: rest => runCalls s (s.call m argv replyv).1 rest

/-! ## Package `codec`: headers, frames and codecs -/

/-- Modelled from the spec: the struct `codec.Header`, which package `codec` declares in a file
that is not among the sources, `{ service_method: string, seq: u64, error: string }`. The
sequence number is kept as a natural number. -/
structure Header where
  ServiceMethod : String
  Seq : Nat
  Error : String
  deriving DecidableEq

/-- One frame of a record on a connection: an encoded header or an encoded body. -/
inductive Frame where
  | header (h : Header) : Frame
  | body (v : Value) : Frame
  deriving DecidableEq

/-- A call of a reading method of a codec, with whether its destination is nil. -/
inductive CodecCall where
  | ReadHeader (nilDest : Bool) : CodecCall
  | ReadBody (nilDest : Bool) : CodecCall
  deriving DecidableEq

/-- A `GobCodec` seen through whole frames (each read returns its bytes in full): the frames
that the connection still holds, the reading calls made so far, and the records written. -/
structure FrameCodec where
  incoming : List Frame
  calls : List CodecCall
  written : List (Header × Value)
  deriving DecidableEq

/-- The method `ReadHeader` at the level of frames: the codec after the call and the header
read or the error. At the end of the connection the error is `EOF`; otherwise the next frame
is taken off the connection, and gob decodes it into the destination: it refuses a nil
`*Header` and a frame that is not a header. -/
def FrameCodec.ReadHeader (cc : FrameCodec) (nilDest : Bool) :
    FrameCodec × Except String Header :=
  match cc.incoming with
  | [] => ({ cc with calls := cc.calls ++ [CodecCall.ReadHeader nilDest] }, Except.error "EOF")
  | f :: rest =>
    ({ cc with incoming := rest, calls := cc.calls ++ [CodecCall.ReadHeader nilDest] },
      if nilDest then Except.error "gob: DecodeValue of unassignable value"
      else
        match f with
        | Frame.header h => Except.ok h
        | Frame.body _ => Except.error "gob: type mismatch")

/-- The method `ReadBody` at the level of frames: the codec after the call and the value read
(`none` when the destination is nil, gob then discards the value) or the error. -/
def FrameCodec.ReadBody (cc : FrameCodec) (nilDest : Bool) :
    FrameCodec × Except String (Option Value) :=
  match cc.incoming with
  | [] => ({ cc with calls := cc.calls ++ [CodecCall.ReadBody nilDest] }, Except.error "EOF")
  | f :: rest =>
    ({ cc with incoming := rest, calls := cc.calls ++ [CodecCall.ReadBody nilDest] },
      if nilDest then Except.ok none
      else
        match f with
        | Frame.body v => Except.ok (some v)
        | Frame.header _ => Except.error "gob: type mismatch")

/-- The method `Write` at the level of frames: the record is appended to the records
written. -/
def FrameCodec.Write (cc : FrameCodec) (h : Header) (body : Value) : FrameCodec :=
  { cc with written := cc.written ++ [(h, body)] }

/-! ## `service/server.go`: reading and serving requests -/

/-- The constant `MagicNumber`. -/
def MagicNumber : Int := 0x3bef5c

/-- The struct `Option` of package `service` (named `ConnOption` here); the codec type is its
string and the duration a number of nanoseconds. -/
structure ConnOption where
  MagicNumber : Int
  CodecType : String
  MaxCallTime : Int

/-- The variable `invalidRequest`, the empty struct. -/
def invalidRequest : Value := Value.unit

/-- The struct `request`; `mtype` and `svc` are pointers that may be nil. -/
structure request where
  h : Header
  argv : Value
  replyv : Value
  mtype : Option methodType
  svc : Option service

/-- The value that `argv` holds after the body was decoded into `argvi`: through the pointer
when `argv` is a pointer, into the addressable value otherwise. -/
def decodeInto (argv v : Value) : Value :=
  match argv with
  | Value.pointer _ => Value.pointer v
  | _ => v

/-- The method `Server.readRequest` (with `readRequestHeader`): the codec after the call and
the results `(*request, error)`, or `none` when the call panics. The error of `findService` is
assigned to `err` and not read before `mtype` is used. -/
def Server.readRequest (server : Server) (cc : FrameCodec) :
    FrameCodec × Option (Option request × Option String) :=
  match cc.ReadHeader false with
  | (cc1, Except.error e) => (cc1, some (none, some e))
  | (cc1, Except.ok h) =>
    match methodType.newArgv (server.findService h.ServiceMethod).2.1,
      methodType.newRpleyv (server.findService h.ServiceMethod).2.1 with
    | some argv, some replyv =>
      match cc1.ReadBody false with
      | (cc2, Except.error e) =>
        (cc2, some (some
          { h := h
            argv := argv
            replyv := replyv
            mtype := (server.findService h.ServiceMethod).2.1
            svc := (server.findService h.ServiceMethod).1 }, some e))
      | (cc2, Except.ok v) =>
        (cc2, some (some
          { h := h
            argv := decodeInto argv (v.getD argv)
            replyv := replyv
            mtype := (server.findService h.ServiceMethod).2.1
            svc := (server.findService h.ServiceMethod).1 }, none))
    | _, _ => (cc1, none)

/-- The method `Server.sendResponse`: one call of `Write` under the lock `sending`. -/
def Server.sendResponse (cc : FrameCodec) (h : Header) (body : Value) : FrameCodec :=
  cc.Write h body

/-- What one turn of the loop of `serveCodec` does: it leaves the loop, it panics, it answers
a request that could not be read, or it starts `handleRequest` for the request. -/
inductive ServeTurn where
  | stop : ServeTurn
  | panicked : ServeTurn
  | answered (h : Header) (body : Value) : ServeTurn
  | started (req : request) : ServeTurn

/-- One turn of the loop of `Server.serveCodec`. -/
def Server.serveCodecTurn (server : Server) (cc : FrameCodec) : FrameCodec × ServeTurn :=
  match server.readRequest cc with
  | (cc1, none) => (cc1, ServeTurn.panicked)
  | (cc1, some (none, some _)) => (cc1, ServeTurn.stop)
  | (cc1, some (some req, some e)) =>
    (Server.sendResponse cc1 { req.h with Error := e } invalidRequest,
      ServeTurn.answered { req.h with Error := e } invalidRequest)
  | (cc1, some (some req, none)) => (cc1, ServeTurn.started req)
  | (cc1, some (none, none)) => (cc1, ServeTurn.panicked)

/-- What a run of `Server.ServeConn` did: whether `f(conn)` built a codec, whether
`serveCodec` was entered, whether the deferred `conn.Close()` ran, and how the call left. -/
structure ServeConnRun where
  codecBuilt : Bool
  served : Bool
  closed : Bool
  exit : Exit
  deriving DecidableEq

/-- The method `Server.ServeConn`. The option that the JSON decoder yields is an argument
(`none` when decoding fails), and so is the table `codec.NewCodecFuncMap`, which is declared
in a file that is not among the sources: `codecs t` tells whether the table has a constructor
for the codec type `t`. Calling the nil constructor of a missing entry panics. -/
def Server.ServeConn (decoded : Option ConnOption) (codecs : String → Bool) : ServeConnRun :=
  match decoded with
  | none => { codecBuilt := false, served := false, closed := true, exit := Exit.ok }
  | some opt =>
    if opt.MagicNumber ≠ MagicNumber then
      { codecBuilt := false, served := false, closed := true, exit := Exit.ok }
    else if codecs opt.CodecType then
      { codecBuilt := true, served := true, closed := true, exit := Exit.ok }
    else { codecBuilt := false, served := false, closed := true, exit := Exit.panic }

/-- The server of the examples: the service `Foo` of the tests is registered. -/
def fooServer : Server := { serviceMap := fun n => if n = "Foo" then fooService else none }

/-- A codec whose connection holds one request record for the given service method. -/
def requestCodec (serviceMethod : String) : FrameCodec :=
  { incoming :=
      [Frame.header { ServiceMethod := serviceMethod, Seq := 1, Error := "" },
        Frame.body (Value.pair (Value.int 1) (Value.int 2))]
    calls := []
    written := [] }

/-- The table of codecs with the gob codec only. -/
def gobOnly (t : String) : Bool := if t = "application/gob" then true else false

/-- Whether a turn of the serving loop panicked. -/
def ServeTurn.isPanicked : ServeTurn → Bool
  | ServeTurn.panicked => true
  | _ => false

/-! ## `service/server.go`: `handleRequest` and its goroutine -/

/-- The place of the goroutine that `handleRequest` starts: in the call of the method, at
`called <- true`, in the error branch at `req.h.Error = err.Error()`, at `sendResponse` and at
`sent <- true`, in the other branch at `sent <- true` and at `sendResponse`, or at its
end. -/
inductive InvokerAt where
  | calling : InvokerAt
  | signalCalled : InvokerAt
  | setError : InvokerAt
  | sendError : InvokerAt
  | signalSentAfter : InvokerAt
  | signalSentBefore : InvokerAt
  | sendReply : InvokerAt
  | finished : InvokerAt
  deriving DecidableEq

/-- The place of `handleRequest` itself: at the test `timeout == 0`, at `<-called` and
`<-sent` without timeout, at the `select`, at `<-sent` after the case `<-called`, in the case
of the timer at `req.h.Error = ...` and at `sendResponse`, or returned. -/
inductive HandlerAt where
  | start : HandlerAt
  | waitCalled : HandlerAt
  | waitSent : HandlerAt
  | selecting : HandlerAt
  | setTimeout : HandlerAt
  | sendTimeout : HandlerAt
  | returned : HandlerAt
  deriving DecidableEq

/-- The state shared by `handleRequest` and its goroutine: their places, whether the channels
`called` and `sent` (of capacity 1) hold a value, whether the timer of `time.After` has
fired, the field `Error` of the shared header `req.h`, and the records written to the
codec. -/
structure HandleState where
  invoker : InvokerAt
  handler : HandlerAt
  called : Bool
  sent : Bool
  timerFired : Bool
  hError : String
  written : List (Header × Value)
  deriving DecidableEq

/-- The state in which `handleRequest` starts. -/
def HandleState.init (h : Header) : HandleState :=
  { invoker := InvokerAt.calling, handler := HandlerAt.start, called := false, sent := false,
    timerFired := false, hError := h.Error, written := [] }

/-- What makes the next step: the goroutine of the method, `handleRequest` (with the case
that its `select` prefers when both are ready), or the timer. -/
inductive Sched where
  | invoker : Sched
  | handler (preferTimer : Bool) : Sched
  | timer : Sched
  deriving DecidableEq

/-- The message of the timeout, `fmt.Sprintf("rpc server: request handle timeout: expect
within %s", timeout)`, given the text of the duration. -/
def timeoutMessage (timeoutText : String) : String :=
  "rpc server: request handle timeout: expect within " ++ timeoutText

/-- One step of `handleRequest` and its goroutine for the request with the header `h`, when
the method leaves `reply` and returns `err`. A step of the goroutine in `calling` is the
return of the method; a step that is blocked changes nothing. The timer is started by the
`select`. -/
def handleStep (timeout : Int) (timeoutText : String) (h : Header) (reply : Value)
    (err : Option String) (s : HandleState) : Sched → HandleState
  | Sched.timer =>
    if s.handler = HandlerAt.selecting then { s with timerFired := true } else s
  | Sched.invoker =>
    match s.invoker with
    | InvokerAt.calling => { s with invoker := InvokerAt.signalCalled }
    | InvokerAt.signalCalled =>
      { s with
        called := true
        invoker := if err.isSome then InvokerAt.setError else InvokerAt.signalSentBefore }
    | InvokerAt.setError =>
      { s with hError := err.getD "", invoker := InvokerAt.sendError }
    | InvokerAt.sendError =>
      { s with
        written := s.written ++ [({ h with Error := s.hError }, invalidRequest)]
        invoker := InvokerAt.signalSentAfter }
    | InvokerAt.signalSentAfter => { s with sent := true, invoker := InvokerAt.finished }
    | InvokerAt.signalSentBefore => { s with sent := true, invoker := InvokerAt.sendReply }
    | InvokerAt.sendReply =>
      { s with
        written := s.written ++ [({ h with Error := s.hError }, reply)]
        invoker := InvokerAt.finished }
    | InvokerAt.finished => s
  | Sched.handler preferTimer =>
    match s.handler with
    | HandlerAt.start =>
      if timeout = 0 then { s with handler := HandlerAt.waitCalled }
      else { s with handler := HandlerAt.selecting }
    | HandlerAt.waitCalled =>
      if s.called then { s with called := false, handler := HandlerAt.waitSent } else s
    | HandlerAt.waitSent =>
      if s.sent then { s with sent := false, handler := HandlerAt.returned } else s
    | HandlerAt.selecting =>
      if s.timerFired ∧ (preferTimer ∨ ¬ s.called) then
        { s with handler := HandlerAt.setTimeout }
      else if s.called then { s with called := false, handler := HandlerAt.waitSent }
      else s
    | HandlerAt.setTimeout =>
      { s with hError := timeoutMessage timeoutText, handler := HandlerAt.sendTimeout }
    | HandlerAt.sendTimeout =>
      { s with
        written := s.written ++ [({ h with Error := s.hError }, invalidRequest)]
        handler := HandlerAt.returned }
    | HandlerAt.returned => s

/-- The state after the steps of a schedule. -/
def handleRun (timeout : Int) (timeoutText : String) (h : Header) (reply : Value)
    (err : Option String) : HandleState → List Sched → HandleState
  | s, [] => s
  | s, e :: rest =>
    handleRun timeout timeoutText h reply err (handleStep timeout timeoutText h reply err s e)
      rest

/-- The schedule in which the timer fires before the method returns: `handleRequest` reaches
its `select`, the timer fires, `handleRequest` writes the timeout response and returns, and
then the method returns and its goroutine runs to its end. -/
def lateMethod : List Sched :=
  [Sched.handler true, Sched.timer, Sched.handler true, Sched.handler true,
    Sched.handler true, Sched.invoker, Sched.invoker, Sched.invoker, Sched.invoker,
    Sched.invoker]

/-- The header of a request for `Foo.Sum`. -/
def sumHeader : Header := { ServiceMethod := "Foo.Sum", Seq := 7, Error := "" }

/-! ## `client/client.go` -/

/-- The struct `Call`. The channel `Done` is kept as the number of times the call was sent on
it; the error is its text, `none` when it is nil. -/
structure Call where
  Seq : Nat
  ServiceMethod : String
  Args : Value
  Reply : Value
  Error : Option String
  Done : Nat
  deriving DecidableEq

/-- The method `Call.done`. -/
def Call.done (call : Call) : Call := { call with Done := call.Done + 1 }

/-- The struct `Client`. The counter `seq` is a `uint64` that is only incremented; it is kept
as a natural number (it does not wrap around before `2 ^ 64` calls). The map `pending` is
ranged over and is kept as the list of its entries, each call with its present state; a call
that was taken out of `pending` and signalled is logged in `completed`. The codec is seen
through its frames, and `ccClosed` counts the calls of `cc.Close()`. -/
structure Client where
  cc : FrameCodec
  header : Header
  seq : Nat
  pending : List (Nat × Call)
  closing : Bool
  shutdown : Bool
  completed : List Call
  ccClosed : Nat
  deriving DecidableEq

/-- The variable `ErrClosing`. -/
def ErrClosing : String := "connection is closing"

/-- The function `newClientCodec`, without the goroutine `receive` that it starts. -/
def newClientCodec (cc : FrameCodec) : Client :=
  { cc := cc, header := { ServiceMethod := "", Seq := 0, Error := "" }, seq := 1,
    pending := [], closing := false, shutdown := false, completed := [], ccClosed := 0 }

/-- The method `Client.Close`; `ccErr` is what `cc.Close()` returns. -/
def Client.Close (client : Client) (ccErr : Option String) : Client × Option String :=
  if client.closing then (client, some ErrClosing)
  else ({ client with closing := true, ccClosed := client.ccClosed + 1 }, ccErr)

/-- The method `Client.IsAvailable`. -/
def Client.IsAvailable (client : Client) : Bool := !client.closing && !client.shutdown

/-- The method `Store` of the map `pending`. -/
def pendingStore (pending : List (Nat × Call)) (seq : Nat) (call : Call) :
    List (Nat × Call) :=
  (seq, call) :: pending.filter (fun e => e.1 ≠ seq)

/-- The method `Client.removeCall`: the client after the call and the call removed, `none`
when it is nil. -/
def Client.removeCall (client : Client) (seq : Nat) : Client × Option Call :=
  match client.pending.lookup seq with
  | none => (client, none)
  | some call =>
    ({ client with pending := client.pending.filter (fun e => e.1 ≠ seq) }, some call)

/-- The method `Client.terminateCalls`: every pending call gets the error and is signalled;
the calls stay in `pending`. -/
def Client.terminateCalls (client : Client) (err : Option String) : Client :=
  { client with
    shutdown := true
    pending := client.pending.map (fun e => (e.1, Call.done { e.2 with Error := err })) }

/-- What another goroutine may do to a client while `registerCall` runs or between two of
its calls: `Close`, `terminateCalls`, or `removeCall`. -/
inductive ClientEnv where
  | close (ccErr : Option String) : ClientEnv
  | terminate (err : Option String) : ClientEnv
  | remove (seq : Nat) : ClientEnv

/-- The effect of a step of another goroutine. -/
def Client.env (client : Client) : ClientEnv → Client
  | ClientEnv.close ccErr => (client.Close ccErr).1
  | ClientEnv.terminate err => client.terminateCalls err
  | ClientEnv.remove seq => (client.removeCall seq).1

/-- The effect of a sequence of steps of other goroutines. -/
def Client.envs (client : Client) : List ClientEnv → Client
  | [] => client
  | e :: rest => Client.envs (client.env e) rest

/-- The method `Client.registerCall`: the client after the call, the sequence number returned
and the error. The test `IsAvailable` releases the lock `mu` before the lock is taken again
for the assignment; `between` is what other goroutines do to the client in between. -/
def Client.registerCall (client : Client) (call : Call) (between : List ClientEnv) :
    Client × Nat × Option String :=
  if !client.IsAvailable then (client, 0, some ErrClosing)
  else
    ({ client.envs between with
        seq := (client.envs between).seq + 1
        pending := pendingStore (client.envs between).pending (client.envs between).seq
          { call with Seq := (client.envs between).seq } },
      (client.envs between).seq, none)

/-- An event on a client: a call of `registerCall`, or a step of another goroutine. -/
inductive ClientEvent where
  | register (call : Call) (between : List ClientEnv) : ClientEvent
  | other (e : ClientEnv) : ClientEvent

/-- The client after a sequence of events, and the sequence numbers that the calls of
`registerCall` without error have returned, in the order of the calls. -/
def runClient : Client → List ClientEvent → Client × List Nat
  | client, [] => (client, [])
  | client, ClientEvent.other e :: rest => runClient (client.env e) rest
  | client, ClientEvent.register call between :: rest =>
    match (client.registerCall call between).2.2 with
    | some _ => runClient (client.registerCall call between).1 rest
    | none =>
      ((runClient (client.registerCall call between).1 rest).1,
        (client.registerCall call between).2.1 ::
          (runClient (client.registerCall call between).1 rest).2)

/-- The loop of `Client.receive`, with `fuel` bounding its turns: the client when the loop
ends and the error that ends it, or `none` when the fuel runs out. The standard library's
`fmt.Errorf(format)` is the argument `errorf`, which gives the text of the error made from a
format. -/
def receiveLoop (errorf : String → String) : Nat → Client → Client × Option String
  | 0, client => (client, none)
  | fuel + 1, client =>
    match client.cc.ReadHeader false with
    | (cc1, Except.error e) => ({ client with cc := cc1 }, some e)
    | (cc1, Except.ok h) =>
      match Client.removeCall { client with cc := cc1 } h.Seq with
      | (client1, none) =>
        match client1.cc.ReadBody true with
        | (cc2, Except.error e) => ({ client1 with cc := cc2 }, some e)
        | (cc2, Except.ok _) => receiveLoop errorf fuel { client1 with cc := cc2 }
      | (client1, some call) =>
        if h.Error ≠ "" then
          match client1.cc.ReadHeader true with
          | (cc2, Except.error e) =>
            ({ client1 with
                cc := cc2
                completed := client1.completed ++
                  [Call.done { call with Error := some (errorf h.Error) }] },
              some e)
          | (cc2, Except.ok _) =>
            receiveLoop errorf fuel
              { client1 with
                cc := cc2
                completed := client1.completed ++
                  [Call.done { call with Error := some (errorf h.Error) }] }
        else
          match client1.cc.ReadBody false with
          | (cc2, Except.error e) =>
            ({ client1 with
                cc := cc2
                completed := client1.completed ++
                  [Call.done { call with Error := some ("reading body error: " ++ e) }] },
              some e)
          | (cc2, Except.ok v) =>
            receiveLoop errorf fuel
              { client1 with
                cc := cc2
                completed := client1.completed ++
                  [Call.done { call with Reply := decodeInto call.Reply (v.getD call.Reply) }] }

/-- The method `Client.receive`: the loop, which each turn takes at least one frame off the
connection, and `terminateCalls` with the error that ended it. -/
def Client.receive (errorf : String → String) (client : Client) : Client :=
  (receiveLoop errorf (client.cc.incoming.length + 1) client).1.terminateCalls
    (receiveLoop errorf (client.cc.incoming.length + 1) client).2

/-- A call for `Foo.Sum` with the sequence number `seq`, as `registerCall` has stored it. -/
def sumCall (seq : Nat) : Call :=
  { Seq := seq, ServiceMethod := "Foo.Sum", Args := Value.pair (Value.int 1) (Value.int 2),
    Reply := Value.pointer (Value.int 0), Error := none, Done := 0 }

/-- A client with the pending calls 1 and 2, whose connection holds the response to call 1
with the error `boom` and the response to call 2 with the reply 3. -/
def answeredClient : Client :=
  { cc :=
      { incoming :=
          [Frame.header { ServiceMethod := "Foo.Sum", Seq := 1, Error := "boom" },
            Frame.body Value.unit,
            Frame.header { ServiceMethod := "Foo.Sum", Seq := 2, Error := "" },
            Frame.body (Value.int 3)]
        calls := []
        written := [] }
    header := { ServiceMethod := "Foo.Sum", Seq := 2, Error := "" }
    seq := 3
    pending := [(2, sumCall 2), (1, sumCall 1)]
    closing := false
    shutdown := false
    completed := []
    ccClosed := 0 }


/-! ## `client/XClient.go` -/

/-- The standard library's `strings.Split(s, sep)` for a separator of one byte, on the bytes
that remain, `cur` being the bytes of the current field in reverse. -/
def splitByteLoop (sep : Char) : List Char → List Char → List String
  | cur, [] => [String.mk cur.reverse]
  | cur, c :: cs =>
    if c = sep then String.mk cur.reverse :: splitByteLoop sep [] cs
    else splitByteLoop sep (c :: cur) cs

/-- The standard library's `strings.Split(s, sep)` for a separator of one byte. -/
def splitByte (sep : Char) (s : String) : List String := splitByteLoop sep [] s.data

/-- The struct `XClient`. The map `clients` is ranged over and looked up; it is kept as the
list of its entries, with distinct keys, and a stored `*Client` may be nil (`none`). -/
structure XClient where
  mode : String
  clients : List (String × Option Client)
  timeout : Int
  registerAddr : String
  deriving DecidableEq

/-- The function `NewXClient`. -/
def NewXClient (registerAddr mode : String) (dialTimeout : Int) : XClient :=
  { mode := mode, clients := [], timeout := dialTimeout, registerAddr := registerAddr }

/-- Assignment `clients[key] = client`. -/
def poolSet (pool : List (String × Option Client)) (key : String) (client : Option Client) :
    List (String × Option Client) :=
  if (pool.lookup key).isSome then pool.map (fun e => if e.1 = key then (key, client) else e)
  else pool ++ [(key, client)]

/-- The builtin `delete(clients, key)`. -/
def poolDelete (pool : List (String × Option Client)) (key : String) :
    List (String × Option Client) :=
  pool.filter (fun e => e.1 ≠ key)

/-- The loop of `XClient.Close` over the keys that remain to be visited: the pool when the
call leaves, the keys of the clients on which `Close` was called, in that order, and how the
call leaves. What `cc.Close()` returns for the client under a key is `ccErr key`. A nil client
makes `client.Close()` panic. -/
def XClient.closeLoop (ccErr : String → Option String) :
    List String → XClient → List String → XClient × List String × Exit
  | [], xc, closed => (xc, closed, Exit.ok)
  | key :: rest, xc, closed =>
    match xc.clients.lookup key with
    | none => XClient.closeLoop ccErr rest xc closed
    | some none => (xc, closed, Exit.panic)
    | some (some client) =>
      match client.Close (ccErr key) with
      | (client1, some err) =>
        ({ xc with clients := poolSet xc.clients key (some client1) }, closed ++ [key],
          Exit.err err)
      | (_, none) =>
        XClient.closeLoop ccErr rest { xc with clients := poolDelete xc.clients key }
          (closed ++ [key])

/-- The method `XClient.Close`, the `range` loop visiting the keys in the order that `order`
chooses. -/
def XClient.Close (order : List String) (ccErr : String → Option String) (xc : XClient) :
    XClient × List String × Exit :=
  XClient.closeLoop ccErr (rangeOrder order (xc.clients.map Prod.fst)) xc []

/-- The part of `XClient.dial` that runs when `client == nil`. The function `Dial` of
`client.go` needs the network; what it returns for a network and an address is the argument
`dial`: a client and a nil error, or a nil client and an error. -/
def XClient.redial (xc : XClient) (rpcAddr : String)
    (dial : String → String → Except String Client) :
    XClient × Option (Option Client × Option String) :=
  match splitByte '@' rpcAddr with
  | [network, address] =>
    match dial network address with
    | Except.ok client =>
      ({ xc with clients := poolSet xc.clients rpcAddr (some client) }, some (some client, none))
    | Except.error _ =>
      ({ xc with clients := poolSet xc.clients rpcAddr none }, some (none, none))
  | _ => (xc, some (none, some "rpc client: wrong rpcAddr"))

/-- The method `XClient.dial`: the pool after the call and the results `(*Client, error)`, or
`none` when the call panics, which `client.IsAvailable()` does on a nil client that the map
holds. What `cc.Close()` returns for a client that is closed is `ccErr`. -/
def XClient.dial (xc : XClient) (rpcAddr : String) (ccErr : Option String)
    (dial : String → String → Except String Client) :
    XClient × Option (Option Client × Option String) :=
  match xc.clients.lookup rpcAddr with
  | none => xc.redial rpcAddr dial
  | some none => (xc, none)
  | some (some client) =>
    if !client.IsAvailable then
      match client.Close ccErr with
      | (client1, some err) =>
        ({ xc with clients := poolSet xc.clients rpcAddr (some client1) }, some (none, some err))
      | (_, none) =>
        XClient.redial { xc with clients := poolDelete xc.clients rpcAddr } rpcAddr dial
    else (xc, some (some client, none))

/-- The method `XClient.call`: the pool after the call and the error returned, or `none` when
the call panics, which `client.Call` does on a nil client. What `client.Call` returns on a
client is the argument `callResult`. -/
def XClient.call (xc : XClient) (rpcAddr : String) (ccErr : Option String)
    (dial : String → String → Except String Client) (callResult : Client → Option String) :
    XClient × Option (Option String) :=
  match xc.dial rpcAddr ccErr dial with
  | (xc1, none) => (xc1, none)
  | (xc1, some (_, some err)) => (xc1, some (some err))
  | (xc1, some (none, none)) => (xc1, none)
  | (xc1, some (some client, none)) => (xc1, some (callResult client))

/-- A pool with a client that is already closing and a client that is in use. -/
def samplePool : XClient :=
  { NewXClient "http://localhost:9999/zrpc" "RoundRobin" 0 with
    clients :=
      [("tcp@10.0.0.1:7001",
          some { newClientCodec { incoming := [], calls := [], written := [] } with
            closing := true, ccClosed := 1 }),
        ("tcp@10.0.0.2:7001",
          some (newClientCodec { incoming := [], calls := [], written := [] }))] }

/-- A `Dial` that fails for every address, as when no server listens. -/
def refused (_network address : String) : Except String Client :=
  Except.error ("dial tcp " ++ address ++ ": connect: connection refused")


/-! ## `codec/gob.go` -/

/-- The conversion of an integer to `int32`. -/
def toInt32 (n : Int) : Int := (n + 2147483648) % 4294967296 - 2147483648

/-- The four bytes that `binary.Write(conn, binary.BigEndian, &length)` writes for an `int32`:
the value modulo `2 ^ 32`, most significant byte first. -/
def bigEndian32 (length : Int) : List Nat :=
  [(length % 4294967296).toNat / 16777216 % 256, (length % 4294967296).toNat / 65536 % 256,
    (length % 4294967296).toNat / 256 % 256, (length % 4294967296).toNat % 256]

/-- The function `BytesToInt32`, on a buffer of four bytes. -/
def BytesToInt32 (buf : List Nat) : Int :=
  toInt32 (Int.ofNat
    (buf.getD 0 0 * 16777216 + buf.getD 1 0 * 65536 + buf.getD 2 0 * 256 + buf.getD 3 0))

/-- The standard library's gob encoder and decoder of a codec, as far as the codec uses them.
`Encode` on the encoder in the state `E` gives the next state and the bytes that it appends to
its buffer, or an error; `Decode` on the decoder in the state `D`, with the bytes of its
buffer, gives the next state, the bytes that it leaves in the buffer, and the value decoded
or an error (for a body, `none` when the destination is nil and the value is discarded). -/
structure Gob (E D : Type) where
  encodeHeader : E → Header → E × Except String (List Nat)
  encodeBody : E → Value → E × Except String (List Nat)
  decodeHeader : D → List Nat → D × List Nat × Except String Header
  decodeBody : D → List Nat → Bool → D × List Nat × Except String (Option Value)

/-- The struct `GobCodec`. The connection is the bytes `input` that its reads will return,
the bytes `output` written to it, and whether it is closed. -/
structure GobCodec (E D : Type) where
  input : List Nat
  output : List Nat
  closed : Bool
  encBuf : List Nat
  decBuf : List Nat
  dec : D
  enc : E

/-- The call `conn.Read(buf)` with a buffer of `n` zero bytes, on a connection whose reads
return the bytes asked for as far as it holds them: the codec, the buffer after the call and
the error. -/
def GobCodec.connRead {E D : Type} (c : GobCodec E D) (n : Nat) :
    GobCodec E D × List Nat × Option String :=
  if c.closed then (c, List.replicate n 0, some "use of closed network connection")
  else if n = 0 then (c, [], none)
  else if c.input = [] then (c, List.replicate n 0, some "EOF")
  else
    ({ c with input := c.input.drop n },
      c.input.take n ++ List.replicate (n - (c.input.take n).length) 0, none)

/-- The call `conn.Write(bytes)`. -/
def GobCodec.connWrite {E D : Type} (c : GobCodec E D) (bytes : List Nat) :
    GobCodec E D × Option String :=
  if c.closed then (c, some "use of closed network connection")
  else ({ c with output := c.output ++ bytes }, none)

/-- What `GobCodec.Write` does after each `Encode`: it writes the length of `encBuf` as an
`int32` and the bytes of `encBuf`, and resets `encBuf`. -/
def GobCodec.writeFrame {E D : Type} (c : GobCodec E D) : GobCodec E D × Option String :=
  match c.connWrite (bigEndian32 (toInt32 (Int.ofNat c.encBuf.length))) with
  | (c1, some err) => ({ c1 with encBuf := [] }, some err)
  | (c1, none) =>
    match c1.connWrite c1.encBuf with
    | (c2, some err) => ({ c2 with encBuf := [] }, some err)
    | (c2, none) => ({ c2 with encBuf := [] }, none)

/-- The method `GobCodec.Write`: the codec after the call and the error. -/
def GobCodec.Write {E D : Type} (g : Gob E D) (c : GobCodec E D) (h : Header) (body : Value) :
    GobCodec E D × Option String :=
  match g.encodeHeader c.enc h with
  | (enc1, Except.error err) => ({ c with enc := enc1, encBuf := [] }, some err)
  | (enc1, Except.ok headerBytes) =>
    match GobCodec.writeFrame { c with enc := enc1, encBuf := c.encBuf ++ headerBytes } with
    | (c1, some err) => (c1, some err)
    | (c1, none) =>
      match g.encodeBody c1.enc body with
      | (enc2, Except.error err) => ({ c1 with enc := enc2, encBuf := [] }, some err)
      | (enc2, Except.ok bodyBytes) =>
        GobCodec.writeFrame { c1 with enc := enc2, encBuf := c1.encBuf ++ bodyBytes }

/-- What `ReadHeader` and `ReadBody` do before `Decode`: they read four bytes, make a buffer
of the length that the bytes give, read into it and append it to `decBuf`. The result is
`some none` when this is done, `some (some err)` when a read returns an error, and `none` when
`make([]byte, length)` panics, the length being negative. -/
def GobCodec.readFrame {E D : Type} (c : GobCodec E D) : GobCodec E D × Option (Option String) :=
  match c.connRead 4 with
  | (c1, _, some err) => (c1, some (some err))
  | (c1, lengthBytes, none) =>
    if BytesToInt32 lengthBytes < 0 then (c1, none)
    else
      match c1.connRead (BytesToInt32 lengthBytes).toNat with
      | (c2, _, some err) => (c2, some (some err))
      | (c2, content, none) => ({ c2 with decBuf := c2.decBuf ++ content }, some none)

/-- The method `GobCodec.ReadHeader` with a destination that is not nil: the codec after the
call and the header decoded or the error, or `none` when the call panics. -/
def GobCodec.ReadHeader {E D : Type} (g : Gob E D) (c : GobCodec E D) :
    GobCodec E D × Option (Except String Header) :=
  match c.readFrame with
  | (c1, none) => (c1, none)
  | (c1, some (some err)) => (c1, some (Except.error err))
  | (c1, some none) =>
    ({ c1 with
        dec := (g.decodeHeader c1.dec c1.decBuf).1
        decBuf := (g.decodeHeader c1.dec c1.decBuf).2.1 },
      some (g.decodeHeader c1.dec c1.decBuf).2.2)

/-- The method `GobCodec.ReadBody`: the codec after the call and the body decoded (`none`
when the destination is nil) or the error, or `none` when the call panics. -/
def GobCodec.ReadBody {E D : Type} (g : Gob E D) (c : GobCodec E D) (nilDest : Bool) :
    GobCodec E D × Option (Except String (Option Value)) :=
  match c.readFrame with
  | (c1, none) => (c1, none)
  | (c1, some (some err)) => (c1, some (Except.error err))
  | (c1, some none) =>
    ({ c1 with
        dec := (g.decodeBody c1.dec c1.decBuf nilDest).1
        decBuf := (g.decodeBody c1.dec c1.decBuf nilDest).2.1 },
      some (g.decodeBody c1.dec c1.decBuf nilDest).2.2)

theorem char_eq_of_toNat_eq {a b : Char} (h : a.toNat = b.toNat) : a = b := by
  apply Char.ext
  apply UInt32.ext
  exact h

theorem cmpBytes_eq_iff (a b : List Char) : cmpBytes a b = Ordering.eq ↔ a = b := by
  induction a generalizing b with
  | nil => cases b <;> simp [cmpBytes]
  | cons x xs ih =>
    cases b with
    | nil => simp [cmpBytes]
    | cons y ys =>
      simp only [cmpBytes]
      split_ifs with h1 h2
      · simp only [reduceCtorEq, List.cons.injEq, false_iff, not_and]
        intro h; subst h; omega
      · simp only [reduceCtorEq, List.cons.injEq, false_iff, not_and]
        intro h; subst h; omega
      · have hxy : x = y := char_eq_of_toNat_eq (by omega)
        simp [ih, hxy]

theorem cmpBytes_gt_iff (a b : List Char) :
    cmpBytes a b = Ordering.gt ↔ cmpBytes b a = Ordering.lt := by
  induction a generalizing b with
  | nil => cases b <;> simp [cmpBytes]
  | cons x xs ih =>
    cases b with
    | nil => simp [cmpBytes]
    | cons y ys =>
      simp only [cmpBytes]
      split_ifs <;> first | omega | simp | exact ih ys

theorem cmpBytes_lt_trans (a b c : List Char) (h1 : cmpBytes a b = Ordering.lt)
    (h2 : cmpBytes b c = Ordering.lt) : cmpBytes a c = Ordering.lt := by
  induction a generalizing b c with
  | nil =>
    cases b with
    | nil => simp [cmpBytes] at h1
    | cons y ys => cases c <;> simp_all [cmpBytes]
  | cons x xs ih =>
    cases b with
    | nil => simp [cmpBytes] at h1
    | cons y ys =>
      cases c with
      | nil => simp [cmpBytes] at h2
      | cons z zs =>
        simp only [cmpBytes] at h1 h2 ⊢
        split_ifs at h1 h2 ⊢ <;> first | omega | rfl | exact ih ys zs h1 h2

theorem strLt_iff (a b : String) : strLt a b = true ↔ cmpBytes a.data b.data = Ordering.lt := by
  unfold strLt
  cases cmpBytes a.data b.data <;> simp

theorem strLe_iff_not_lt (a b : String) : strLe a b = true ↔ strLt b a = false := by
  have h := cmpBytes_gt_iff a.data b.data
  have h2 := strLt_iff b a
  unfold strLe
  cases hc : cmpBytes a.data b.data <;> simp only [hc, reduceCtorEq, false_iff, true_iff] at h ⊢
  · cases hb : strLt b a
    · rfl
    · exact absurd (h2.1 hb) h
  · cases hb : strLt b a
    · rfl
    · exact absurd (h2.1 hb) h
  · simp [h2.2 h]

theorem strLt_irrefl (a : String) : strLt a a = false := by
  have h := (cmpBytes_eq_iff a.data a.data).2 rfl
  simp [strLt, h]

theorem strLt_trans {a b c : String} (h1 : strLt a b = true) (h2 : strLt b c = true) :
    strLt a c = true := by
  rw [strLt_iff] at *
  exact cmpBytes_lt_trans _ _ _ h1 h2

theorem strLt_trichotomy (a b : String) : strLt a b = true ∨ a = b ∨ strLt b a = true := by
  rcases h : cmpBytes a.data b.data with _ | _ | _
  · left; exact (strLt_iff _ _).2 h
  · right; left
    have := (cmpBytes_eq_iff _ _).1 h
    exact String.ext this
  · right; right
    rw [strLt_iff]; exact (cmpBytes_gt_iff _ _).1 h

theorem strLe_iff_lt_or_eq (a b : String) : strLe a b = true ↔ strLt a b = true ∨ a = b := by
  rw [strLe_iff_not_lt]
  constructor
  · intro h
    rcases strLt_trichotomy a b with h1 | h1 | h1
    · exact Or.inl h1
    · exact Or.inr h1
    · rw [h1] at h; cases h
  · rintro (h | h)
    · cases hb : strLt b a
      · rfl
      · have := strLt_trans h hb
        rw [strLt_irrefl] at this; cases this
    · subst h; exact strLt_irrefl a

theorem strLe_refl (a : String) : strLe a a = true :=
  (strLe_iff_lt_or_eq a a).2 (Or.inr rfl)

theorem strLe_trans {a b c : String} (h1 : strLe a b = true) (h2 : strLe b c = true) :
    strLe a c = true := by
  rw [strLe_iff_lt_or_eq] at *
  rcases h1 with h1 | h1
  · rcases h2 with h2 | h2
    · exact Or.inl (strLt_trans h1 h2)
    · subst h2; exact Or.inl h1
  · subst h1; exact h2

theorem strLe_total (a b : String) : strLe a b = true ∨ strLe b a = true := by
  rcases strLt_trichotomy a b with h | h | h
  · exact Or.inl ((strLe_iff_lt_or_eq _ _).2 (Or.inl h))
  · exact Or.inl ((strLe_iff_lt_or_eq _ _).2 (Or.inr h))
  · exact Or.inr ((strLe_iff_lt_or_eq _ _).2 (Or.inl h))

theorem strLe_antisymm {a b : String} (h1 : strLe a b = true) (h2 : strLe b a = true) :
    a = b := by
  rw [strLe_iff_lt_or_eq] at h1
  rcases h1 with h1 | h1
  · rw [strLe_iff_not_lt, h1] at h2; cases h2
  · exact h1

theorem strLt_of_lt_of_le {a b c : String} (h1 : strLt a b = true) (h2 : strLe b c = true) :
    strLt a c = true := by
  rw [strLe_iff_lt_or_eq] at h2
  rcases h2 with h2 | h2
  · exact strLt_trans h1 h2
  · subst h2; exact h1

theorem strLt_of_le_of_lt {a b c : String} (h1 : strLe a b = true) (h2 : strLt b c = true) :
    strLt a c = true := by
  rw [strLe_iff_lt_or_eq] at h1
  rcases h1 with h1 | h1
  · exact strLt_trans h1 h2
  · subst h1; exact h2

instance : IsTrans String SLe := ⟨fun _ _ _ h1 h2 => strLe_trans h1 h2⟩
instance : IsTotal String SLe := ⟨fun a b => strLe_total a b⟩
instance : IsAntisymm String SLe := ⟨fun _ _ h1 h2 => strLe_antisymm h1 h2⟩
instance : IsRefl String SLe := ⟨fun a => strLe_refl a⟩

/-! ## Indexing a sorted slice -/

theorem idx_eq_some {nums : List String} {i : Int} {x : String} :
    idx nums i = some x ↔ 0 ≤ i ∧ nums[i.toNat]? = some x := by
  unfold idx
  split_ifs with h
  · simp [h]
  · simp [h]

theorem idx_isSome {nums : List String} {i : Int} (h0 : 0 ≤ i) (h1 : i < nums.length) :
    ∃ x, idx nums i = some x := by
  have h : i.toNat < nums.length := by omega
  exact ⟨nums[i.toNat], idx_eq_some.2 ⟨h0, List.getElem?_eq_getElem h⟩⟩

theorem sorted_getElem?_le {nums : List String} (hs : nums.Sorted SLe) {i j : Nat} {x y : String}
    (hi : nums[i]? = some x) (hj : nums[j]? = some y) (hij : i ≤ j) : strLe x y = true := by
  obtain ⟨hi1, hi2⟩ := List.getElem?_eq_some.1 hi
  obtain ⟨hj1, hj2⟩ := List.getElem?_eq_some.1 hj
  rcases Nat.lt_or_eq_of_le hij with h | h
  · have := List.pairwise_iff_getElem.1 hs i j hi1 hj1 h
    rw [hi2, hj2] at this
    exact this
  · subst h
    rw [hi2] at hj2
    subst hj2
    exact strLe_refl x

theorem strLe_false_iff {a b : String} : strLe a b = false ↔ strLt b a = true := by
  have := strLe_iff_not_lt a b
  cases h1 : strLe a b <;> cases h2 : strLt b a <;> simp_all

theorem strLt_false_iff {a b : String} : strLt a b = false ↔ strLe b a = true :=
  (strLe_iff_not_lt b a).symm

/-! ## `findUpper` returns the least index holding a greater entry -/

theorem findUpperLoop_spec {nums : List String} (hs : nums.Sorted SLe) (cur : String) :
    ∀ (fuel : Nat) (l r : Int), 0 ≤ l → l ≤ r → r < nums.length → r - l < fuel →
      (∀ (j : Nat) (y : String), (j : Int) < l → nums[j]? = some y → strLe y cur = true) →
      (r < (nums.length : Int) - 1 → ∃ x, idx nums r = some x ∧ strLe x cur = false) →
      ∃ k : Int, findUpperLoop nums cur fuel l r = some k ∧ 0 ≤ k ∧ k < nums.length ∧
        (∀ (j : Nat) (y : String), (j : Int) < k → nums[j]? = some y → strLe y cur = true) ∧
        (k < (nums.length : Int) - 1 → ∃ x, idx nums k = some x ∧ strLe x cur = false) := by
  intro fuel
  induction fuel with
  | zero => intro l r _ _ _ hf; omega
  | succ fuel ih =>
    intro l r h0 hlr hr hf hlo hhi
    unfold findUpperLoop
    split_ifs with hlt
    · have hm0 : 0 ≤ l + (r - l) / 2 := by omega
      have hm1 : l + (r - l) / 2 < r := by omega
      have hm2 : l ≤ l + (r - l) / 2 := by omega
      obtain ⟨x, hx⟩ := idx_isSome hm0 (by omega : l + (r - l) / 2 < (nums.length : Int))
      simp only [hx]
      split_ifs with hle
      · apply ih _ _ (by omega) (by omega) hr (by omega) _ hhi
        intro j y hj hy
        have hx2 := (idx_eq_some.1 hx).2
        have : j ≤ (l + (r - l) / 2).toNat := by omega
        exact strLe_trans (sorted_getElem?_le hs hy hx2 this) hle
      · apply ih _ _ h0 (by omega) (by omega) (by omega) hlo
        intro _
        exact ⟨x, hx, by simpa using hle⟩
    · have : l = r := by omega
      subst this
      exact ⟨l, rfl, h0, hr, hlo, hhi⟩

/-- What `findUpper` computes on an ascending slice: `-1` when no entry is greater than `cur`,
and otherwise the least index whose entry is greater than `cur`. -/
theorem findUpper_sorted {nums : List String} (hs : nums.Sorted SLe) (cur : String) :
    (findUpper nums cur = some (-1) ∧ ∀ y ∈ nums, strLt cur y = false) ∨
    (∃ (k : Nat) (x : String), findUpper nums cur = some (k : Int) ∧ nums[k]? = some x ∧
      strLt cur x = true ∧ ∀ (j : Nat) (y : String), j < k → nums[j]? = some y →
        strLt cur y = false) := by
  unfold findUpper
  split_ifs with hlen
  · left
    refine ⟨rfl, ?_⟩
    intro y hy
    rw [List.length_eq_zero] at hlen
    subst hlen
    cases hy
  · have hpos : 0 < nums.length := Nat.pos_of_ne_zero hlen
    obtain ⟨k, hk, hk0, hk1, hlo, hhi⟩ := findUpperLoop_spec hs cur (nums.length + 1) 0
      ((nums.length : Int) - 1) (le_refl _) (by omega) (by omega) (by omega)
      (by intro j y hj; omega) (by intro h; omega)
    simp only [hk]
    obtain ⟨x, hx⟩ := idx_isSome hk0 hk1
    have hx2 := (idx_eq_some.1 hx).2
    split_ifs with hlast
    · simp only [hx]
      split_ifs with hle
      · left
        refine ⟨rfl, ?_⟩
        intro y hy
        obtain ⟨j, hj⟩ := List.mem_iff_getElem?.1 hy
        have hjlt : j < nums.length := (List.getElem?_eq_some.1 hj).1
        rw [strLt_false_iff]
        exact strLe_trans (sorted_getElem?_le hs hj hx2 (by omega)) hle
      · right
        refine ⟨k.toNat, x, ?_, hx2, ?_, ?_⟩
        · rw [Int.toNat_of_nonneg hk0]
        · rw [← strLe_false_iff]; simpa using hle
        · intro j y hj hy
          rw [strLt_false_iff]
          exact hlo j y (by omega) hy
    · right
      obtain ⟨x2, hx2a, hx2b⟩ := hhi (by omega)
      rw [hx] at hx2a
      cases hx2a
      refine ⟨k.toNat, x, ?_, hx2, ?_, ?_⟩
      · rw [Int.toNat_of_nonneg hk0]
      · rw [← strLe_false_iff]; exact hx2b
      · intro j y hj hy
        rw [strLt_false_iff]
        exact hlo j y (by omega) hy

/-! ## `find` on an ascending, non-empty slice -/

theorem findLoop_spec {nums : List String} (hs : nums.Sorted SLe) (cur : String) :
    ∀ (fuel : Nat) (l r : Int), 0 ≤ l → l ≤ r + 1 → r < nums.length → l < nums.length →
      r + 1 - l < fuel →
      (∀ (j : Nat) (y : String), (j : Int) < l → nums[j]? = some y → strLt y cur = true) →
      (∀ (j : Nat) (y : String), r < (j : Int) → nums[j]? = some y → strLt cur y = true) →
      ∃ k : Int, findLoop nums cur fuel l r = some k ∧
        ((k = -1 ∧ cur ∉ nums) ∨ (0 ≤ k ∧ nums[k.toNat]? = some cur)) := by
  intro fuel
  induction fuel with
  | zero => intro l r _ _ _ _ hf; omega
  | succ fuel ih =>
    intro l r h0 hlr hr hl hf hlo hhi
    unfold findLoop
    split_ifs with hlt
    · have hm0 : 0 ≤ l + (r - l) / 2 := by omega
      have hm1 : l + (r - l) / 2 < r := by omega
      have hm2 : l ≤ l + (r - l) / 2 := by omega
      obtain ⟨x, hx⟩ := idx_isSome hm0 (by omega : l + (r - l) / 2 < (nums.length : Int))
      have hx2 := (idx_eq_some.1 hx).2
      simp only [hx]
      split_ifs with heq hxlt
      · subst heq
        exact ⟨_, rfl, Or.inr ⟨hm0, hx2⟩⟩
      · apply ih _ _ (by omega) (by omega) hr (by omega) (by omega) _ hhi
        intro j y hj hy
        have : j ≤ (l + (r - l) / 2).toNat := by omega
        exact strLt_of_le_of_lt (sorted_getElem?_le hs hy hx2 this) hxlt
      · apply ih _ _ h0 (by omega) (by omega) hl (by omega) hlo
        intro j y hj hy
        have : (l + (r - l) / 2).toNat ≤ j := by omega
        have hle := sorted_getElem?_le hs hx2 hy this
        have hcx : strLt cur x = true := by
          rcases strLt_trichotomy cur x with h | h | h
          · exact h
          · exact absurd h.symm heq
          · rw [h] at hxlt; exact absurd rfl hxlt
        exact strLt_of_lt_of_le hcx hle
    · obtain ⟨x, hx⟩ := idx_isSome h0 hl
      have hx2 := (idx_eq_some.1 hx).2
      simp only [hx]
      split_ifs with hne
      · refine ⟨_, rfl, Or.inl ⟨rfl, ?_⟩⟩
        intro hmem
        obtain ⟨j, hj⟩ := List.mem_iff_getElem?.1 hmem
        by_cases hjl : (j : Int) < l
        · have := hlo j cur hjl hj
          rw [strLt_irrefl] at this; cases this
        · by_cases hjr : r < (j : Int)
          · have := hhi j cur hjr hj
            rw [strLt_irrefl] at this; cases this
          · have hjeq : j = l.toNat := by omega
            subst hjeq
            rw [hx2] at hj
            cases hj
            exact hne rfl
      · have hxc : x = cur := by
          by_contra hcon
          exact hne hcon
        subst hxc
        have hlr2 : l = r := by
          by_contra hcon
          have hgt : r < ((l.toNat : Nat) : Int) := by omega
          have := hhi l.toNat x hgt hx2
          rw [strLt_irrefl] at this; cases this
        subst hlr2
        exact ⟨_, rfl, Or.inr ⟨h0, hx2⟩⟩

/-- On a non-empty ascending slice `find` returns `-1` when `cur` is absent and otherwise an
index that holds `cur`. -/
theorem find_sorted {nums : List String} (hs : nums.Sorted SLe) (hne : nums ≠ []) (cur : String) :
    ∃ k : Int, find nums cur = some k ∧
      ((k = -1 ∧ cur ∉ nums) ∨ (0 ≤ k ∧ nums[k.toNat]? = some cur)) := by
  have hpos : 0 < nums.length := List.length_pos.2 hne
  unfold find
  have h1 : ¬ ((nums.length : Int) = -1) := by omega
  simp only [h1, if_false]
  apply findLoop_spec hs cur _ _ _ (le_refl _) (by omega) (by omega) (by omega) (by omega)
  · intro j y hj; omega
  · intro j y hj hy
    have := (List.getElem?_eq_some.1 hy).1
    omega

theorem find_nil (cur : String) : find [] cur = none := by
  simp [find, findLoop, idx]

/-! ## Editing the slice keeps it ascending -/

theorem sorted_take_drop_of_getElem? {nums : List String} (hs : nums.Sorted SLe) {k : Nat}
    {x : String} (hx : nums[k]? = some x) :
    (nums.take k ++ nums.drop (k + 1)).Sorted SLe ∧ nums.Perm (x :: (nums.take k ++ nums.drop (k + 1))) := by
  have hk : k < nums.length := (List.getElem?_eq_some.1 hx).1
  have hxe : nums[k] = x := (List.getElem?_eq_some.1 hx).2
  have hsplit : nums = nums.take k ++ x :: nums.drop (k + 1) := by
    rw [← hxe, ← List.drop_eq_getElem_cons hk, List.take_append_drop]
  constructor
  · have hsub : (nums.take k ++ nums.drop (k + 1)).Sublist nums := by
      conv_rhs => rw [hsplit]
      exact List.Sublist.append (List.Sublist.refl _) (List.sublist_cons_self _ _)
    exact List.Pairwise.sublist hsub hs
  · conv_lhs => rw [hsplit]
    exact List.perm_middle

/-- Deleting an entry that occurs in an ascending slice removes one occurrence of it and leaves
the slice ascending. -/
theorem deleteSlice_mem {nums : List String} (hs : nums.Sorted SLe) {cur : String}
    (hmem : cur ∈ nums) :
    ∃ res, deleteSlice nums cur = some res ∧ res.Sorted SLe ∧ nums.Perm (cur :: res) := by
  have hne : nums ≠ [] := List.ne_nil_of_mem hmem
  obtain ⟨k, hk, hk2⟩ := find_sorted hs hne cur
  rcases hk2 with ⟨_, habs⟩ | ⟨hk0, hkx⟩
  · exact absurd hmem habs
  · have hklt : k.toNat < nums.length := (List.getElem?_eq_some.1 hkx).1
    obtain ⟨h1, h2⟩ := sorted_take_drop_of_getElem? hs hkx
    unfold deleteSlice
    simp only [hk]
    have hk1 : ¬ (k = -1) := by omega
    simp only [hk1, if_false]
    split_ifs with hlast
    · have hd : nums.drop (k.toNat + 1) = [] := by
        apply List.drop_eq_nil_of_le
        omega
      rw [hd, List.append_nil] at h1 h2
      exact ⟨_, rfl, h1, h2⟩
    · exact ⟨_, rfl, h1, h2⟩

theorem deleteSlice_not_mem {nums : List String} (hs : nums.Sorted SLe) (hne : nums ≠ [])
    {cur : String} (hmem : cur ∉ nums) : deleteSlice nums cur = some nums := by
  obtain ⟨k, hk, hk2⟩ := find_sorted hs hne cur
  rcases hk2 with ⟨hk1, _⟩ | ⟨_, hkx⟩
  · unfold deleteSlice
    simp [hk, hk1]
  · exact absurd (List.mem_iff_getElem?.2 ⟨_, hkx⟩) hmem

/-- Inserting into an ascending slice succeeds, adds exactly the new entry and leaves the slice
ascending. -/
theorem addHash_sorted {nums : List String} (hs : nums.Sorted SLe) (cur : String) :
    ∃ res, addHash nums cur = some res ∧ res.Sorted SLe ∧ res.Perm (cur :: nums) := by
  unfold addHash
  rcases findUpper_sorted hs cur with ⟨h1, h2⟩ | ⟨k, x, h1, hkx, hlt, hlo⟩
  · simp only [h1, if_true]
    refine ⟨_, rfl, ?_, ?_⟩
    · apply List.pairwise_append.2
      refine ⟨hs, List.pairwise_singleton _ _, ?_⟩
      intro a ha b hb
      rw [List.mem_singleton] at hb
      subst hb
      exact strLt_false_iff.1 (h2 a ha)
    · exact (List.perm_append_comm).trans (List.Perm.refl _)
  · simp only [h1]
    have hk1 : ¬ ((k : Int) = -1) := by omega
    simp only [hk1, if_false, Int.toNat_ofNat]
    have hklt : k < nums.length := (List.getElem?_eq_some.1 hkx).1
    have hform : nums.take k ++ [cur] ++ nums.drop k = nums.take k ++ cur :: nums.drop k := by
      simp
    rw [hform]
    refine ⟨_, rfl, ?_, ?_⟩
    · have hs2 : (nums.take k ++ nums.drop k).Sorted SLe := by
        rw [List.take_append_drop]; exact hs
      obtain ⟨ht, hd, htd⟩ := List.pairwise_append.1 hs2
      apply List.pairwise_append.2
      refine ⟨ht, ?_, ?_⟩
      · apply List.pairwise_cons.2
        refine ⟨?_, hd⟩
        intro b hb
        obtain ⟨j, hj⟩ := List.mem_iff_getElem?.1 hb
        rw [List.getElem?_drop] at hj
        have := sorted_getElem?_le hs hkx hj (by omega)
        exact (strLe_iff_lt_or_eq _ _).2 (Or.inl (strLt_of_lt_of_le hlt this))
      · intro a ha b hb
        rcases List.mem_cons.1 hb with hb | hb
        · subst hb
          obtain ⟨j, hj⟩ := List.mem_iff_getElem?.1 ha
          rw [List.getElem?_take] at hj
          split_ifs at hj with hjk
          exact strLt_false_iff.1 (hlo j a hjk hj)
        · exact htd a ha b hb
    · refine (List.perm_middle).trans ?_
      rw [List.take_append_drop]

/-! ## The searches never run out of fuel -/

theorem findUpperLoop_isSome (nums : List String) (cur : String) :
    ∀ (fuel : Nat) (l r : Int), 0 ≤ l → l ≤ r → r < nums.length → r - l < fuel →
      ∃ k : Int, findUpperLoop nums cur fuel l r = some k ∧ l ≤ k ∧ k ≤ r := by
  intro fuel
  induction fuel with
  | zero => intro l r _ _ _ hf; omega
  | succ fuel ih =>
    intro l r h0 hlr hr hf
    unfold findUpperLoop
    split_ifs with hlt
    · obtain ⟨x, hx⟩ := idx_isSome (by omega : 0 ≤ l + (r - l) / 2)
        (by omega : l + (r - l) / 2 < (nums.length : Int))
      simp only [hx]
      split_ifs with hle
      · obtain ⟨k, hk, hk1, hk2⟩ := ih (l + (r - l) / 2 + 1) r (by omega) (by omega) hr (by omega)
        exact ⟨k, hk, by omega, hk2⟩
      · obtain ⟨k, hk, hk1, hk2⟩ := ih l (l + (r - l) / 2) h0 (by omega) (by omega) (by omega)
        exact ⟨k, hk, hk1, by omega⟩
    · exact ⟨r, rfl, by omega, le_refl _⟩

/-- On every slice, ascending or not, `findUpper` returns: the loop ends within the fuel and
no index is out of range. -/
theorem findUpper_isSome (nums : List String) (cur : String) :
    ∃ k : Int, findUpper nums cur = some k := by
  unfold findUpper
  split_ifs with hlen
  · exact ⟨-1, rfl⟩
  · have hpos : 0 < nums.length := Nat.pos_of_ne_zero hlen
    obtain ⟨k, hk, hk0, hk1⟩ := findUpperLoop_isSome nums cur (nums.length + 1) 0
      ((nums.length : Int) - 1) (le_refl _) (by omega) (by omega) (by omega)
    simp only [hk]
    split_ifs with hlast
    · obtain ⟨x, hx⟩ := idx_isSome hk0 (by omega : k < (nums.length : Int))
      simp only [hx]
      split_ifs
      · exact ⟨-1, rfl⟩
      · exact ⟨k, rfl⟩
    · exact ⟨k, rfl⟩

theorem findLoop_isSome (nums : List String) (cur : String) :
    ∀ (fuel : Nat) (l r : Int), 0 ≤ l → l ≤ r + 1 → r < nums.length → l < nums.length →
      r + 1 - l < fuel → ∃ k : Int, findLoop nums cur fuel l r = some k := by
  intro fuel
  induction fuel with
  | zero => intro l r _ _ _ _ hf; omega
  | succ fuel ih =>
    intro l r h0 hlr hr hl hf
    unfold findLoop
    split_ifs with hlt
    · obtain ⟨x, hx⟩ := idx_isSome (by omega : 0 ≤ l + (r - l) / 2)
        (by omega : l + (r - l) / 2 < (nums.length : Int))
      simp only [hx]
      split_ifs
      · exact ⟨_, rfl⟩
      · exact ih _ _ (by omega) (by omega) hr (by omega) (by omega)
      · exact ih _ _ h0 (by omega) (by omega) hl (by omega)
    · obtain ⟨x, hx⟩ := idx_isSome h0 hl
      simp only [hx]
      split_ifs
      · exact ⟨_, rfl⟩
      · exact ⟨_, rfl⟩

/-- On every slice, ascending or not, `find` panics exactly when the slice is empty (it then
reads `nums[0]`); on a non-empty slice the loop ends within the fuel and no index is out of
range. -/
theorem find_eq_none_iff (nums : List String) (cur : String) :
    find nums cur = none ↔ nums = [] := by
  constructor
  · intro h
    by_contra hne
    have hpos : 0 < nums.length := List.length_pos.2 hne
    have h1 : ¬ ((nums.length : Int) = -1) := by omega
    obtain ⟨k, hk⟩ := findLoop_isSome nums cur (nums.length + 1) 0 ((nums.length : Int) - 1)
      (le_refl _) (by omega) (by omega) (by omega) (by omega)
    simp only [find, h1, if_false, hk] at h
    cases h
  · intro h
    subst h
    exact find_nil cur

/-! ## The loops of `AddNode` and `DeleteNode` -/

theorem addNodeLoop_spec (a : String) (is : List Nat) :
    ∀ r : ring, r.virtual.Sorted SLe →
      ∃ r2, addNodeLoop a r is = (r2, Exit.ok) ∧ r2.hash = r.hash ∧ r2.numO2V = r.numO2V ∧
        r2.ori = r.ori ∧ r2.virtual.Sorted SLe ∧
        r2.virtual.Perm (is.map (fun i => r.hash (virtualKey a i)) ++ r.virtual) ∧
        (∀ b, b ≠ a → r2.o2v b = r.o2v b) ∧
        (r2.o2v a).getD [] = (r.o2v a).getD [] ++ is.map (fun i => r.hash (virtualKey a i)) ∧
        (r.o2v a = none → is = [] → r2.o2v a = none) ∧
        (∀ k, r2.v2o k =
          if k ∈ is.map (fun i => r.hash (virtualKey a i)) then some a else r.v2o k) := by
  induction is with
  | nil =>
    intro r hs
    exact ⟨r, rfl, rfl, rfl, rfl, hs, by simp, fun _ _ => rfl, by simp, fun h _ => h, by simp⟩
  | cons i rest ih =>
    intro r hs
    obtain ⟨v, hv, hvs, hvp⟩ := addHash_sorted hs (r.hash (virtualKey a i))
    simp only [addNodeLoop, hv]
    obtain ⟨r2, h1, h2, h3, h4, h5, h6, h7, h8, _, h10⟩ := ih
      { r with
        virtual := v
        v2o := mapSet r.v2o (r.hash (virtualKey a i)) a
        o2v := mapSet r.o2v a
          (match r.o2v a with
            | some l => l ++ [r.hash (virtualKey a i)]
            | none => [r.hash (virtualKey a i)]) } hvs
    refine ⟨r2, h1, h2, h3, h4, h5, ?_, ?_, ?_, ?_, ?_⟩
    · refine h6.trans ?_
      simp only [List.map_cons]
      refine (List.Perm.append_left _ hvp).trans ?_
      simp only [List.cons_append]
      exact List.perm_middle
    · intro b hb
      rw [h7 b hb]
      simp [mapSet, hb]
    · rw [h8]
      simp only [mapSet, if_true, Option.getD_some, List.map_cons]
      cases r.o2v a <;> simp
    · intro _ h; cases h
    · intro k
      rw [h10 k]
      simp only [mapSet, List.map_cons, List.mem_cons]
      by_cases hk : k = r.hash (virtualKey a i)
      · simp [hk]
      · simp [hk]

theorem deleteNodeLoop_spec (items : List String) :
    ∀ (r : ring) (others : List String), r.virtual.Sorted SLe →
      r.virtual.Perm (items ++ others) →
      ∃ r2, deleteNodeLoop r items = (r2, Exit.ok) ∧ r2.hash = r.hash ∧
        r2.numO2V = r.numO2V ∧ r2.ori = r.ori ∧ r2.o2v = r.o2v ∧ r2.virtual.Sorted SLe ∧
        r2.virtual.Perm others ∧
        (∀ k, r2.v2o k = if k ∈ items then none else r.v2o k) := by
  induction items with
  | nil =>
    intro r others hs hp
    exact ⟨r, rfl, rfl, rfl, rfl, rfl, hs, by simpa using hp, by simp⟩
  | cons item rest ih =>
    intro r others hs hp
    have hmem : item ∈ r.virtual := hp.symm.subset (by simp)
    obtain ⟨v, hv, hvs, hvp⟩ := deleteSlice_mem hs hmem
    simp only [deleteNodeLoop, hv]
    have hp2 : v.Perm (rest ++ others) := by
      have := hvp.symm.trans hp
      simp only [List.cons_append] at this
      exact List.Perm.cons_inv this
    obtain ⟨r2, h1, h2, h3, h4, h5, h6, h7, h8⟩ :=
      ih { r with v2o := mapDelete r.v2o item, virtual := v } others hvs hp2
    refine ⟨r2, h1, h2, h3, h4, h5, h6, h7, ?_⟩
    intro k
    rw [h8 k]
    simp only [mapDelete, List.mem_cons]
    by_cases hk : k = item
    · simp [hk]
    · simp [hk]

/-! ## `AddNode`, `DeleteNode` and `Update` keep the invariant of the ring -/

theorem newRing_inv (hash : String → String) (n : Nat) : RingInv (newRing hash n) where
  sorted := List.sorted_nil
  nodup := List.nodup_nil
  o2v_eq := by intro a ha; cases ha
  o2v_none := by intro a _; rfl
  perm := by simp [newRing]

theorem AddNode_spec {r : ring} (hr : RingInv r) {a : String} (ha : a ∉ r.ori) :
    ∃ r2, r.AddNode a = (r2, Exit.ok) ∧ RingInv r2 ∧ r2.hash = r.hash ∧
      r2.numO2V = r.numO2V ∧ r2.ori = r.ori ++ [a] ∧
      (∀ k, r2.v2o k = if k ∈ vhashes r.hash r.numO2V a then some a else r.v2o k) := by
  obtain ⟨r2, h1, h2, h3, h4, h5, h6, h7, h8, h9, h10⟩ := addNodeLoop_spec a (List.range r.numO2V)
    { r with ori := if a ∈ r.ori then r.ori else r.ori ++ [a] } hr.sorted
  simp only [if_neg ha] at h1 h4 h7 h8 h9
  have hnone : r.o2v a = none := hr.o2v_none a ha
  refine ⟨r2, ?_, ?_, h2, h3, h4, h10⟩
  · simp only [ring.AddNode, if_neg ha]; exact h1
  · constructor
    · exact h5
    · rw [h4]
      apply List.Nodup.append hr.nodup (List.nodup_singleton a)
      intro x hx hx2
      rw [List.mem_singleton] at hx2
      subst hx2
      exact ha hx
    · intro b hb
      rw [h4, List.mem_append, List.mem_singleton] at hb
      rw [h2, h3]
      by_cases hba : b = a
      · subst hba
        rw [h8, hnone]
        simp [vhashes]
      · rw [h7 b hba]
        rcases hb with hb | hb
        · exact hr.o2v_eq b hb
        · exact absurd hb hba
    · intro b hb
      rw [h4, List.mem_append, List.mem_singleton] at hb
      push_neg at hb
      rw [h7 b hb.2]
      exact hr.o2v_none b hb.1
    · rw [h2, h3, h4]
      refine h6.trans ?_
      simp only [List.flatMap_append, List.flatMap_cons, List.flatMap_nil, List.append_nil]
      refine List.perm_append_comm.trans ?_
      exact List.Perm.append hr.perm (List.Perm.refl _)

theorem DeleteNode_spec {r : ring} (hr : RingInv r) {a : String} (ha : a ∈ r.ori) :
    ∃ r2, r.DeleteNode a = (r2, Exit.ok) ∧ RingInv r2 ∧ r2.hash = r.hash ∧
      r2.numO2V = r.numO2V ∧ r2.ori = r.ori.erase a ∧
      (∀ k, r2.v2o k = if k ∈ vhashes r.hash r.numO2V a then none else r.v2o k) := by
  have hperm : r.virtual.Perm ((r.o2v a).getD [] ++
      (r.ori.erase a).flatMap (vhashes r.hash r.numO2V)) := by
    rw [hr.o2v_eq a ha]
    refine hr.perm.trans ?_
    have := List.Perm.flatMap_right (vhashes r.hash r.numO2V) (List.perm_cons_erase ha)
    simpa using this
  obtain ⟨r2, h1, h2, h3, h4, h5, h6, h7, h8⟩ := deleteNodeLoop_spec ((r.o2v a).getD [])
    { r with ori := r.ori.erase a } _ hr.sorted hperm
  refine ⟨{ r2 with o2v := mapDelete r2.o2v a }, ?_, ?_, h2, h3, h4, ?_⟩
  · simp only [ring.DeleteNode, not_not.2 ha, if_false, h1]
  · constructor
    · exact h6
    · show r2.ori.Nodup
      rw [h4]; exact hr.nodup.erase a
    · intro b hb
      change b ∈ r2.ori at hb
      rw [h4] at hb
      have hba : b ≠ a := fun h => by
        subst h
        exact (List.Nodup.not_mem_erase hr.nodup) hb
      show (mapDelete r2.o2v a b).getD [] = vhashes r2.hash r2.numO2V b
      rw [h2, h3, h5]
      simp only [mapDelete, if_neg hba]
      exact hr.o2v_eq b (List.mem_of_mem_erase hb)
    · intro b hb
      change b ∉ r2.ori at hb
      rw [h4] at hb
      show mapDelete r2.o2v a b = none
      rw [h5]
      by_cases hba : b = a
      · simp [mapDelete, hba]
      · simp only [mapDelete, if_neg hba]
        apply hr.o2v_none
        intro hbo
        exact hb ((List.mem_erase_of_ne hba).2 hbo)
    · show r2.virtual.Perm (r2.ori.flatMap (vhashes r2.hash r2.numO2V))
      rw [h2, h3, h4]
      exact h7
  · intro k
    show r2.v2o k = _
    rw [h8 k, hr.o2v_eq a ha]

theorem rangeOrder_mem {order keys : List String} {k : String} :
    k ∈ rangeOrder order keys ↔ k ∈ keys := by
  simp only [rangeOrder, List.mem_append, List.mem_filter, List.mem_dedup, decide_eq_true_eq]
  by_cases h : k ∈ order <;> simp [h]

theorem rangeOrder_nodup {order keys : List String} (h : keys.Nodup) :
    (rangeOrder order keys).Nodup := by
  unfold rangeOrder
  apply List.Nodup.append
  · exact (List.nodup_dedup order).filter _
  · exact h.filter _
  · intro x hx hx2
    simp only [List.mem_filter, List.mem_dedup, decide_eq_true_eq] at hx hx2
    exact hx2.2 hx.1

/-- Every order of the keys is the order of some `range` loop of the model. -/
theorem rangeOrder_self {keys p : List String} (hp : p.Perm keys) (hn : keys.Nodup) :
    rangeOrder p keys = p := by
  have hpn : p.Nodup := hp.nodup_iff.2 hn
  unfold rangeOrder
  rw [List.Nodup.dedup hpn]
  have h1 : p.filter (fun k => decide (k ∈ keys)) = p := by
    apply List.filter_eq_self.2
    intro a ha
    simpa using hp.subset ha
  have h2 : keys.filter (fun k => decide (k ∉ p)) = [] := by
    apply List.filter_eq_nil_iff.2
    intro a ha
    simpa using hp.symm.subset ha
  rw [h1, h2, List.append_nil]

theorem updateDeleteLoop_spec (addrs : List String) (hs : addrs.Sorted SLe) (ks : List String) :
    ∀ r : ring, RingInv r → ks.Nodup → (∀ k ∈ ks, k ∈ r.ori) →
      RingInv (updateDeleteLoop addrs r ks).1 ∧
      (updateDeleteLoop addrs r ks).1.hash = r.hash ∧
      (updateDeleteLoop addrs r ks).1.numO2V = r.numO2V ∧
      (addrs = [] → (updateDeleteLoop addrs r ks).1 = r) ∧
      (addrs ≠ [] → (updateDeleteLoop addrs r ks).2 = Exit.ok ∧
        (∀ b, b ∈ (updateDeleteLoop addrs r ks).1.ori ↔ b ∈ r.ori ∧ (b ∈ ks → b ∈ addrs)) ∧
        (∀ k, (updateDeleteLoop addrs r ks).1.v2o k =
          if ∃ a ∈ ks, a ∉ addrs ∧ k ∈ vhashes r.hash r.numO2V a then none else r.v2o k)) := by
  induction ks with
  | nil =>
    intro r hr _ _
    simp [updateDeleteLoop, hr]
  | cons k rest ih =>
    intro r hr hnd hsub
    by_cases hne : addrs = []
    · subst hne
      simp [updateDeleteLoop, find_nil, hr]
    · obtain ⟨i, hi, hi2⟩ := find_sorted hs hne k
      have hk : k ∈ r.ori := hsub k (by simp)
      have hnd2 := (List.nodup_cons.1 hnd)
      simp only [updateDeleteLoop, hi]
      rcases hi2 with ⟨hi1, habs⟩ | ⟨hi0, hix⟩
      · subst hi1
        obtain ⟨r2, h1, h2, h3, h4, h5, h6⟩ := DeleteNode_spec hr hk
        simp only [if_true, h1]
        have hsub2 : ∀ x ∈ rest, x ∈ r2.ori := by
          intro x hx
          rw [h5]
          apply (List.mem_erase_of_ne _).2 (hsub x (by simp [hx]))
          intro hxk
          subst hxk
          exact hnd2.1 hx
        obtain ⟨g1, g2, g3, g4, g5⟩ := ih r2 h2 hnd2.2 hsub2
        refine ⟨g1, g2.trans h3, g3.trans h4, fun h => absurd h hne, fun _ => ?_⟩
        obtain ⟨g5a, g5b, g5c⟩ := g5 hne
        refine ⟨g5a, ?_, ?_⟩
        · intro b
          rw [g5b b, h5]
          by_cases hbk : b = k
          · subst hbk
            simp [habs, List.Nodup.not_mem_erase hr.nodup]
          · rw [List.mem_erase_of_ne hbk]
            simp [hbk]
        · intro x
          rw [g5c x, h6 x, h3, h4]
          by_cases hx1 : x ∈ vhashes r.hash r.numO2V k
          · have : ∃ a ∈ k :: rest, a ∉ addrs ∧ x ∈ vhashes r.hash r.numO2V a :=
              ⟨k, by simp, habs, hx1⟩
            simp only [hx1, if_true, this]
            split_ifs <;> rfl
          · simp only [hx1, if_false, List.mem_cons, exists_eq_or_imp, and_false, false_or]
      · have hmem : k ∈ addrs := List.mem_iff_getElem?.2 ⟨_, hix⟩
        have hi1 : ¬ (i = -1) := by omega
        simp only [if_neg hi1]
        obtain ⟨g1, g2, g3, g4, g5⟩ := ih r hr hnd2.2 (fun x hx => hsub x (by simp [hx]))
        refine ⟨g1, g2, g3, fun h => absurd h hne, fun _ => ?_⟩
        obtain ⟨g5a, g5b, g5c⟩ := g5 hne
        refine ⟨g5a, ?_, ?_⟩
        · intro b
          rw [g5b b]
          by_cases hbk : b = k
          · subst hbk
            simp [hmem, hnd2.1]
          · simp [hbk]
        · intro x
          rw [g5c x]
          simp only [List.mem_cons, exists_eq_or_imp, hmem, not_true_eq_false, false_and, false_or]

theorem updateAddLoop_spec (items : List String) :
    ∀ r : ring, RingInv r →
      ∃ r2, updateAddLoop r items = (r2, Exit.ok) ∧ RingInv r2 ∧ r2.hash = r.hash ∧
        r2.numO2V = r.numO2V ∧ (∀ b, b ∈ r2.ori ↔ b ∈ r.ori ∨ b ∈ items) ∧
        (items = [] → r2 = r) := by
  induction items with
  | nil =>
    intro r hr
    exact ⟨r, rfl, hr, rfl, rfl, by simp, fun _ => rfl⟩
  | cons item rest ih =>
    intro r hr
    by_cases hmem : item ∈ r.ori
    · obtain ⟨r2, h1, h2, h3, h4, h5, _⟩ := ih r hr
      refine ⟨r2, ?_, h2, h3, h4, ?_, fun h => by cases h⟩
      · simp only [updateAddLoop, not_not.2 hmem, if_false, h1]
      · intro b
        rw [h5 b, List.mem_cons]
        constructor
        · rintro (h | h)
          · exact Or.inl h
          · exact Or.inr (Or.inr h)
        · rintro (h | h | h)
          · exact Or.inl h
          · subst h; exact Or.inl hmem
          · exact Or.inr h
    · obtain ⟨r1, g1, g2, g3, g4, g5, _⟩ := AddNode_spec hr hmem
      obtain ⟨r2, h1, h2, h3, h4, h5, _⟩ := ih r1 g2
      refine ⟨r2, ?_, h2, h3.trans g3, h4.trans g4, ?_, fun h => by cases h⟩
      · simp only [updateAddLoop, hmem, not_false_eq_true, if_true, g1, h1]
      · intro b
        rw [h5 b, g5, List.mem_append, List.mem_singleton, List.mem_cons]
        tauto

theorem sortStrings_sorted (l : List String) : (sortStrings l).Sorted SLe :=
  List.sorted_insertionSort SLe l

theorem sortStrings_perm (l : List String) : (sortStrings l).Perm l :=
  List.perm_insertionSort SLe l

theorem sortStrings_mem {l : List String} {a : String} : a ∈ sortStrings l ↔ a ∈ l :=
  (sortStrings_perm l).mem_iff

theorem sortStrings_eq_nil {l : List String} : sortStrings l = [] ↔ l = [] := by
  constructor
  · intro h
    have := (sortStrings_perm l).symm
    rw [h] at this
    exact List.Perm.eq_nil this
  · intro h
    subst h
    rfl

/-- A call of `Update` keeps the invariant however it leaves. It panics exactly when the new
list is empty while the ring is not, and then the ring is unchanged; otherwise it returns
without error and the real nodes of the ring are the members of the new list. -/
theorem Update_spec {r : ring} (hr : RingInv r) (addrs order : List String) :
    RingInv (r.Update addrs order).1 ∧ (r.Update addrs order).1.hash = r.hash ∧
      (r.Update addrs order).1.numO2V = r.numO2V ∧
      (addrs = [] → (r.Update addrs order).1 = r) ∧
      (addrs ≠ [] → (r.Update addrs order).2 = Exit.ok ∧
        ∀ b, b ∈ (r.Update addrs order).1.ori ↔ b ∈ addrs) := by
  have hks : (rangeOrder order r.ori).Nodup := rangeOrder_nodup hr.nodup
  have hsub : ∀ k ∈ rangeOrder order r.ori, k ∈ r.ori := fun k hk => rangeOrder_mem.1 hk
  obtain ⟨g1, g2, g3, g4, g5⟩ :=
    updateDeleteLoop_spec (sortStrings addrs) (sortStrings_sorted addrs) _ r hr hks hsub
  obtain ⟨r2, h1, h2, h3, h4, h5, h6⟩ := updateAddLoop_spec (sortStrings addrs) _ g1
  by_cases hne : addrs = []
  · subst hne
    have hr1 := g4 rfl
    have hs : sortStrings [] = [] := rfl
    rw [hs] at hr1 h1
    have hu : (r.Update [] order).1 = r := by
      unfold ring.Update
      rw [hs]
      rcases hd : updateDeleteLoop [] r (rangeOrder order r.ori) with ⟨r1, e⟩
      rw [hd] at hr1
      simp only at hr1
      subst hr1
      cases e <;> simp [updateAddLoop]
    rw [hu]
    exact ⟨hr, rfl, rfl, fun _ => rfl, fun h => absurd rfl h⟩
  · have hne2 : sortStrings addrs ≠ [] := fun h => hne (sortStrings_eq_nil.1 h)
    obtain ⟨g5a, g5b, _⟩ := g5 hne2
    have hu : r.Update addrs order = (r2, Exit.ok) := by
      unfold ring.Update
      rcases hd : updateDeleteLoop (sortStrings addrs) r (rangeOrder order r.ori) with ⟨r1, e⟩
      rw [hd] at g5a h1
      simp only at g5a h1
      subst g5a
      simp only [h1]
    rw [hu]
    refine ⟨h2, h3.trans g2, h4.trans g3, fun h => absurd h hne, fun _ => ⟨rfl, ?_⟩⟩
    intro b
    rw [h5 b, g5b b, sortStrings_mem, rangeOrder_mem]
    constructor
    · rintro (⟨h, h2⟩ | h)
      · exact h2 h
      · exact h
    · intro h
      exact Or.inr h

theorem runUpdates_inv (calls : List (List String × List String)) :
    ∀ r : ring, RingInv r → RingInv (runUpdates r calls) ∧
      (runUpdates r calls).numO2V = r.numO2V ∧ (runUpdates r calls).hash = r.hash := by
  induction calls with
  | nil => intro r hr; exact ⟨hr, rfl, rfl⟩
  | cons c rest ih =>
    intro r hr
    obtain ⟨addrs, order⟩ := c
    obtain ⟨h1, h2, h3, _, _⟩ := Update_spec hr addrs order
    obtain ⟨g1, g2, g3⟩ := ih _ h1
    exact ⟨g1, g2.trans h3, g3.trans h2⟩

theorem length_flatMap_vhashes (hash : String → String) (n : Nat) (l : List String) :
    (l.flatMap (vhashes hash n)).length = n * l.length := by
  induction l with
  | nil => simp
  | cons a rest ih =>
    simp only [List.flatMap_cons, List.length_append, ih, List.length_cons]
    simp only [vhashes, List.length_map, List.length_range]
    ring

theorem RingInv.length_virtual {r : ring} (hr : RingInv r) :
    r.virtual.length = r.numO2V * r.ori.length := by
  rw [hr.perm.length_eq, length_flatMap_vhashes]

/-- C1: starting from a fresh ring with `n` replicas, after any sequence of `Update` calls (with
any argument lists, any orders of the `range` loop, and whether or not a call panics) the list
`virtual` is ascending in the byte-wise order, `ori` lists each real node once, and the length
of `virtual` is `n` times the number of real nodes in `ori`. -/
theorem ring_update_sorted_length (hash : String → String) (n : Nat)
    (calls : List (List String × List String)) :
    (runUpdates (newRing hash n) calls).virtual.Sorted SLe ∧
      (runUpdates (newRing hash n) calls).ori.Nodup ∧
      (runUpdates (newRing hash n) calls).virtual.length =
        n * (runUpdates (newRing hash n) calls).ori.length := by
  obtain ⟨h1, h2, _⟩ := runUpdates_inv calls (newRing hash n) (newRing_inv hash n)
  refine ⟨h1.sorted, h1.nodup, ?_⟩
  rw [h1.length_virtual, h2]
  rfl

set_option maxRecDepth 100000 in
theorem md5_test_suite :
    (md5 "").data.map Char.toNat =
      [212, 29, 140, 217, 143, 0, 178, 4, 233, 128, 9, 152, 236, 248, 66, 126] ∧
    (md5 "a").data.map Char.toNat =
      [12, 193, 117, 185, 192, 241, 182, 168, 49, 195, 153, 226, 105, 119, 38, 97] ∧
    (md5 "abc").data.map Char.toNat =
      [144, 1, 80, 152, 60, 210, 79, 176, 214, 150, 63, 125, 40, 225, 127, 114] ∧
    (md5 "message digest").data.map Char.toNat =
      [249, 107, 105, 125, 124, 183, 147, 141, 82, 90, 47, 49, 170, 241, 97, 208] := by
  decide!

/-! ## `Find` picks the successor of the client's hash -/

theorem Find_sorted (r : ring) (hs : r.virtual.Sorted SLe) (hne : r.virtual ≠ []) (c : String) :
    (∃ h, r.Find c = some ((r.v2o h).getD "", none) ∧ h ∈ r.virtual ∧
        strLt (r.hash c) h = true ∧
        ∀ y ∈ r.virtual, strLt (r.hash c) y = true → strLe h y = true) ∨
      ((∀ y ∈ r.virtual, strLt (r.hash c) y = false) ∧
        ∃ h, r.virtual[0]? = some h ∧ r.Find c = some ((r.v2o h).getD "", none)) := by
  have hlen : ¬ (r.virtual.length = 0) := fun h => hne (List.length_eq_zero.1 h)
  have hpos : 0 < r.virtual.length := Nat.pos_of_ne_zero hlen
  rcases findUpper_sorted hs (r.hash c) with ⟨h1, h2⟩ | ⟨k, x, h1, hkx, hlt, hlo⟩
  · right
    refine ⟨h2, r.virtual[0], List.getElem?_eq_getElem hpos, ?_⟩
    have hidx : idx r.virtual 0 = some r.virtual[0] :=
      idx_eq_some.2 ⟨le_refl _, List.getElem?_eq_getElem hpos⟩
    simp only [ring.Find, if_neg hlen, h1, if_true, hidx]
  · left
    have hk1 : ¬ ((k : Int) = -1) := by omega
    have hidx : idx r.virtual (k : Int) = some x :=
      idx_eq_some.2 ⟨by omega, by simpa using hkx⟩
    refine ⟨x, ?_, List.mem_iff_getElem?.2 ⟨k, hkx⟩, hlt, ?_⟩
    · simp only [ring.Find, if_neg hlen, h1, if_neg hk1, hidx]
    · intro y hy hcy
      obtain ⟨j, hj⟩ := List.mem_iff_getElem?.1 hy
      by_cases hjk : j < k
      · rw [hlo j y hjk hj] at hcy; cases hcy
      · exact sorted_getElem?_le hs hkx hj (by omega)

/-- C2: on a ring whose list `virtual` is non-empty and ascending, `Find(c)` returns without
error the entry of `v2o` (the empty string when the key is missing) at the least virtual hash
strictly greater than `hash(c)`, and at `virtual[0]` when no virtual hash is strictly greater;
and on an ascending slice `findUpper(nums, cur)` returns the least index whose entry is
strictly greater than `cur`, or `-1` when there is none. -/
theorem ring_find_successor (r : ring) (hs : r.virtual.Sorted SLe) (hne : r.virtual ≠ [])
    (c : String) :
    ((∃ h, r.Find c = some ((r.v2o h).getD "", none) ∧ h ∈ r.virtual ∧
        strLt (r.hash c) h = true ∧
        ∀ y ∈ r.virtual, strLt (r.hash c) y = true → strLe h y = true) ∨
      ((∀ y ∈ r.virtual, strLt (r.hash c) y = false) ∧
        ∃ h, r.virtual[0]? = some h ∧ r.Find c = some ((r.v2o h).getD "", none))) ∧
    (∀ (nums : List String) (cur : String), nums.Sorted SLe →
      ((findUpper nums cur = some (-1) ∧ ∀ y ∈ nums, strLt cur y = false) ∨
        (∃ (k : Nat) (x : String), findUpper nums cur = some (k : Int) ∧ nums[k]? = some x ∧
          strLt cur x = true ∧
          ∀ (j : Nat) (y : String), j < k → nums[j]? = some y → strLt cur y = false))) :=
  ⟨Find_sorted r hs hne c, fun _ cur h => findUpper_sorted h cur⟩

set_option maxRecDepth 100000 in
theorem ring_find_successor_witness :
    sampleRing.virtual.Sorted SLe ∧ sampleRing.virtual ≠ [] ∧
    ((∃ h, sampleRing.Find "10.0.0.7:5000" = some ((sampleRing.v2o h).getD "", none) ∧
        h ∈ sampleRing.virtual ∧ strLt (sampleRing.hash "10.0.0.7:5000") h = true ∧
        ∀ y ∈ sampleRing.virtual, strLt (sampleRing.hash "10.0.0.7:5000") y = true →
          strLe h y = true) ∨
      ((∀ y ∈ sampleRing.virtual, strLt (sampleRing.hash "10.0.0.7:5000") y = false) ∧
        ∃ h, sampleRing.virtual[0]? = some h ∧
          sampleRing.Find "10.0.0.7:5000" = some ((sampleRing.v2o h).getD "", none))) :=
  ⟨by decide, by decide,
    (ring_find_successor sampleRing (by decide) (by decide) "10.0.0.7:5000").1⟩

/-! ## The map `v2o` when virtual nodes of different real nodes do not collide -/

theorem AddNode_good {nodes : List String} {r : ring} (hr : RingInv r) (hg : GoodRing nodes r)
    {a : String} (ha : a ∉ r.ori) (hau : a ∈ nodes) : GoodRing nodes (r.AddNode a).1 := by
  obtain ⟨r2, h1, h2, h3, h4, h5, h6⟩ := AddNode_spec hr ha
  obtain ⟨hv, hu, hc⟩ := hg
  rw [h1]
  refine ⟨?_, ?_, ?_⟩
  · intro k b
    show r2.v2o k = some b ↔ b ∈ r2.ori ∧ k ∈ vhashes r2.hash r2.numO2V b
    rw [h6 k, h3, h4, h5, List.mem_append, List.mem_singleton]
    by_cases hk : k ∈ vhashes r.hash r.numO2V a
    · simp only [hk, if_true, Option.some.injEq]
      constructor
      · intro h; subst h; exact ⟨Or.inr rfl, hk⟩
      · rintro ⟨hb | hb, hkb⟩
        · by_contra hne
          exact hc a hau b (hu b hb) hne k hk hkb
        · exact hb.symm
    · simp only [hk, if_false]
      rw [hv k b]
      constructor
      · rintro ⟨hb, hkb⟩; exact ⟨Or.inl hb, hkb⟩
      · rintro ⟨hb | hb, hkb⟩
        · exact ⟨hb, hkb⟩
        · subst hb; exact absurd hkb hk
  · intro b hb
    change b ∈ r2.ori at hb
    rw [h5, List.mem_append, List.mem_singleton] at hb
    rcases hb with hb | hb
    · exact hu b hb
    · subst hb; exact hau
  · show NoCollision r2.hash r2.numO2V nodes
    rw [h3, h4]; exact hc

theorem DeleteNode_good {nodes : List String} {r : ring} (hr : RingInv r)
    (hg : GoodRing nodes r) {a : String} (ha : a ∈ r.ori) :
    GoodRing nodes (r.DeleteNode a).1 := by
  obtain ⟨r2, h1, h2, h3, h4, h5, h6⟩ := DeleteNode_spec hr ha
  obtain ⟨hv, hu, hc⟩ := hg
  rw [h1]
  refine ⟨?_, ?_, ?_⟩
  · intro k b
    show r2.v2o k = some b ↔ b ∈ r2.ori ∧ k ∈ vhashes r2.hash r2.numO2V b
    rw [h6 k, h3, h4, h5]
    by_cases hk : k ∈ vhashes r.hash r.numO2V a
    · simp only [hk, if_true, reduceCtorEq, false_iff, not_and]
      intro hb hkb
      have hba : b ≠ a := fun h => by
        subst h; exact (List.Nodup.not_mem_erase hr.nodup) hb
      exact hc a (hu a ha) b (hu b (List.mem_of_mem_erase hb)) (Ne.symm hba) k hk hkb
    · simp only [hk, if_false]
      rw [hv k b]
      constructor
      · rintro ⟨hb, hkb⟩
        refine ⟨?_, hkb⟩
        apply (List.mem_erase_of_ne ?_).2 hb
        intro h; subst h; exact hk hkb
      · rintro ⟨hb, hkb⟩
        exact ⟨List.mem_of_mem_erase hb, hkb⟩
  · intro b hb
    change b ∈ r2.ori at hb
    rw [h5] at hb
    exact hu b (List.mem_of_mem_erase hb)
  · show NoCollision r2.hash r2.numO2V nodes
    rw [h3, h4]; exact hc

theorem updateDeleteLoop_good {nodes : List String} (addrs : List String) (ks : List String) :
    ∀ r : ring, RingInv r → GoodRing nodes r → ks.Nodup → (∀ k ∈ ks, k ∈ r.ori) →
      RingInv (updateDeleteLoop addrs r ks).1 ∧ GoodRing nodes (updateDeleteLoop addrs r ks).1 := by
  induction ks with
  | nil => intro r hr hg _ _; exact ⟨hr, hg⟩
  | cons k rest ih =>
    intro r hr hg hnd hsub
    have hk : k ∈ r.ori := hsub k (by simp)
    have hnd2 := List.nodup_cons.1 hnd
    simp only [updateDeleteLoop]
    rcases find addrs k with _ | i
    · exact ⟨hr, hg⟩
    · simp only
      split_ifs with hi
      · obtain ⟨r2, h1, h2, h3, h4, h5, h6⟩ := DeleteNode_spec hr hk
        have hg2 := DeleteNode_good hr hg hk
        rw [h1] at hg2 ⊢
        simp only
        apply ih r2 h2 hg2 hnd2.2
        intro x hx
        rw [h5]
        apply (List.mem_erase_of_ne _).2 (hsub x (by simp [hx]))
        intro hxk
        subst hxk
        exact hnd2.1 hx
      · exact ih r hr hg hnd2.2 (fun x hx => hsub x (by simp [hx]))

theorem updateAddLoop_good {nodes : List String} (items : List String)
    (hsub : ∀ a ∈ items, a ∈ nodes) :
    ∀ r : ring, RingInv r → GoodRing nodes r → GoodRing nodes (updateAddLoop r items).1 := by
  induction items with
  | nil => intro r _ hg; exact hg
  | cons item rest ih =>
    intro r hr hg
    have hsub2 : ∀ a ∈ rest, a ∈ nodes := fun a ha => hsub a (by simp [ha])
    by_cases hmem : item ∈ r.ori
    · simp only [updateAddLoop, not_not.2 hmem, if_false]
      exact ih hsub2 r hr hg
    · obtain ⟨r1, g1, g2, _⟩ := AddNode_spec hr hmem
      have hg1 := AddNode_good hr hg hmem (hsub item (by simp))
      rw [g1] at hg1
      simp only [updateAddLoop, hmem, not_false_eq_true, if_true, g1]
      exact ih hsub2 r1 g2 hg1

theorem Update_good {nodes : List String} {r : ring} (hr : RingInv r) (hg : GoodRing nodes r)
    (addrs order : List String) (hsub : ∀ a ∈ addrs, a ∈ nodes) :
    GoodRing nodes (r.Update addrs order).1 := by
  have hks : (rangeOrder order r.ori).Nodup := rangeOrder_nodup hr.nodup
  have hsubk : ∀ k ∈ rangeOrder order r.ori, k ∈ r.ori := fun k hk => rangeOrder_mem.1 hk
  obtain ⟨g1, g2⟩ := @updateDeleteLoop_good nodes (sortStrings addrs) _ r hr hg hks hsubk
  unfold ring.Update
  rcases hd : updateDeleteLoop (sortStrings addrs) r (rangeOrder order r.ori) with ⟨r1, e⟩
  rw [hd] at g1 g2
  cases e
  · exact updateAddLoop_good _ (fun a ha => hsub a (sortStrings_mem.1 ha)) r1 g1 g2
  · exact g2
  · exact g2

theorem addNodes_spec (l : List String) :
    ∀ r : ring, RingInv r → l.Nodup → (∀ a ∈ l, a ∉ r.ori) →
      ∃ r2, addNodes r l = (r2, Exit.ok) ∧ RingInv r2 ∧ r2.hash = r.hash ∧
        r2.numO2V = r.numO2V ∧ r2.ori = r.ori ++ l ∧
        ∀ nodes, (∀ a ∈ l, a ∈ nodes) → GoodRing nodes r → GoodRing nodes r2 := by
  induction l with
  | nil =>
    intro r hr _ _
    exact ⟨r, rfl, hr, rfl, rfl, by simp, fun _ _ h => h⟩
  | cons a rest ih =>
    intro r hr hnd hdis
    have hnd2 := List.nodup_cons.1 hnd
    have ha : a ∉ r.ori := hdis a (by simp)
    obtain ⟨r1, g1, g2, g3, g4, g5, _⟩ := AddNode_spec hr ha
    have hdis2 : ∀ b ∈ rest, b ∉ r1.ori := by
      intro b hb
      rw [g5, List.mem_append, List.mem_singleton]
      rintro (h | h)
      · exact hdis b (by simp [hb]) h
      · subst h; exact hnd2.1 hb
    obtain ⟨r2, h1, h2, h3, h4, h5, h6⟩ := ih r1 g2 hnd2.2 hdis2
    refine ⟨r2, ?_, h2, h3.trans g3, h4.trans g4, ?_, ?_⟩
    · simp only [addNodes, g1, h1]
    · rw [h5, g5]; simp
    · intro nodes hsub hg
      apply h6 nodes (fun b hb => hsub b (by simp [hb]))
      have := AddNode_good hr hg ha (hsub a (by simp))
      rw [g1] at this
      exact this

/-- Two rings with the same hash, the same number of replicas and the same set of real nodes
have the same list `virtual`; they have the same map `v2o` when both satisfy `V2OInv`. -/
theorem ring_ext {r1 r2 : ring} (h1 : RingInv r1) (h2 : RingInv r2) (hh : r1.hash = r2.hash)
    (hn : r1.numO2V = r2.numO2V) (hori : ∀ a, a ∈ r1.ori ↔ a ∈ r2.ori) :
    r1.virtual = r2.virtual ∧ (V2OInv r1 → V2OInv r2 → r1.v2o = r2.v2o) := by
  constructor
  · have hp : r1.ori.Perm r2.ori := (List.perm_ext_iff_of_nodup h1.nodup h2.nodup).2 hori
    have hp2 := List.Perm.flatMap_right (vhashes r1.hash r1.numO2V) hp
    have hp3 : r1.virtual.Perm r2.virtual := by
      refine h1.perm.trans (hp2.trans ?_)
      rw [hh, hn]
      exact h2.perm.symm
    exact List.eq_of_perm_of_sorted hp3 h1.sorted h2.sorted
  · intro hv1 hv2
    funext k
    cases hk : r1.v2o k with
    | none =>
      cases hk2 : r2.v2o k with
      | none => rfl
      | some b =>
        have := (hv2 k b).1 hk2
        rw [← hh, ← hn, ← hori] at this
        rw [(hv1 k b).2 this] at hk
        cases hk
    | some a =>
      have := (hv1 k a).1 hk
      rw [hh, hn, hori] at this
      exact ((hv2 k a).2 this).symm

theorem Find_congr {r1 r2 : ring} (hh : r1.hash = r2.hash) (hv : r1.virtual = r2.virtual)
    (hm : r1.v2o = r2.v2o) (key : String) : r1.Find key = r2.Find key := by
  simp only [ring.Find, hh, hv, hm]

theorem newRing_good (hash : String → String) (n : Nat) {nodes : List String}
    (hc : NoCollision hash n nodes) : GoodRing nodes (newRing hash n) := by
  refine ⟨?_, ?_, hc⟩
  · intro k a
    simp [newRing]
  · intro a ha
    cases ha

theorem noCollision_of_nodup {hash : String → String} {n : Nat} {nodes : List String}
    (h : (nodes.flatMap (vhashes hash n)).Nodup) : NoCollision hash n nodes := by
  have hp := (List.nodup_flatMap.1 h).2
  intro a ha b hb hab k hka hkb
  have hsymm : Symmetric (fun a b : String =>
      List.Disjoint (vhashes hash n a) (vhashes hash n b)) := by
    intro x y hxy
    exact hxy.symm
  exact (List.Pairwise.forall hsymm hp ha hb hab) hka hkb

theorem Update_newRing_nil (hash : String → String) (n : Nat) (order : List String) :
    (newRing hash n).Update [] order = (newRing hash n, Exit.ok) := by
  have h1 : rangeOrder order (newRing hash n).ori = [] := by
    apply List.eq_nil_iff_forall_not_mem.2
    intro a ha
    have := rangeOrder_mem.1 ha
    cases this
  have h2 : sortStrings [] = [] := rfl
  simp only [ring.Update, h1, h2, updateDeleteLoop, updateAddLoop]

/-- C3: for distinct real nodes whose virtual-node hashes are pairwise distinct, a fresh ring
filled with the nodes in any order, by `AddNode` node after node or by one `Update` with the
list in that order, has the same list `virtual` and the same map `v2o` as the ring filled in
the reference order, so `Find(key)` returns the same for every insertion order. It holds for
any number of nodes and of replicas, in particular for three nodes and 32 replicas. -/
theorem ring_insertion_order_irrelevant (hash : String → String) (n : Nat)
    (nodes perm : List String) (hperm : perm.Perm nodes) (hnd : nodes.Nodup)
    (hdist : (nodes.flatMap (vhashes hash n)).Nodup) (order : List String) (key : String) :
    (addNodes (newRing hash n) perm).2 = Exit.ok ∧
    ((newRing hash n).Update perm order).2 = Exit.ok ∧
    (addNodes (newRing hash n) perm).1.virtual = (addNodes (newRing hash n) nodes).1.virtual ∧
    (addNodes (newRing hash n) perm).1.v2o = (addNodes (newRing hash n) nodes).1.v2o ∧
    ((newRing hash n).Update perm order).1.virtual =
      (addNodes (newRing hash n) nodes).1.virtual ∧
    ((newRing hash n).Update perm order).1.v2o = (addNodes (newRing hash n) nodes).1.v2o ∧
    (addNodes (newRing hash n) perm).1.Find key =
      (addNodes (newRing hash n) nodes).1.Find key ∧
    ((newRing hash n).Update perm order).1.Find key =
      (addNodes (newRing hash n) nodes).1.Find key := by
  have hc := noCollision_of_nodup hdist
  have hg0 := newRing_good hash n hc
  have hi0 := newRing_inv hash n
  have hpn : perm.Nodup := hperm.nodup_iff.2 hnd
  obtain ⟨ra, a1, a2, a3, a4, a5, a6⟩ :=
    addNodes_spec nodes (newRing hash n) hi0 hnd (fun _ _ h => by cases h)
  obtain ⟨rb, b1, b2, b3, b4, b5, b6⟩ :=
    addNodes_spec perm (newRing hash n) hi0 hpn (fun _ _ h => by cases h)
  have ga := a6 nodes (fun _ h => h) hg0
  have gb := b6 nodes (fun _ h => hperm.subset h) hg0
  obtain ⟨u1, u2, u3, u4, u5⟩ := Update_spec hi0 perm order
  have gu := Update_good hi0 hg0 perm order (fun _ h => hperm.subset h)
  have hab : ∀ x, x ∈ rb.ori ↔ x ∈ ra.ori := by
    intro x
    rw [a5, b5]
    simp only [newRing, List.nil_append]
    exact hperm.mem_iff
  obtain ⟨e1, e2⟩ := ring_ext b2 a2 (b3.trans a3.symm) (b4.trans a4.symm) hab
  rw [a1, b1]
  have hu : ((newRing hash n).Update perm order).2 = Exit.ok ∧
      ∀ x, x ∈ ((newRing hash n).Update perm order).1.ori ↔ x ∈ ra.ori := by
    by_cases hne : perm = []
    · subst hne
      rw [Update_newRing_nil]
      refine ⟨rfl, ?_⟩
      intro x
      rw [a5]
      simp only [newRing, List.nil_append]
      exact hperm.mem_iff
    · obtain ⟨v1, v2⟩ := u5 hne
      refine ⟨v1, ?_⟩
      intro x
      rw [v2 x, a5]
      simp only [newRing, List.nil_append]
      exact hperm.mem_iff
  obtain ⟨f1, f2⟩ := ring_ext u1 a2 (u2.trans a3.symm) (u3.trans a4.symm) hu.2
  have e3 := e2 gb.1 ga.1
  have f3 := f2 gu.1 ga.1
  exact ⟨rfl, hu.1, e1, e3, f1, f3, Find_congr (b3.trans a3.symm) e1 e3 key,
    Find_congr (u2.trans a3.symm) f1 f3 key⟩

set_option maxRecDepth 1000000 in
/-- The 96 MD5 digests of the virtual nodes of three sample nodes are pairwise distinct. -/
theorem sample_nodes_nodup :
    ((["A", "B", "C"] : List String).flatMap (vhashes md5 32)).Nodup := by
  decide!

theorem ring_insertion_order_irrelevant_witness :
    (["C", "A", "B"] : List String).Perm ["A", "B", "C"] ∧
    (["A", "B", "C"] : List String).Nodup ∧
    ((["A", "B", "C"] : List String).flatMap (vhashes md5 32)).Nodup ∧
    ((newRing md5 32).Update ["C", "A", "B"] []).1.Find "10.0.0.7:5000" =
      (addNodes (newRing md5 32) ["A", "B", "C"]).1.Find "10.0.0.7:5000" :=
  have h1 : (["C", "A", "B"] : List String).Perm ["A", "B", "C"] := by decide
  have h2 : (["A", "B", "C"] : List String).Nodup := by decide
  have h3 : ((["A", "B", "C"] : List String).flatMap (vhashes md5 32)).Nodup :=
    sample_nodes_nodup
  ⟨h1, h2, h3,
    (ring_insertion_order_irrelevant md5 32 ["A", "B", "C"] ["C", "A", "B"] h1 h2 h3 []
      "10.0.0.7:5000").2.2.2.2.2.2.2⟩

/-! ## `ConsistentHashBalancer.Next` -/

theorem Next_fst (c : ConsistentHashBalancer) (mth clientAddr : String)
    (addrs order : List String) :
    (c.Next mth clientAddr addrs order).1 = (c.refresh mth addrs order).1 := by
  unfold ConsistentHashBalancer.Next
  rcases c.refresh mth addrs order with ⟨c1, e⟩
  cases e with
  | ok =>
    simp only
    cases c1.ringMap mth with
    | none => rfl
    | some r =>
      simp only
      rcases r.Find clientAddr with _ | ⟨t, _ | _⟩ <;> rfl
  | err m => rfl
  | panic => rfl

theorem runNexts_inv (nodes : List String) (hc : NoCollision md5 32 nodes) (mth : String)
    (calls : List NextCall) :
    ∀ c : ConsistentHashBalancer,
      (∀ r, c.ringMap mth = some r →
        RingInv r ∧ GoodRing nodes r ∧ r.hash = md5 ∧ r.numO2V = 32) →
      (∀ call ∈ calls, call.mth = mth → ∀ a ∈ call.addrs, a ∈ nodes) →
      ∀ r, (runNexts c calls).ringMap mth = some r →
        RingInv r ∧ GoodRing nodes r ∧ r.hash = md5 ∧ r.numO2V = 32 := by
  induction calls with
  | nil => intro c hinv _; exact hinv
  | cons call rest ih =>
    intro c hinv hcalls
    apply ih
    · intro r hr
      rw [Next_fst] at hr
      simp only [ConsistentHashBalancer.refresh, mapSet] at hr
      by_cases hm : mth = call.mth
      · simp only [hm, if_true, Option.some.injEq] at hr
        have hsub : ∀ a ∈ call.addrs, a ∈ nodes := hcalls call (by simp) hm.symm
        rw [← hm] at hr
        rcases hold : c.ringMap mth with _ | r0
        · rw [hold] at hr
          simp only at hr
          subst hr
          obtain ⟨u1, u2, u3, _⟩ := Update_spec (newRing_inv md5 32) call.addrs call.order
          exact ⟨u1, Update_good (newRing_inv md5 32) (newRing_good md5 32 hc) _ _ hsub,
            u2, u3⟩
        · rw [hold] at hr
          simp only at hr
          subst hr
          obtain ⟨i1, i2, i3, i4⟩ := hinv r0 hold
          obtain ⟨u1, u2, u3, _⟩ := Update_spec i1 call.addrs call.order
          exact ⟨u1, Update_good i1 i2 _ _ hsub, u2.trans i3, u3.trans i4⟩
      · simp only [hm, if_false] at hr
        exact hinv r hr
    · intro call2 h2
      exact hcalls call2 (by simp [h2])

theorem Next_mem_of_good {nodes : List String} {r0 : ring} (hi : RingInv r0)
    (hg : GoodRing nodes r0) (hn : r0.numO2V = 32) (clientAddr : String)
    (addrs order : List String) (hne : addrs ≠ []) (hsub : ∀ a ∈ addrs, a ∈ nodes) :
    (r0.Update addrs order).2 = Exit.ok ∧
      ∃ t, (r0.Update addrs order).1.Find clientAddr = some (t, none) ∧ t ∈ addrs := by
  obtain ⟨u1, u2, u3, _, u5⟩ := Update_spec hi addrs order
  obtain ⟨v1, v2⟩ := u5 hne
  have hg1 := Update_good hi hg addrs order hsub
  refine ⟨v1, ?_⟩
  have hlen := u1.length_virtual
  rw [u3, hn] at hlen
  obtain ⟨a0, ha0⟩ := List.exists_mem_of_ne_nil addrs hne
  have hori : 0 < (r0.Update addrs order).1.ori.length :=
    List.length_pos_of_mem ((v2 a0).2 ha0)
  have hvne : (r0.Update addrs order).1.virtual ≠ [] := by
    apply List.ne_nil_of_length_pos
    omega
  have key : ∀ h ∈ (r0.Update addrs order).1.virtual,
      ∃ a ∈ addrs, (r0.Update addrs order).1.v2o h = some a := by
    intro h hh
    have := u1.perm.subset hh
    obtain ⟨a, ha, hka⟩ := List.mem_flatMap.1 this
    exact ⟨a, (v2 a).1 ha, (hg1.1 h a).2 ⟨ha, hka⟩⟩
  rcases Find_sorted _ u1.sorted hvne clientAddr with ⟨h, f1, f2, _⟩ | ⟨_, h, f1, f2⟩
  · obtain ⟨a, ha, hva⟩ := key h f2
    exact ⟨a, by rw [f1, hva]; rfl, ha⟩
  · obtain ⟨a, ha, hva⟩ := key h (List.mem_iff_getElem?.2 ⟨0, f1⟩)
    exact ⟨a, by rw [f2, hva]; rfl, ha⟩

/-- C4 (as amended): let `nodes` list real nodes such that no virtual node of one of them has
the MD5 digest of a virtual node of another. After any sequence of calls of `Next` on the
balancer that `NewBalancerX` registers, in which every candidate list given for the method
`mth` draws from `nodes`, a call `Next(mth, clientAddr, addrs)` with a non-empty `addrs` drawn
from `nodes` returns an element of `addrs`. -/
theorem consistentHash_next_mem (nodes : List String) (hc : NoCollision md5 32 nodes)
    (calls : List NextCall) (mth clientAddr : String) (addrs order : List String)
    (hcalls : ∀ call ∈ calls, call.mth = mth → ∀ a ∈ call.addrs, a ∈ nodes)
    (hne : addrs ≠ []) (hsub : ∀ a ∈ addrs, a ∈ nodes) :
    ∃ t, ((runNexts ConsistentHashBalancer.fresh calls).Next mth clientAddr addrs order).2 =
      some t ∧ t ∈ addrs := by
  have hinv := runNexts_inv nodes hc mth calls ConsistentHashBalancer.fresh
    (by intro r hr; cases hr) hcalls
  generalize runNexts ConsistentHashBalancer.fresh calls = c at hinv
  have hr0 : ∃ r0, RingInv r0 ∧ GoodRing nodes r0 ∧ r0.numO2V = 32 ∧
      c.refresh mth addrs order =
        ({ ringMap := mapSet c.ringMap mth (r0.Update addrs order).1 },
          (r0.Update addrs order).2) := by
    rcases hold : c.ringMap mth with _ | r0
    · refine ⟨newRing md5 32, newRing_inv md5 32, newRing_good md5 32 hc, rfl, ?_⟩
      simp only [ConsistentHashBalancer.refresh, hold]
    · obtain ⟨i1, i2, _, i4⟩ := hinv r0 hold
      refine ⟨r0, i1, i2, i4, ?_⟩
      simp only [ConsistentHashBalancer.refresh, hold]
  obtain ⟨r0, i1, i2, i4, href⟩ := hr0
  obtain ⟨hok, t, ht, hmem⟩ := Next_mem_of_good i1 i2 i4 clientAddr addrs order hne hsub
  refine ⟨t, ?_, hmem⟩
  unfold ConsistentHashBalancer.Next
  rw [href, hok]
  simp only [mapSet, if_true, ht]

theorem consistentHash_next_mem_witness :
    NoCollision md5 32 ["A", "B", "C"] ∧
    ∃ t, ((runNexts ConsistentHashBalancer.fresh
        [{ mth := "Foo.Sum", clientAddr := "10.0.0.7:5000", addrs := ["A", "B"], order := [] }]).Next
          "Foo.Sum" "10.0.0.8:5000" ["C", "B"] ["B", "A"]).2 = some t ∧ t ∈ ["C", "B"] :=
  ⟨noCollision_of_nodup sample_nodes_nodup,
    consistentHash_next_mem ["A", "B", "C"] (noCollision_of_nodup sample_nodes_nodup)
      [{ mth := "Foo.Sum", clientAddr := "10.0.0.7:5000", addrs := ["A", "B"], order := [] }]
      "Foo.Sum" "10.0.0.8:5000" ["C", "B"] ["B", "A"] (by decide) (by decide) (by decide)⟩

set_option maxRecDepth 1000000 in
/-- C4 as stated fails: the strings `collisionA` and `collisionB` are distinct real nodes whose
32 virtual nodes have the same MD5 digests. After a call of `Next` with both as candidates, a
call with the candidate list `[collisionA]` returns the empty string, which is not in the
list. -/
theorem consistentHash_next_collision :
    ((ConsistentHashBalancer.fresh.Next "Foo.Sum" "10.0.0.7:5000"
        [collisionA, collisionB] []).1.Next "Foo.Sum" "10.0.0.7:5000" [collisionA] []).2 =
      some "" ∧ "" ∉ [collisionA] := by
  decide!

/-! ## `RoundRobinBalancer.Next` -/

theorem runRoundRobin_last (mth : String) (calls : List RoundRobinCall) :
    ∀ b : RoundRobinBalancer,
      ((runRoundRobin b calls).last mth).getD 0 = (b.last mth).getD 0 + callsFor mth calls := by
  induction calls with
  | nil => intro b; simp [runRoundRobin, callsFor]
  | cons call rest ih =>
    intro b
    simp only [runRoundRobin]
    rw [ih]
    have hfst : (b.Next call.mth call.clientAddr call.addrs).1 =
        { last := mapSet b.last call.mth ((b.last call.mth).getD 0 + 1) } := by
      unfold RoundRobinBalancer.Next
      split_ifs <;> rfl
    rw [hfst]
    by_cases hm : call.mth = mth
    · subst hm
      simp only [mapSet, if_true, Option.getD_some, callsFor, List.filter_cons, decide_True,
        List.length_cons]
      omega
    · have hm2 : ¬ (mth = call.mth) := fun h => hm h.symm
      simp only [mapSet, if_neg hm2, callsFor, List.filter_cons, hm, decide_False]
      simp

/-- C5: on a fresh balancer, after any sequence of calls of which `k` were for the method `m`,
the next call for `m` (the `k`-th, counting from 0) with a non-empty list `addrs` returns
`addrs[k mod len(addrs)]`; and a call for a method leaves the counter of every other method
unchanged. -/
theorem roundRobin_next (calls : List RoundRobinCall) (m clientAddr : String)
    (addrs : List String) (hne : addrs ≠ []) :
    (∃ x, ((runRoundRobin RoundRobinBalancer.fresh calls).Next m clientAddr addrs).2 = some x ∧
      addrs[callsFor m calls % addrs.length]? = some x) ∧
    (∀ (b : RoundRobinBalancer) (m2 c2 : String) (addrs2 : List String), m2 ≠ m →
      (b.Next m2 c2 addrs2).1.last m = b.last m) := by
  constructor
  · have hlen : ¬ (addrs.length = 0) := fun h => hne (List.length_eq_zero.1 h)
    have hk := runRoundRobin_last m calls RoundRobinBalancer.fresh
    simp only [RoundRobinBalancer.fresh, Option.getD_none, Nat.zero_add] at hk
    have hlt : callsFor m calls % addrs.length < addrs.length :=
      Nat.mod_lt _ (Nat.pos_of_ne_zero hlen)
    refine ⟨addrs[callsFor m calls % addrs.length], ?_, List.getElem?_eq_getElem hlt⟩
    simp only [RoundRobinBalancer.Next, if_neg hlen]
    rw [← List.getElem?_eq_getElem hlt]
    simp only [RoundRobinBalancer.fresh] at hk ⊢
    rw [hk]
  · intro b m2 c2 addrs2 hm
    have hm2 : ¬ (m = m2) := fun h => hm h.symm
    unfold RoundRobinBalancer.Next
    split_ifs <;> simp [mapSet, hm2]

theorem roundRobin_next_witness :
    (["tcp@a:1", "tcp@b:1", "tcp@c:1"] : List String) ≠ [] ∧
    ∃ x, ((runRoundRobin RoundRobinBalancer.fresh
        [{ mth := "Foo.Sum", clientAddr := "c", addrs := ["tcp@a:1", "tcp@b:1"] },
         { mth := "Foo.Mul", clientAddr := "c", addrs := ["tcp@a:1"] },
         { mth := "Foo.Sum", clientAddr := "c", addrs := ["tcp@a:1", "tcp@b:1"] }]).Next
          "Foo.Sum" "c" ["tcp@a:1", "tcp@b:1", "tcp@c:1"]).2 = some x ∧
      (["tcp@a:1", "tcp@b:1", "tcp@c:1"] : List String)[callsFor "Foo.Sum"
        [{ mth := "Foo.Sum", clientAddr := "c", addrs := ["tcp@a:1", "tcp@b:1"] },
         { mth := "Foo.Mul", clientAddr := "c", addrs := ["tcp@a:1"] },
         { mth := "Foo.Sum", clientAddr := "c", addrs := ["tcp@a:1", "tcp@b:1"] }] %
        (["tcp@a:1", "tcp@b:1", "tcp@c:1"] : List String).length]? = some x :=
  ⟨by decide,
    (roundRobin_next
      [{ mth := "Foo.Sum", clientAddr := "c", addrs := ["tcp@a:1", "tcp@b:1"] },
       { mth := "Foo.Mul", clientAddr := "c", addrs := ["tcp@a:1"] },
       { mth := "Foo.Sum", clientAddr := "c", addrs := ["tcp@a:1", "tcp@b:1"] }]
      "Foo.Sum" "c" ["tcp@a:1", "tcp@b:1", "tcp@c:1"] (by decide)).1⟩

/-! ## The registry: a replaced method list leaves the server in `services` -/

/-- C6 fails on the code: after a server registers with the method list `["Foo.Sum"]` and then
with the list `["Foo.Mul"]`, `putServer` has stored the new list in `server2service` but has
not removed the server from `services["Foo.Sum"]`, so the server is in `services[m]` for a
method `m` that is not in `server2service` of the server. -/
theorem registry_putServer_keeps_stale_service :
    sampleServer ∈ ((reRegistered "Foo.Sum" "Foo.Mul").services "Foo.Sum").getD [] ∧
    (reRegistered "Foo.Sum" "Foo.Mul").server2service sampleServer = some ["Foo.Mul"] ∧
    "Foo.Sum" ∉ ((reRegistered "Foo.Sum" "Foo.Mul").server2service sampleServer).getD [] := by
  decide

/-- C7 fails on the code, by the defect of C6: after a server registers with the method list
`["Foo.Sum"]` and then with `["Foo.Mul"]`, a call `aliveServers("Foo.Sum")` within the
timeout returns the server although `"Foo.Sum"` is not in `server2service` of the server,
neither before nor after the call. -/
theorem registry_aliveServers_returns_stale_method :
    ((reRegistered "Foo.Sum" "Foo.Mul").aliveServers "Foo.Sum" 2000000000 []).2 =
      some [sampleServer] ∧
    "Foo.Sum" ∉ ((reRegistered "Foo.Sum" "Foo.Mul").server2service sampleServer).getD [] ∧
    "Foo.Sum" ∉ (((reRegistered "Foo.Sum" "Foo.Mul").aliveServers "Foo.Sum" 2000000000
      []).1.server2service sampleServer).getD [] := by
  decide

/-- C8 fails on the code, by the defect of C6: a server registers with the method list
`["Foo.Mul"]` and then with `["Foo.Sum"]`. Once its heartbeat is older than the timeout,
`aliveServers("Foo.Sum")` returns the empty list and removes the server from `servers`, from
`server2service` and from `services["Foo.Sum"]`, but the server stays in
`services["Foo.Mul"]`; a later `aliveServers("Foo.Mul")` then panics, reading the field
`start` of the server's missing entry of `servers`. -/
theorem registry_eviction_leaves_stale_service :
    ((reRegistered "Foo.Mul" "Foo.Sum").aliveServers "Foo.Sum" 400000000000 []).2 = some [] ∧
    (((reRegistered "Foo.Mul" "Foo.Sum").aliveServers "Foo.Sum" 400000000000 []).1.servers
      sampleServer).isNone = true ∧
    ((reRegistered "Foo.Mul" "Foo.Sum").aliveServers "Foo.Sum" 400000000000
      []).1.server2service sampleServer = none ∧
    ((reRegistered "Foo.Mul" "Foo.Sum").aliveServers "Foo.Sum" 400000000000 []).1.services
      "Foo.Sum" = some [] ∧
    sampleServer ∈ (((reRegistered "Foo.Mul" "Foo.Sum").aliveServers "Foo.Sum" 400000000000
      []).1.services "Foo.Mul").getD [] ∧
    (((reRegistered "Foo.Mul" "Foo.Sum").aliveServers "Foo.Sum" 400000000000
      []).1.aliveServers "Foo.Mul" 400000000001 []).2 = none := by
  decide

/-! ## The registry: a `GET` for a method without live server -/

set_option maxRecDepth 1000000 in
/-- C9 fails on the code. On a registry without servers a `GET` in the mode `RoundRobin` or
`RandomSelect` panics before a response is written (`next % 0`, `Intn(0)`); in the mode
`ConsistentHash` it answers 200 with an empty header while the ring of the method is empty,
but once the ring holds a server (registered by a `POST` and returned by a `GET`) and the
server has expired, the `GET` panics as well, in `find(addrs, k)` on the empty list. -/
theorem registry_get_without_server_panics :
    (serve (New 300000000000, NewBalancerX) (getRequest "RoundRobin") (choicesAt 0)).2 = none ∧
    (serve (New 300000000000, NewBalancerX) (getRequest "RandomSelect") (choicesAt 0)).2 =
      none ∧
    (serve (New 300000000000, NewBalancerX) (getRequest "ConsistentHash") (choicesAt 0)).2 =
      some { status := 200, servers := some "" } ∧
    (serve (serve (New 300000000000, NewBalancerX) postRequest (choicesAt 0)).1
      (getRequest "ConsistentHash") (choicesAt 1000000000)).2 =
      some { status := 200, servers := some sampleServer } ∧
    (serve (serve (serve (New 300000000000, NewBalancerX) postRequest (choicesAt 0)).1
      (getRequest "ConsistentHash") (choicesAt 1000000000)).1
      (getRequest "ConsistentHash") (choicesAt 400000000000)).2 = none := by
  decide

/-! ## `Server.findService` -/

theorem lastIndexByte_neg_one_le (c : Char) (s : List Char) : -1 ≤ lastIndexByte c s := by
  induction s with
  | nil => simp [lastIndexByte]
  | cons x xs ih =>
    simp only [lastIndexByte]
    split_ifs <;> omega

theorem lastIndexByte_of_not_mem {c : Char} {s : List Char} (h : c ∉ s) :
    lastIndexByte c s = -1 := by
  induction s with
  | nil => rfl
  | cons x xs ih =>
    rw [List.mem_cons, not_or] at h
    have hx : ¬ (x = c) := fun e => h.1 e.symm
    simp [lastIndexByte, ih h.2, hx]

theorem lastIndexByte_split {c : Char} (pre post : List Char) (h : c ∉ post) :
    lastIndexByte c (pre ++ c :: post) = pre.length := by
  induction pre with
  | nil =>
    simp [lastIndexByte, lastIndexByte_of_not_mem h]
  | cons x xs ih =>
    have hpos : (0 : Int) ≤ (xs.length : Int) := Int.natCast_nonneg _
    have hstep : lastIndexByte c (x :: (xs ++ c :: post)) =
        if 0 ≤ lastIndexByte c (xs ++ c :: post) then lastIndexByte c (xs ++ c :: post) + 1
        else if x = c then 0 else -1 := rfl
    rw [List.cons_append, hstep, ih, if_pos hpos, List.length_cons]
    push_cast
    rfl

theorem exists_last_split {c : Char} {s : List Char} (h : c ∈ s) :
    ∃ pre post, s = pre ++ c :: post ∧ c ∉ post := by
  induction s with
  | nil => cases h
  | cons x xs ih =>
    by_cases hxs : c ∈ xs
    · obtain ⟨pre, post, h1, h2⟩ := ih hxs
      exact ⟨x :: pre, post, by rw [h1]; rfl, h2⟩
    · rcases List.mem_cons.1 h with h1 | h1
      · subst h1
        exact ⟨[], xs, rfl, hxs⟩
      · exact absurd h1 hxs

theorem findService_of_split (server : Server) (sm : String) (pre post : List Char)
    (h1 : sm.data = pre ++ '.' :: post) (h2 : '.' ∉ post) :
    server.findService sm =
      match server.serviceMap (String.mk pre) with
      | none => (none, none, some ("rpc server: can\x27t find service:" ++ String.mk pre))
      | some svc =>
        match svc.methods (String.mk post) with
        | none => (some svc, none, some ("rpc server: can\x27t find method:" ++ String.mk post))
        | some mtype => (some svc, some mtype, none) := by
  have hdot : lastIndexByte '.' sm.data = pre.length := by
    rw [h1]; exact lastIndexByte_split pre post h2
  have hlt : ¬ ((pre.length : Int) < 0) := by omega
  have htake : sm.data.take pre.length = pre := by
    rw [h1]; simp
  have hdrop : sm.data.drop (pre.length + 1) = post := by
    rw [h1]; simp
  simp only [Server.findService, hdot, if_neg hlt, Int.toNat_ofNat, htake, hdrop]

theorem findService_of_not_mem (server : Server) (sm : String) (h : '.' ∉ sm.data) :
    server.findService sm =
      (none, none, some ("rpc server: service/method request ill-formed:" ++ sm)) := by
  have hdot : lastIndexByte '.' sm.data = -1 := lastIndexByte_of_not_mem h
  simp [Server.findService, hdot]

/-- C10: `findService(sm)` returns without error exactly when `sm` is `pre.post` with no `'.'`
in `post` (so the split is at the last `'.'`), `pre` is a key of the service map and `post` is
a key of the method map of that service, and it then returns that service and that method
descriptor. Otherwise the error is non-nil and the method descriptor is nil: the error is the
ill-formed message when `sm` has no `'.'`, the message for a missing service when `pre` is not
a key of the service map, and the message for a missing method when `post` is not a key of the
method map of the service. -/
theorem findService_spec (server : Server) (sm : String) :
    ((server.findService sm).2.2 = none ↔
      ∃ pre post svc mtype, sm.data = pre ++ '.' :: post ∧ '.' ∉ post ∧
        server.serviceMap (String.mk pre) = some svc ∧
        svc.methods (String.mk post) = some mtype) ∧
    (∀ pre post svc mtype, sm.data = pre ++ '.' :: post → '.' ∉ post →
      server.serviceMap (String.mk pre) = some svc → svc.methods (String.mk post) = some mtype →
      server.findService sm = (some svc, some mtype, none)) ∧
    ((server.findService sm).2.2 ≠ none → (server.findService sm).2.1 = none) ∧
    ('.' ∉ sm.data → server.findService sm =
      (none, none, some ("rpc server: service/method request ill-formed:" ++ sm))) ∧
    (∀ pre post, sm.data = pre ++ '.' :: post → '.' ∉ post →
      server.serviceMap (String.mk pre) = none →
      server.findService sm =
        (none, none, some ("rpc server: can\x27t find service:" ++ String.mk pre))) ∧
    (∀ pre post svc, sm.data = pre ++ '.' :: post → '.' ∉ post →
      server.serviceMap (String.mk pre) = some svc → svc.methods (String.mk post) = none →
      server.findService sm =
        (some svc, none, some ("rpc server: can\x27t find method:" ++ String.mk post))) := by
  refine ⟨?_, ?_, ?_, findService_of_not_mem server sm, ?_, ?_⟩
  · constructor
    · intro h
      by_cases hmem : '.' ∈ sm.data
      · obtain ⟨pre, post, h1, h2⟩ := exists_last_split hmem
        rw [findService_of_split server sm pre post h1 h2] at h
        rcases hs : server.serviceMap (String.mk pre) with _ | svc
        · simp only [hs] at h; cases h
        · rcases hm : svc.methods (String.mk post) with _ | mtype
          · simp only [hs, hm] at h; cases h
          · exact ⟨pre, post, svc, mtype, h1, h2, hs, hm⟩
      · rw [findService_of_not_mem server sm hmem] at h
        cases h
    · rintro ⟨pre, post, svc, mtype, h1, h2, hs, hm⟩
      rw [findService_of_split server sm pre post h1 h2, hs]
      simp only [hm]
  · intro pre post svc mtype h1 h2 hs hm
    rw [findService_of_split server sm pre post h1 h2, hs]
    simp only [hm]
  · intro h
    by_cases hmem : '.' ∈ sm.data
    · obtain ⟨pre, post, h1, h2⟩ := exists_last_split hmem
      rw [findService_of_split server sm pre post h1 h2] at h ⊢
      rcases hs : server.serviceMap (String.mk pre) with _ | svc
      · rfl
      · rcases hm : svc.methods (String.mk post) with _ | mtype
        · simp only [hm]
        · simp only [hs, hm] at h
          exact absurd rfl h
    · rw [findService_of_not_mem server sm hmem]
  · intro pre post h1 h2 hs
    rw [findService_of_split server sm pre post h1 h2, hs]
  · intro pre post svc h1 h2 hs hm
    rw [findService_of_split server sm pre post h1 h2, hs]
    simp only [hm]

/-! ## `service.registerMethods` and `service.call` -/

/-- C14 fails on the code. The method `Bad(args secret, reply *int) error` of `Foo` has an
argument type that is neither exported nor builtin, and `registerMethods` stores it: the test
`!isExportedOrBuiltinType(argType) && !isExportedOrBuiltinType(replyType)` skips a method only
when both types fail, and a pointer type never fails (it has no name and no package path).
For the receiver of the test, with the methods `Sum` and `sum`, `Sum` alone is stored. -/
theorem registerMethods_keeps_unexported_arg :
    isExportedOrBuiltinType secretType = false ∧
    isExportedOrBuiltinType (RType.ptr secretType) = true ∧
    ((newService "Foo" [fooSum, fooLowerSum, fooBad] (Value.int 0)).bind
      (fun s => s.methods "Bad")).isSome = true ∧
    ((newService "Foo" [fooSum, fooLowerSum, fooBad] (Value.int 0)).bind
      (fun s => s.methods "Sum")).isSome = true ∧
    (fooService.bind (fun s => s.methods "Sum")).isSome = true ∧
    (fooService.bind (fun s => s.methods "sum")).isSome = false := by
  decide

theorem runCalls_numCalls (s : service) (calls : List (Value × Value)) :
    ∀ m : methodType, (runCalls s m calls).numCalls = m.numCalls + calls.length := by
  induction calls with
  | nil => intro m; rfl
  | cons c rest ih =>
    intro m
    obtain ⟨argv, replyv⟩ := c
    simp only [runCalls, ih, service.call, List.length_cons]
    omega

/-- C15: `service.call(m, argv, replyv)` does what a direct call of the method on the receiver
does (the same reply and the same error, nil when the method returns nil; it panics when the
method panics) and increases `numCalls` by exactly one, whatever the method returns, leaving
the rest of the descriptor as it is; so after `k` calls the counter has grown by `k`. For the
test: `Sum` with `Args{1, 2}` leaves 3 in the reply, returns nil and counts one call, and a
method that returns an error is counted as well. -/
theorem service_call_spec (s : service) (m : methodType) (argv replyv : Value) :
    (s.call m argv replyv).2 = m.method.Func s.rcvr argv replyv ∧
    (s.call m argv replyv).1.numCalls = m.numCalls + 1 ∧
    (s.call m argv replyv).1.ArgType = m.ArgType ∧
    (s.call m argv replyv).1.ReplyType = m.ReplyType ∧
    (∀ calls : List (Value × Value),
      (runCalls s m calls).numCalls = m.numCalls + calls.length) ∧
    fooService.bind (fun foo => (foo.methods "Sum").map (fun sum =>
      ((foo.call sum (Value.pair (Value.int 1) (Value.int 2)) (Value.pointer (Value.int 0))).2,
        (foo.call sum (Value.pair (Value.int 1) (Value.int 2))
          (Value.pointer (Value.int 0))).1.numCalls))) =
      some (some (Value.pointer (Value.int 3), none), 1) ∧
    (fooService.bind (fun foo =>
      (foo.call (fooDescriptor fooFail) (Value.pair (Value.int 1) (Value.int 2))
        (Value.pointer (Value.int 0))).2)) = some (Value.pointer (Value.int 0), some "failed") ∧
    (fooService.map (fun foo =>
      (foo.call (fooDescriptor fooFail) (Value.pair (Value.int 1) (Value.int 2))
        (Value.pointer (Value.int 0))).1.numCalls)) = some 1 := by
  refine ⟨rfl, rfl, rfl, rfl, fun calls => runCalls_numCalls s calls m, ?_, ?_, ?_⟩
  · decide
  · decide
  · decide

/-! ## The server: requests that do not resolve, and the handshake -/

theorem findService_mtype_of_error (server : Server) (sm : String)
    (h : (server.findService sm).2.2 ≠ none) : (server.findService sm).2.1 = none := by
  by_cases hmem : '.' ∈ sm.data
  · obtain ⟨pre, post, h1, h2⟩ := exists_last_split hmem
    rw [findService_of_split server sm pre post h1 h2] at h ⊢
    rcases hs : server.serviceMap (String.mk pre) with _ | svc
    · rfl
    · rcases hm : svc.methods (String.mk post) with _ | mtype
      · simp only [hm]
      · simp only [hs, hm] at h
        exact absurd rfl h
  · rw [findService_of_not_mem server sm hmem]

theorem readRequest_panics (server : Server) (cc : FrameCodec) (h : Header)
    (rest : List Frame) (hin : cc.incoming = Frame.header h :: rest)
    (herr : (server.findService h.ServiceMethod).2.2 ≠ none) :
    (server.readRequest cc).2 = none ∧ (server.readRequest cc).1.written = cc.written := by
  have hm := findService_mtype_of_error server h.ServiceMethod herr
  simp [Server.readRequest, FrameCodec.ReadHeader, hin, hm, methodType.newArgv]

/-- C11 fails on the code. When the service method of a request header does not resolve,
`readRequest` does not return the error of `findService`: it goes on to `req.mtype.newArgv()`
with a nil `mtype` and panics, so the serving loop writes no response. It is so for every
header that does not resolve, and in particular for a name without `'.'`, for an unknown
service and for the unknown method `Foo.Missing` of a registered service (a request for
`Foo.Sum` is read and started). -/
theorem readRequest_unresolved_panics :
    (∀ (server : Server) (cc : FrameCodec) (h : Header) (rest : List Frame),
      cc.incoming = Frame.header h :: rest →
      (server.findService h.ServiceMethod).2.2 ≠ none →
      (server.readRequest cc).2 = none ∧ (server.readRequest cc).1.written = cc.written) ∧
    (fooServer.findService "Foo.Missing").2.2 = some "rpc server: can\x27t find method:Missing" ∧
    (fooServer.serveCodecTurn (requestCodec "Foo.Missing")).2.isPanicked = true ∧
    (fooServer.serveCodecTurn (requestCodec "Foo.Missing")).1.written = [] ∧
    (fooServer.serveCodecTurn (requestCodec "Bar.Sum")).2.isPanicked = true ∧
    (fooServer.serveCodecTurn (requestCodec "Bar.Sum")).1.written = [] ∧
    (fooServer.serveCodecTurn (requestCodec "FooSum")).2.isPanicked = true ∧
    (fooServer.serveCodecTurn (requestCodec "FooSum")).1.written = [] ∧
    (fooServer.serveCodecTurn (requestCodec "Foo.Sum")).2.isPanicked = false := by
  refine ⟨readRequest_panics, ?_, ?_, ?_, ?_, ?_, ?_, ?_, ?_⟩ <;> decide

/-- C12 fails on the code. An option with a wrong magic number is rejected: the connection is
closed, no codec is built and the serving loop is not entered. An option with the right magic
number and a codec type without entry in the table is logged and not rejected: `ServeConn`
goes on to call the nil constructor and panics. -/
theorem serveConn_unknown_codec_panics :
    (∀ (codecs : String → Bool) (opt : ConnOption), opt.MagicNumber ≠ MagicNumber →
      Server.ServeConn (some opt) codecs =
        { codecBuilt := false, served := false, closed := true, exit := Exit.ok }) ∧
    (∀ (codecs : String → Bool) (opt : ConnOption), opt.MagicNumber = MagicNumber →
      codecs opt.CodecType = false → (Server.ServeConn (some opt) codecs).exit = Exit.panic) ∧
    Server.ServeConn
      (some { MagicNumber := 0x3bef5c, CodecType := "application/json", MaxCallTime := 0 })
      gobOnly =
      { codecBuilt := false, served := false, closed := true, exit := Exit.panic } := by
  refine ⟨?_, ?_, by decide⟩
  · intro codecs opt h
    simp [Server.ServeConn, h]
  · intro codecs opt h1 h2
    simp [Server.ServeConn, h1, h2]

/-! ## `handleRequest`: the timeout and the response of the method -/

/-- C13 fails on the code. With a timeout of one second and a method that returns after the
timer has fired, `handleRequest` writes the timeout response and returns, and the goroutine
of the method, which nothing stops, later writes its response too: two records are written
for the one request, the second with the reply of the method under the header that carries
the timeout message. It is so as well when the method returns an error. -/
theorem handleRequest_timeout_writes_twice :
    (handleRun 1000000000 "1s" sumHeader (Value.pointer (Value.int 3)) none
      (HandleState.init sumHeader) lateMethod).written =
      [({ sumHeader with Error := timeoutMessage "1s" }, invalidRequest),
        ({ sumHeader with Error := timeoutMessage "1s" }, Value.pointer (Value.int 3))] ∧
    (handleRun 1000000000 "1s" sumHeader (Value.pointer (Value.int 3)) none
      (HandleState.init sumHeader) lateMethod).handler = HandlerAt.returned ∧
    (handleRun 1000000000 "1s" sumHeader (Value.pointer (Value.int 3)) none
      (HandleState.init sumHeader) lateMethod).invoker = InvokerAt.finished ∧
    (handleRun 1000000000 "1s" sumHeader (Value.pointer (Value.int 0)) (some "failed")
      (HandleState.init sumHeader) lateMethod).written =
      [({ sumHeader with Error := timeoutMessage "1s" }, invalidRequest),
        ({ sumHeader with Error := "failed" }, invalidRequest)] := by
  decide


/-! ## The client -/

theorem env_seq (client : Client) (e : ClientEnv) : (client.env e).seq = client.seq := by
  cases e with
  | close ccErr =>
    simp only [Client.env, Client.Close]
    split <;> rfl
  | terminate err => rfl
  | remove seq =>
    simp only [Client.env, Client.removeCall]
    split <;> rfl

theorem envs_seq (es : List ClientEnv) : ∀ client : Client, (client.envs es).seq = client.seq := by
  induction es with
  | nil => intro client; rfl
  | cons e rest ih =>
    intro client
    simp only [Client.envs, ih, env_seq]

theorem registerCall_unavailable (client : Client) (call : Call) (between : List ClientEnv)
    (h : client.IsAvailable = false) :
    client.registerCall call between = (client, 0, some ErrClosing) := by
  simp [Client.registerCall, h]

theorem registerCall_available (client : Client) (call : Call) (between : List ClientEnv)
    (h : client.IsAvailable = true) :
    (client.registerCall call between).2.2 = none ∧
    (client.registerCall call between).2.1 = client.seq ∧
    (client.registerCall call between).1.seq = client.seq + 1 ∧
    (client.registerCall call between).1.pending.lookup client.seq =
      some { call with Seq := client.seq } := by
  simp [Client.registerCall, h, envs_seq, pendingStore, List.lookup]

theorem runClient_seqs (events : List ClientEvent) :
    ∀ client : Client,
      (runClient client events).2 =
        List.range' client.seq (runClient client events).2.length := by
  induction events with
  | nil => intro client; rfl
  | cons ev rest ih =>
    intro client
    cases ev with
    | other e =>
      simp only [runClient]
      rw [← env_seq client e]
      exact ih _
    | register call between =>
      cases h : client.IsAvailable with
      | false =>
        simp only [runClient, registerCall_unavailable client call between h]
        exact ih _
      | true =>
        obtain ⟨h1, h2, h3, _⟩ := registerCall_available client call between h
        simp only [runClient, h1, h2, List.length_cons, List.range'_succ]
        rw [← h3]
        exact congrArg _ (ih _)

/-- C16: on a client made by `newClientCodec`, whatever else happens to it (`Close`,
`terminateCalls`, `removeCall`, also between the test `IsAvailable` and the assignment of a
`registerCall`), the sequence numbers that the successful calls of `registerCall` return are
1, 2, 3, ... in the order of the calls: strictly increasing and pairwise distinct. A successful
call returns the counter, increments it and stores the call under the number returned; a call on
a client that is not available returns 0 and `ErrClosing` and leaves the client, so also `seq`
and `pending`, as it is. The counter is a natural number here: the `uint64` of the code does not
wrap around before `2 ^ 64` calls. -/
theorem registerCall_seq_increasing (cc : FrameCodec) (events : List ClientEvent) :
    (runClient (newClientCodec cc) events).2 =
      List.range' 1 (runClient (newClientCodec cc) events).2.length ∧
    List.Pairwise (fun a b => a < b) (runClient (newClientCodec cc) events).2 ∧
    (runClient (newClientCodec cc) events).2.Nodup ∧
    (∀ (client : Client) (call : Call) (between : List ClientEnv),
      client.IsAvailable = true →
        (client.registerCall call between).2.2 = none ∧
        (client.registerCall call between).2.1 = client.seq ∧
        (client.registerCall call between).1.seq = client.seq + 1 ∧
        (client.registerCall call between).1.pending.lookup client.seq =
          some { call with Seq := client.seq }) ∧
    (∀ (client : Client) (call : Call) (between : List ClientEnv),
      client.IsAvailable = false →
        client.registerCall call between = (client, 0, some ErrClosing)) ∧
    (runClient (newClientCodec cc)
      [ClientEvent.register (sumCall 0) [], ClientEvent.other (ClientEnv.remove 1),
        ClientEvent.register (sumCall 0) [ClientEnv.close none],
        ClientEvent.register (sumCall 0) []]).2 = [1, 2] := by
  have h := runClient_seqs events (newClientCodec cc)
  have h1 : (newClientCodec cc).seq = 1 := rfl
  rw [h1] at h
  refine ⟨h, ?_, ?_, registerCall_available, registerCall_unavailable, ?_⟩
  · rw [h]
    exact List.pairwise_lt_range' 1 _
  · rw [h]
    exact List.nodup_range' 1 _
  · rfl

theorem ReadHeader_incoming (cc : FrameCodec) (nilDest : Bool) :
    (cc.ReadHeader nilDest).1.incoming.length ≤ cc.incoming.length ∧
    (∀ h, (cc.ReadHeader nilDest).2 = Except.ok h →
      (cc.ReadHeader nilDest).1.incoming.length < cc.incoming.length) := by
  unfold FrameCodec.ReadHeader
  cases cc.incoming with
  | nil => simp
  | cons f rest => simp

theorem ReadBody_incoming (cc : FrameCodec) (nilDest : Bool) :
    (cc.ReadBody nilDest).1.incoming.length ≤ cc.incoming.length := by
  unfold FrameCodec.ReadBody
  cases cc.incoming with
  | nil => simp
  | cons f rest => simp

theorem removeCall_cc (client : Client) (seq : Nat) :
    (client.removeCall seq).1.cc = client.cc := by
  unfold Client.removeCall
  split <;> rfl

theorem receiveLoop_ends (errorf : String → String) (fuel : Nat) :
    ∀ client : Client, client.cc.incoming.length < fuel →
      (receiveLoop errorf fuel client).2 ≠ none := by
  induction fuel with
  | zero => intro client h; omega
  | succ fuel ih =>
    intro client h
    rw [receiveLoop]
    split
    · simp
    · rename_i cc1 hd heq
      have h1 := (ReadHeader_incoming client.cc false).2 hd (by rw [heq])
      rw [heq] at h1
      simp only at h1
      split
      · rename_i client1 hrm
        have h2 := removeCall_cc { client with cc := cc1 } hd.Seq
        rw [hrm] at h2
        simp only at h2
        split
        · simp
        · rename_i cc2 v hb
          apply ih
          have h3 := ReadBody_incoming client1.cc true
          rw [hb, h2] at h3
          simp only at h3 ⊢
          omega
      · rename_i client1 call hrm
        have h2 := removeCall_cc { client with cc := cc1 } hd.Seq
        rw [hrm] at h2
        simp only at h2
        split
        · split
          · simp
          · rename_i cc2 v hb
            apply ih
            have h3 := (ReadHeader_incoming client1.cc true).1
            rw [hb, h2] at h3
            simp only at h3 ⊢
            omega
        · split
          · simp
          · rename_i cc2 v hb
            apply ih
            have h3 := ReadBody_incoming client1.cc false
            rw [hb, h2] at h3
            simp only at h3 ⊢
            omega

/-- C20: in `Client.receive` the branch for a response whose header has an error and matches
a pending call does not call `ReadBody` with a nil destination: it calls `ReadHeader(nil)`.
The codec calls for such a record are `ReadHeader, ReadHeader`; with the gob codec the second
one takes the body frame off the connection and returns the error of decoding into a nil
`*Header`, which ends the loop: `terminateCalls` shuts the client down and gives that error to
the other pending call, whose response is never read. -/
theorem receive_error_branch_reads_header :
    (Client.receive id answeredClient).cc.calls =
      [CodecCall.ReadHeader false, CodecCall.ReadHeader true] ∧
    (Client.receive id answeredClient).completed =
      [{ sumCall 1 with Error := some "boom", Done := 1 }] ∧
    (Client.receive id answeredClient).shutdown = true ∧
    (Client.receive id answeredClient).pending =
      [(2, { sumCall 2 with Error := some "gob: DecodeValue of unassignable value", Done := 1 })] ∧
    (Client.receive id answeredClient).cc.incoming =
      [Frame.header { ServiceMethod := "Foo.Sum", Seq := 2, Error := "" },
        Frame.body (Value.int 3)] := by
  decide


/-! ## The pool of clients -/

theorem lookup_cons_eq (k a : String) (v : Option Client)
    (rest : List (String × Option Client)) :
    List.lookup k ((a, v) :: rest) = if k = a then some v else List.lookup k rest := by
  by_cases hk : k = a
  · subst hk; simp [List.lookup]
  · have hk2 : (k == a) = false := by simpa using hk
    simp [List.lookup, hk2, hk]

theorem lookup_map_set (key : String) (client : Option Client) (k : String) :
    ∀ pool : List (String × Option Client),
      (pool.map (fun e => if e.1 = key then (key, client) else e)).lookup k =
        if k = key then (pool.lookup key).map (fun _ => client) else pool.lookup k := by
  intro pool
  induction pool with
  | nil => simp [List.lookup]
  | cons e rest ih =>
    obtain ⟨a, v⟩ := e
    by_cases hak : a = key
    · subst hak
      have h1 : (if (a, v).1 = a then (a, client) else (a, v)) = (a, client) := if_pos rfl
      rw [List.map_cons, h1, lookup_cons_eq, lookup_cons_eq, lookup_cons_eq, ih]
      by_cases hk : k = a
      · simp [hk]
      · simp [hk]
    · have h1 : (if (a, v).1 = key then (key, client) else (a, v)) = (a, v) := if_neg hak
      have hka : ¬ key = a := fun h => hak h.symm
      rw [List.map_cons, h1, lookup_cons_eq, lookup_cons_eq, lookup_cons_eq, ih, if_neg hka]
      by_cases hk : k = key
      · subst hk; simp [hka]
      · simp only [if_neg hk]

theorem lookup_append_one (key : String) (client : Option Client) (k : String) :
    ∀ pool : List (String × Option Client),
      (pool ++ [(key, client)]).lookup k =
        match pool.lookup k with
        | some v => some v
        | none => if k = key then some client else none := by
  intro pool
  induction pool with
  | nil =>
    rw [List.nil_append, lookup_cons_eq]
    rfl
  | cons e rest ih =>
    obtain ⟨a, v⟩ := e
    rw [List.cons_append, lookup_cons_eq, lookup_cons_eq, ih]
    by_cases hk : k = a
    · simp [hk]
    · simp only [if_neg hk]

theorem lookup_poolSet (pool : List (String × Option Client)) (key : String)
    (client : Option Client) (k : String) :
    (poolSet pool key client).lookup k = if k = key then some client else pool.lookup k := by
  unfold poolSet
  cases h : pool.lookup key with
  | none =>
    simp only [Option.isSome_none, Bool.false_eq_true, if_false, lookup_append_one]
    by_cases hk : k = key
    · subst hk; simp [h]
    · simp only [if_neg hk]
      cases pool.lookup k <;> rfl
  | some v =>
    simp only [Option.isSome_some, if_true, lookup_map_set, h, Option.map_some']

theorem lookup_poolDelete (key k : String) :
    ∀ pool : List (String × Option Client),
      (poolDelete pool key).lookup k = if k = key then none else pool.lookup k := by
  intro pool
  induction pool with
  | nil => simp [poolDelete, List.lookup]
  | cons e rest ih =>
    obtain ⟨a, v⟩ := e
    unfold poolDelete at ih ⊢
    by_cases hak : a = key
    · have h1 : List.filter (fun e : String × Option Client => decide (e.1 ≠ key))
          ((a, v) :: rest) =
          List.filter (fun e : String × Option Client => decide (e.1 ≠ key)) rest :=
        List.filter_cons_of_neg (by simpa using hak)
      rw [h1, ih, lookup_cons_eq]
      by_cases hk : k = key
      · simp only [if_pos hk]
      · have hka : ¬ k = a := fun h => hk (h.trans hak)
        simp only [if_neg hk, if_neg hka]
    · have h1 : List.filter (fun e : String × Option Client => decide (e.1 ≠ key))
          ((a, v) :: rest) =
          (a, v) :: List.filter (fun e : String × Option Client => decide (e.1 ≠ key)) rest :=
        List.filter_cons_of_pos (by simpa using hak)
      rw [h1, lookup_cons_eq, lookup_cons_eq, ih]
      by_cases hk : k = key
      · have hka : ¬ k = a := fun h => hak (h.symm.trans hk)
        simp only [if_pos hk, if_neg hka]
      · simp only [if_neg hk]

theorem lookup_mem_keys (k : String) (v : Option Client) :
    ∀ pool : List (String × Option Client),
      pool.lookup k = some v → k ∈ pool.map Prod.fst := by
  intro pool
  induction pool with
  | nil => simp [List.lookup]
  | cons e rest ih =>
    obtain ⟨a, w⟩ := e
    rw [lookup_cons_eq]
    by_cases hk : k = a
    · subst hk; simp
    · simp only [if_neg hk, List.map_cons, List.mem_cons]
      exact fun h => Or.inr (ih h)

theorem closeLoop_keeps_closing (ccErr : String → Option String) (k : String) (c : Client)
    (hc : c.closing = true) (keys : List String) :
    ∀ (xc : XClient) (closed : List String),
      xc.clients.lookup k = some (some c) →
        (XClient.closeLoop ccErr keys xc closed).1.clients.lookup k = some (some c) ∧
        (k ∈ keys → (XClient.closeLoop ccErr keys xc closed).2.2 ≠ Exit.ok) := by
  induction keys with
  | nil => intro xc closed h; exact ⟨h, fun hk => absurd hk (List.not_mem_nil k)⟩
  | cons key rest ih =>
    intro xc closed h
    rw [XClient.closeLoop]
    split
    · rename_i hl
      refine ⟨(ih xc closed h).1, fun hk => (ih xc closed h).2 ?_⟩
      rcases List.mem_cons.1 hk with rfl | hk
      · rw [h] at hl; cases hl
      · exact hk
    · exact ⟨h, fun _ => by simp⟩
    · rename_i client hl
      split
      · rename_i client1 err hcl
        refine ⟨?_, fun _ => by simp⟩
        simp only [lookup_poolSet]
        by_cases hk : k = key
        · subst hk
          rw [h] at hl
          cases hl
          simp only [Client.Close, hc, if_true, Prod.mk.injEq] at hcl
          rw [← hcl.1]
          simp
        · simp only [if_neg hk, h]
      · rename_i client1 hcl
        have hk : k ≠ key := by
          rintro rfl
          rw [h] at hl
          cases hl
          simp [Client.Close, hc] at hcl
        have h2 : (poolDelete xc.clients key).lookup k = some (some c) := by
          simp only [lookup_poolDelete, if_neg hk, h]
        refine ⟨(ih _ _ h2).1, fun hm => (ih _ _ h2).2 ?_⟩
        rcases List.mem_cons.1 hm with rfl | hm
        · exact absurd rfl hk
        · exact hm

theorem Close_keeps_closing (order : List String) (ccErr : String → Option String)
    (xc : XClient) (k : String) (c : Client) (hl : xc.clients.lookup k = some (some c))
    (hc : c.closing = true) :
    (XClient.Close order ccErr xc).1.clients.lookup k = some (some c) ∧
    (XClient.Close order ccErr xc).2.2 ≠ Exit.ok := by
  have h := closeLoop_keeps_closing ccErr k c hc
    (rangeOrder order (xc.clients.map Prod.fst)) xc [] hl
  exact ⟨h.1, h.2 (rangeOrder_mem.2 (lookup_mem_keys k _ _ hl))⟩

/-- C18 fails on the code. `XClient.Close` returns at the first client whose `Close` returns
an error, before the `delete`: a client that is already closing returns `ErrClosing`, stays in
the pool, and the clients that the loop has not visited yet are neither closed nor removed. So
whenever the pool holds a client that is closing, in whatever order the map is ranged over, the
call does not return nil and leaves that client in the pool. For a pool of a closing client
and a client in use: when the closing client is visited first, the pool keeps both clients and
`Close` is not called on the other one; when it is visited second, the pool keeps it. -/
theorem xclient_close_stops_at_error :
    (∀ (order : List String) (ccErr : String → Option String) (xc : XClient) (k : String)
      (c : Client), xc.clients.lookup k = some (some c) → c.closing = true →
        (XClient.Close order ccErr xc).1.clients.lookup k = some (some c) ∧
        (XClient.Close order ccErr xc).2.2 ≠ Exit.ok) ∧
    (XClient.Close ["tcp@10.0.0.1:7001", "tcp@10.0.0.2:7001"] (fun _ => none) samplePool).2 =
      (["tcp@10.0.0.1:7001"], Exit.err ErrClosing) ∧
    (XClient.Close ["tcp@10.0.0.1:7001", "tcp@10.0.0.2:7001"] (fun _ => none) samplePool).1 =
      samplePool ∧
    (XClient.Close ["tcp@10.0.0.2:7001", "tcp@10.0.0.1:7001"] (fun _ => none) samplePool).2 =
      (["tcp@10.0.0.2:7001", "tcp@10.0.0.1:7001"], Exit.err ErrClosing) ∧
    (XClient.Close ["tcp@10.0.0.2:7001", "tcp@10.0.0.1:7001"] (fun _ => none)
      samplePool).1.clients.map Prod.fst = ["tcp@10.0.0.1:7001"] := by
  refine ⟨Close_keeps_closing, ?_, ?_, ?_, ?_⟩ <;> decide

theorem redial_failed (xc : XClient) (rpcAddr network address e : String)
    (dial : String → String → Except String Client)
    (hs : splitByte '@' rpcAddr = [network, address])
    (hd : dial network address = Except.error e) :
    xc.redial rpcAddr dial =
      ({ xc with clients := poolSet xc.clients rpcAddr none }, some (none, none)) := by
  simp only [XClient.redial, hs, hd]

theorem dial_failed (xc : XClient) (rpcAddr network address e : String) (ccErr : Option String)
    (dial : String → String → Except String Client)
    (hl : xc.clients.lookup rpcAddr = none)
    (hs : splitByte '@' rpcAddr = [network, address])
    (hd : dial network address = Except.error e) :
    (xc.dial rpcAddr ccErr dial).2 = some (none, none) ∧
    (xc.dial rpcAddr ccErr dial).1.clients.lookup rpcAddr = some none ∧
    ((xc.dial rpcAddr ccErr dial).1.dial rpcAddr ccErr dial).2 = none := by
  have h1 : xc.dial rpcAddr ccErr dial =
      ({ xc with clients := poolSet xc.clients rpcAddr none }, some (none, none)) := by
    simp only [XClient.dial, hl]
    exact redial_failed xc rpcAddr network address e dial hs hd
  have h2 : (poolSet xc.clients rpcAddr none).lookup rpcAddr = some none := by
    simp [lookup_poolSet]
  rw [h1]
  refine ⟨rfl, h2, ?_⟩
  simp only [XClient.dial, h2]

/-- C19 fails on the code. `XClient.dial` assigns the error of `Dial` to a local variable and
never reads it: when `Dial` fails for an address that is not in the pool, `dial` stores the nil
client in the pool and returns `(nil, nil)`. Then `XClient.call` sees no error and calls
`client.Call` on the nil client, which panics, and the next `dial` of that address finds the
nil client in the pool and panics at `client.IsAvailable()`. -/
theorem xclient_dial_drops_error :
    (∀ (xc : XClient) (rpcAddr network address e : String) (ccErr : Option String)
      (dial : String → String → Except String Client),
      xc.clients.lookup rpcAddr = none →
      splitByte '@' rpcAddr = [network, address] →
      dial network address = Except.error e →
        (xc.dial rpcAddr ccErr dial).2 = some (none, none) ∧
        (xc.dial rpcAddr ccErr dial).1.clients.lookup rpcAddr = some none ∧
        ((xc.dial rpcAddr ccErr dial).1.dial rpcAddr ccErr dial).2 = none) ∧
    refused "tcp" "127.0.0.1:9" =
      Except.error "dial tcp 127.0.0.1:9: connect: connection refused" ∧
    XClient.dial (NewXClient "http://localhost:9999/zrpc" "RoundRobin" 0) "tcp@127.0.0.1:9"
      none refused =
      ({ NewXClient "http://localhost:9999/zrpc" "RoundRobin" 0 with
          clients := [("tcp@127.0.0.1:9", none)] },
        some (none, none)) ∧
    (XClient.call (NewXClient "http://localhost:9999/zrpc" "RoundRobin" 0) "tcp@127.0.0.1:9"
      none refused (fun _ => none)).2 = none ∧
    (XClient.dial
      (XClient.dial (NewXClient "http://localhost:9999/zrpc" "RoundRobin" 0)
        "tcp@127.0.0.1:9" none refused).1
      "tcp@127.0.0.1:9" none refused).2 = none := by
  refine ⟨dial_failed, ?_, ?_, ?_, ?_⟩
  · rfl
  · decide
  · decide
  · decide


/-! ## The gob codec -/

theorem bigEndian32_length (x : Int) : (bigEndian32 x).length = 4 := rfl

theorem writeFrame_open {E D : Type} (c : GobCodec E D) (hc : c.closed = false) :
    c.writeFrame =
      ({ c with
          output := c.output ++ bigEndian32 (toInt32 (Int.ofNat c.encBuf.length)) ++ c.encBuf
          encBuf := [] }, none) := by
  simp [GobCodec.writeFrame, GobCodec.connWrite, hc]

theorem deleteSlice_of_find {nums : List String} {cur : String} {k : Int}
    (hk : find nums cur = some k) (hk0 : 0 ≤ k) (hkx : nums[k.toNat]? = some cur) :
    deleteSlice nums cur = some (nums.take k.toNat ++ nums.drop (k.toNat + 1)) := by
  have hklt : k.toNat < nums.length := (List.getElem?_eq_some.1 hkx).1
  unfold deleteSlice
  simp only [hk]
  have hk1 : ¬ (k = -1) := by omega
  simp only [hk1, if_false]
  split_ifs with hlast
  · have hd : nums.drop (k.toNat + 1) = [] := by
      apply List.drop_eq_nil_of_le
      omega
    rw [hd, List.append_nil]
  · rfl

/-- C21: on a non-empty ascending slice `nums`, `find(nums, cur)` returns without indexing out
of range; it returns `-1` exactly when `cur` does not occur in `nums`, and otherwise an index
`k` in range with `nums[k] = cur`. Then `deleteSlice(nums, cur)` returns `nums` without the
element at that index when `cur` occurs, which removes exactly one occurrence of `cur` and
keeps the other elements in their order, and returns `nums` itself when `cur` does not occur.
On the empty slice `find` indexes `nums[0]` out of range and panics, and so does
`deleteSlice`. -/
theorem find_deleteSlice_spec (nums : List String) (cur : String) (hs : nums.Sorted SLe)
    (hne : nums ≠ []) :
    (∃ k : Int, find nums cur = some k ∧ (k = -1 ↔ cur ∉ nums) ∧
      (k ≠ -1 → 0 ≤ k ∧ k < (nums.length : Int) ∧ nums[k.toNat]? = some cur ∧
        deleteSlice nums cur = some (nums.take k.toNat ++ nums.drop (k.toNat + 1)) ∧
        nums.Perm (cur :: (nums.take k.toNat ++ nums.drop (k.toNat + 1))))) ∧
    (cur ∈ nums → ∃ res, deleteSlice nums cur = some res ∧ nums.Perm (cur :: res) ∧
      res.length + 1 = nums.length ∧ res.count cur + 1 = nums.count cur) ∧
    (cur ∉ nums → deleteSlice nums cur = some nums) ∧
    find [] cur = none ∧ deleteSlice [] cur = none := by
  obtain ⟨k, hk, hk2⟩ := find_sorted hs hne cur
  have hnil : deleteSlice [] cur = none := by simp [deleteSlice, find_nil]
  rcases hk2 with ⟨hk1, habs⟩ | ⟨hk0, hkx⟩
  · refine ⟨⟨k, hk, ⟨fun _ => habs, fun _ => hk1⟩, fun h => absurd hk1 h⟩,
      fun h => absurd h habs, fun _ => deleteSlice_not_mem hs hne habs, find_nil cur, hnil⟩
  · have hklt : k.toNat < nums.length := (List.getElem?_eq_some.1 hkx).1
    have hmem : cur ∈ nums := List.mem_iff_getElem?.2 ⟨_, hkx⟩
    have hd := deleteSlice_of_find hk hk0 hkx
    have hp := (sorted_take_drop_of_getElem? hs hkx).2
    refine ⟨⟨k, hk, ⟨fun h => by omega, fun h => absurd hmem h⟩,
        fun _ => ⟨hk0, by omega, hkx, hd, hp⟩⟩,
      fun _ => ⟨_, hd, hp, ?_, ?_⟩, fun h => absurd hmem h, find_nil cur, hnil⟩
    · have := hp.length_eq
      simp only [List.length_cons] at this
      omega
    · have := hp.count_eq cur
      simp only [List.count_cons_self] at this
      omega

theorem find_deleteSlice_spec_witness :
    find ["a", "b", "b", "d"] "b" = some 1 ∧
    deleteSlice ["a", "b", "b", "d"] "b" = some ["a", "b", "d"] ∧
    find ["a", "b", "b", "d"] "c" = some (-1) ∧
    deleteSlice ["a", "b", "b", "d"] "c" = some ["a", "b", "b", "d"] ∧
    ∃ res, deleteSlice ["a", "b", "b", "d"] "b" = some res ∧
      res.count "b" + 1 = (["a", "b", "b", "d"] : List String).count "b" :=
  ⟨by decide, by decide, by decide, by decide,
    let ⟨res, h1, _, _, h4⟩ :=
      (find_deleteSlice_spec ["a", "b", "b", "d"] "b" (by decide) (by decide)).2.1 (by decide)
    ⟨res, h1, h4⟩⟩

end Zrpc
